import Mathlib

/-!
# mst.c : the address-space binary tree and its minimal covering prefix list

A shallow embedding of `src/mst.c`.  The C program keeps three global objects: the node
`root_buf` and the two `calloc`-ed arrays `hosts` and `tree_nodes`, linked by pointers.
The embedding keeps that memory explicit: a `Heap` holds the three objects, a `Ptr` is the
address of one node, every dereference is a `Heap.read` and every store a `Heap.write`.
An out-of-bounds or NULL dereference, a failed `assert` and an exhausted recursion budget
all yield `none`.  Values of type `uint32_t` / `in_addr_t` are natural numbers, reduced
modulo `2^32` wherever the C arithmetic can wrap.
-/

namespace Mst

set_option autoImplicit false

/-! ## Memory model -/

/-- Address of a node: NULL, `&root_buf`, `&hosts[i]` or `&tree_nodes[i]`. -/
inductive Ptr where
  | null
  | rootp
  | host (i : Nat)
  | tnode (i : Nat)
deriving DecidableEq, Repr

/-- Pointer arithmetic `&base[k]`. -/
def Ptr.idx : Ptr → Nat → Ptr
  | .null, _ => .null
  | .rootp, k => if k = 0 then .rootp else .null
  | .host i, k => .host (i + k)
  | .tnode i, k => .tnode (i + k)

/-- The C `struct mst_node`; the field `pfx` is the C field named prefix. -/
structure mst_node where
  l : Ptr
  r : Ptr
  p : Ptr
  active : Bool
  width : Nat
  mask : Nat
  pfx : Nat
deriving DecidableEq, Repr

/-- A zero-filled node, as produced by `calloc` and by the initialiser `{0}`. -/
def mst_node.zero : mst_node :=
  { l := .null, r := .null, p := .null, active := false, width := 0, mask := 0, pfx := 0 }

/-- The global objects of the program: `root_buf` and the arrays `hosts`, `tree_nodes`
(an unallocated array is the empty list). -/
structure Heap where
  root : mst_node
  hosts : List mst_node
  tree_nodes : List mst_node
deriving DecidableEq, Repr

/-- Load through a pointer. -/
def Heap.read (H : Heap) : Ptr → Option mst_node
  | .null => none
  | .rootp => some H.root
  | .host i => H.hosts[i]?
  | .tnode i => H.tree_nodes[i]?

/-- Store a whole node through a pointer. -/
def Heap.write (H : Heap) (q : Ptr) (n : mst_node) : Option Heap :=
  match q with
  | .null => none
  | .rootp => some { H with root := n }
  | .host i => if i < H.hosts.length then some { H with hosts := H.hosts.set i n } else none
  | .tnode i =>
    if i < H.tree_nodes.length then some { H with tree_nodes := H.tree_nodes.set i n } else none

/-- Store into some fields of the node behind a pointer (`q->field = value`). -/
def Heap.modify (H : Heap) (q : Ptr) (f : mst_node → mst_node) : Option Heap :=
  (H.read q).bind (fun n => H.write q (f n))

/-- Bounded `for (i = 0; i < n; i++) body(i)`. -/
def for_loop (body : Nat → Heap → Option Heap) : Nat → Heap → Option Heap
  | 0, H => some H
  | k + 1, H => (for_loop body k H).bind (body k)

/-! ## 32-bit arithmetic -/

/-- The modulus of `uint32_t`. -/
def U32 : Nat := 4294967296

/-- The constant `~((uint32_t)0)`. -/
def ALL_ONES : Nat := 4294967295

/-- Bitwise complement `~x` on `uint32_t`. -/
def u32_not (x : Nat) : Nat := ALL_ONES - x % U32

/-! ## The functions of mst.c -/

/-- `width_to_mask`: the failed assertion is `none`. -/
def width_to_mask (width : Nat) : Option Nat :=
  if width ≤ 32 ∧ width ≥ 16 then
    some (if width < 32 then (ALL_ONES <<< (32 - width)) % U32 else ALL_ONES)
  else none

/-- `ascii_to_in_addr_t` after the `sscanf`: `scan` is `none` when fewer than four integers
were read, otherwise the four scanned values as stored in the `in_addr_t` variables.
Returns the reported status and the value left in `*ia`. -/
def ascii_to_in_addr_t (scan : Option (Nat × Nat × Nat × Nat)) : Nat × Nat :=
  match scan with
  | none => (0, 0)
  | some (a, b, c, d) =>
    if a > 255 then (0, 0)
    else if b > 255 then (0, 0)
    else if c > 255 then (0, 0)
    else if d > 255 then (0, 0)
    else
      (1, ((((((a &&& 255) <<< 24) % U32) ||| (((b &&& 255) <<< 16) % U32))
            ||| (((c &&& 255) <<< 8) % U32)) ||| (d &&& 255)))

/-- `host_to_node`: the failed assertion is `none`. -/
def host_to_node (H : Heap) (host : Nat) : Option Ptr :=
  if host &&& H.root.mask = H.root.pfx then
    some ((Ptr.host 0).idx (host &&& u32_not H.root.mask))
  else none

/-- The loop `while (node->active && node->p) { node = node->p; node->active = ...; }`. -/
def mark_host_up_loop : Nat → Heap → Ptr → Option Heap
  | 0, _, _ => none
  | fuel + 1, H, node =>
    (H.read node).bind fun n =>
      if n.active = true ∧ n.p ≠ Ptr.null then
        (H.read n.p).bind fun pn =>
          (H.read pn.l).bind fun ln =>
            (if ln.active then (H.read pn.r).map (fun rn => rn.active) else some false).bind
              fun v =>
                (H.write n.p { pn with active := v }).bind fun H1 =>
                  mark_host_up_loop fuel H1 n.p
      else some H

/-- `mark_host_up`. -/
def mark_host_up (fuel : Nat) (H : Heap) (host : Nat) : Option Heap :=
  (host_to_node H host).bind fun node =>
    (H.modify node (fun n => { n with active := true })).bind fun H1 =>
      mark_host_up_loop fuel H1 node

/-- The loop `while (node && node->active) { node->active = false; node = node->p; }`. -/
def mark_host_down_loop : Nat → Heap → Ptr → Option Heap
  | 0, _, _ => none
  | fuel + 1, H, node =>
    if node = Ptr.null then some H
    else
      (H.read node).bind fun n =>
        if n.active then
          (H.write node { n with active := false }).bind fun H1 =>
            mark_host_down_loop fuel H1 n.p
        else some H

/-- `mark_host_down`. -/
def mark_host_down (fuel : Nat) (H : Heap) (host : Nat) : Option Heap :=
  (host_to_node H host).bind fun node => mark_host_down_loop fuel H node

/-- One printed line: the five arguments of the `printf` in `print_mst`. -/
structure Line where
  o1 : Nat
  o2 : Nat
  o3 : Nat
  o4 : Nat
  width : Nat
deriving DecidableEq, Repr

/-- The address block `(prefix, width)` that a printed line `o1.o2.o3.o4/width` denotes. -/
def Line.block (ln : Line) : Nat × Nat :=
  (ln.o1 * 16777216 + ln.o2 * 65536 + ln.o3 * 256 + ln.o4, ln.width)

/-- The line printed for an active node. -/
def print_line (n : mst_node) : Line :=
  { o1 := (n.pfx >>> 24) &&& 255, o2 := (n.pfx >>> 16) &&& 255,
    o3 := (n.pfx >>> 8) &&& 255, o4 := n.pfx &&& 255, width := n.width }

/-- `print_mst`: the lines written to standard output, in order. -/
def print_mst : Nat → Heap → Ptr → Option (List Line)
  | 0, _, _ => none
  | fuel + 1, H, node =>
    if node = Ptr.null then some []
    else
      (H.read node).bind fun n =>
        if n.active then some [print_line n]
        else
          (print_mst fuel H n.l).bind fun out_l =>
            (print_mst fuel H n.r).bind fun out_r => some (out_l ++ out_r)

/-- The body of the loop of `build_host_list`. -/
def build_host_body (i : Nat) (H : Heap) : Option Heap :=
  (H.modify (Ptr.host i) (fun n => { n with pfx := (H.root.pfx + i) % U32 })).bind fun H1 =>
    (H1.modify (Ptr.host i) (fun n => { n with width := 32 })).bind fun H2 =>
      H2.modify (Ptr.host i) (fun n => { n with mask := ALL_ONES })

/-- `build_host_list`. -/
def build_host_list (H : Heap) (num_hosts : Nat) : Option Heap :=
  let H0 : Heap := { H with hosts := List.replicate num_hosts mst_node.zero }
  if num_hosts = 1 then H0.write (Ptr.host 0) H0.root
  else for_loop build_host_body num_hosts H0

/-- The statement `q->l = v`. -/
def set_l (q v : Ptr) (H : Heap) : Option Heap :=
  H.modify q (fun n => { n with l := v })

/-- The statement `q->r = v`. -/
def set_r (q v : Ptr) (H : Heap) : Option Heap :=
  H.modify q (fun n => { n with r := v })

/-- The statement `q->p = v`. -/
def set_p (q v : Ptr) (H : Heap) : Option Heap :=
  H.modify q (fun n => { n with p := v })

/-- The statement `q->active = v`. -/
def set_active (q : Ptr) (v : Bool) (H : Heap) : Option Heap :=
  H.modify q (fun n => { n with active := v })

/-- The statement `p->width = p->l->width - 1` (unsigned subtraction). -/
def set_width_from_l (q : Ptr) (H : Heap) : Option Heap :=
  (H.read q).bind fun n =>
    (H.read n.l).bind fun ln =>
      H.modify q (fun n1 => { n1 with width := (ln.width + U32 - 1) % U32 })

/-- The statement `p->mask = width_to_mask(p->width)`. -/
def set_mask_from_width (q : Ptr) (H : Heap) : Option Heap :=
  (H.read q).bind fun n =>
    (width_to_mask n.width).bind fun m => H.modify q (fun n1 => { n1 with mask := m })

/-- The statement `p->prefix = p->l->prefix & p->mask`. -/
def set_pfx_from_l (q : Ptr) (H : Heap) : Option Heap :=
  (H.read q).bind fun n =>
    (H.read n.l).bind fun ln => H.modify q (fun n1 => { n1 with pfx := ln.pfx &&& n.mask })

/-- The statement `q->l->p = v`. -/
def set_l_p (q v : Ptr) (H : Heap) : Option Heap :=
  (H.read q).bind fun n => set_p n.l v H

/-- The statement `q->r->p = v`. -/
def set_r_p (q v : Ptr) (H : Heap) : Option Heap :=
  (H.read q).bind fun n => set_p n.r v H

/-- The body of the loop of `populate_tree`, one C statement after the other, with
`p = &parents[i]` and `si = i << 1`. -/
def populate_body (subs parents : Ptr) (i : Nat) (H : Heap) : Option Heap :=
  (((((((((set_l (parents.idx i) (subs.idx ((i <<< 1) % U32)) H).bind
    (set_r (parents.idx i) (subs.idx (((i <<< 1) % U32 + 1) % U32)))).bind
    (set_p (parents.idx i) Ptr.null)).bind
    (set_active (parents.idx i) false)).bind
    (set_width_from_l (parents.idx i))).bind
    (set_mask_from_width (parents.idx i))).bind
    (set_pfx_from_l (parents.idx i))).bind
    (set_l_p (parents.idx i) (parents.idx i))).bind
    (set_r_p (parents.idx i) (parents.idx i)))

/-- The branch `len == 1` of `populate_tree`. -/
def populate_root (subs : Ptr) (H : Heap) : Option Heap :=
  (((((set_l Ptr.rootp (subs.idx 0) H).bind
    (set_r Ptr.rootp (subs.idx 1))).bind
    (set_p Ptr.rootp Ptr.null)).bind
    (set_l_p Ptr.rootp Ptr.rootp)).bind
    (set_r_p Ptr.rootp Ptr.rootp))

/-- `populate_tree`; `fuel` bounds the depth of the recursion. -/
def populate_tree : Nat → Heap → Ptr → Nat → Ptr → Option Heap
  | 0, _, _, _, _ => none
  | fuel + 1, H, subs, len, parents =>
    if len = 1 then populate_root subs H
    else
      (for_loop (populate_body subs parents) len H).bind fun H1 =>
        populate_tree fuel H1 parents (len >>> 1) (parents.idx len)

/-- `build_mst`. -/
def build_mst (fuel : Nat) (H : Heap) : Option Heap :=
  if H.root.width < 32 then
    let num_hosts := (1 <<< (32 - H.root.width)) % U32
    if num_hosts ≤ 65536 then
      (build_host_list H num_hosts).bind fun H1 =>
        populate_tree fuel { H1 with tree_nodes := List.replicate num_hosts mst_node.zero }
          (Ptr.host 0) (num_hosts >>> 1) (Ptr.tnode 0)
    else none
  else build_host_list H 1

/-- The start of `main` up to and including `build_mst()`: `addr` is the address that
`ascii_to_in_addr_t` left in `root->prefix`, `width` the value stored in `root->width`.
A call of `usage` (which exits) is `none`. -/
def main_init (fuel : Nat) (addr width : Nat) : Option Heap :=
  if width < 16 ∨ width > 32 then none
  else
    (width_to_mask width).bind fun m =>
      build_mst fuel
        { root := { mst_node.zero with pfx := addr &&& m, width := width, mask := m },
          hosts := [], tree_nodes := [] }

/-- A status update, as issued by the command loop. -/
inductive Op where
  | up (host : Nat)
  | down (host : Nat)
deriving DecidableEq, Repr

/-- The host an update is about. -/
def Op.host : Op → Nat
  | .up h => h
  | .down h => h

/-- One call of `mark_host_up` or `mark_host_down`. -/
def apply_op (fuel : Nat) (H : Heap) : Op → Option Heap
  | .up h => mark_host_up fuel H h
  | .down h => mark_host_down fuel H h

/-- A finite sequence of calls, first to last. -/
def run_ops (fuel : Nat) : Heap → List Op → Option Heap
  | H, [] => some H
  | H, op :: ops => (apply_op fuel H op).bind fun H1 => run_ops fuel H1 ops

/-! ## Specification-level definitions -/

/-- The heap `H1` is `H` with the node behind `q` replaced by `n`. -/
def Upd (H : Heap) (q : Ptr) (n : mst_node) (H1 : Heap) : Prop :=
  (∀ q1, H1.read q1 = if q1 = q then some n else H.read q1) ∧
    H1.hosts.length = H.hosts.length ∧ H1.tree_nodes.length = H.tree_nodes.length

/-- The mask with the low `j` bits clear: the value `width_to_mask (32 - j)` computes. -/
def maskOf (j : Nat) : Nat := (ALL_ONES <<< j) % U32

/-- Coordinates of the built tree: `loc d j i` is the address of the `i`-th node, counted
from the low addresses, of level `j` above the leaves, in a tree of depth `d`.  Level `0` is
the array `hosts`, level `d` is the root, and level `j` in between is the slice of
`tree_nodes` that starts at offset `2^d - 2 * 2^(d-j)`. -/
def loc (d j i : Nat) : Ptr :=
  if j = 0 then Ptr.host i
  else if j = d then Ptr.rootp
  else Ptr.tnode (2 ^ d - 2 * 2 ^ (d - j) + i)

/-- The first node of level `j`, as `populate_tree` receives it in `subs` and `parents`. -/
def levelBase (d j : Nat) : Ptr :=
  if j = 0 then Ptr.host 0 else Ptr.tnode (2 ^ d - 2 * 2 ^ (d - j))

/-- The node expected at `loc d j i` in a tree over the block starting at `P`, with active
flag `b`. -/
def nodeAt (P d j i : Nat) (b : Bool) : mst_node :=
  { l := if j = 0 then Ptr.null else loc d (j - 1) (2 * i)
    r := if j = 0 then Ptr.null else loc d (j - 1) (2 * i + 1)
    p := if j = d then Ptr.null else loc d (j + 1) (i / 2)
    active := b
    width := 32 - j
    mask := maskOf j
    pfx := P + i * 2 ^ j }

/-- The node at `loc d j i` while the tree is under construction: inactive, and with the
parent link still NULL unless `linked`. -/
def stageNode (P d j i : Nat) (linked : Bool) : mst_node :=
  { nodeAt P d j i false with p := if linked then (nodeAt P d j i false).p else Ptr.null }

/-- The root node as `main` prepares it before `build_mst`. -/
def rootInit (P d : Nat) : mst_node :=
  { mst_node.zero with pfx := P, width := 32 - d, mask := maskOf d }

/-- The heap when `populate_tree` has linked the levels below `m` completely and has run
`k` iterations of the loop that fills level `m + 1`. -/
structure Stage (P d m k : Nat) (H : Heap) : Prop where
  hosts_len : H.hosts.length = 2 ^ d
  tree_len : H.tree_nodes.length = 2 ^ d
  root_eq : H.root = rootInit P d
  lower : ∀ j i, j ≤ m → i < 2 ^ (d - j) →
    H.read (loc d j i) = some (stageNode P d j i (decide (j < m ∨ i < 2 * k)))
  upper : ∀ i, i < k → H.read (loc d (m + 1) i) = some (stageNode P d (m + 1) i false)
  rest : ∀ t, 2 ^ d - 2 * 2 ^ (d - (m + 1)) + k ≤ t → t < 2 ^ d →
    H.read (Ptr.tnode t) = some mst_node.zero

/-- The heap of a built tree of depth `d` over the block starting at `P`: every node of the
coordinate system holds its static fields, only the active flags are free. -/
structure Shaped (P d : Nat) (H : Heap) : Prop where
  hosts_len : H.hosts.length = 2 ^ d
  tree_len : H.tree_nodes.length = if d = 0 then 0 else 2 ^ d
  node : ∀ j i, j ≤ d → i < 2 ^ (d - j) → ∃ b, H.read (loc d j i) = some (nodeAt P d j i b)
  root0 : d = 0 → H.root = nodeAt P 0 0 0 false
  spare : ∀ t, 2 ^ d - 2 ≤ t → t < 2 ^ d → 0 < d → H.read (Ptr.tnode t) = some mst_node.zero

/-- The active flag of the node with coordinates `(j, i)`. -/
def bit (H : Heap) (d j i : Nat) : Bool :=
  match H.read (loc d j i) with
  | some n => n.active
  | none => false

/-- The AND-invariant in coordinates. -/
def AndInv (d : Nat) (H : Heap) : Prop :=
  ∀ j i, 1 ≤ j → j ≤ d → i < 2 ^ (d - j) →
    bit H d j i = (bit H d (j - 1) (2 * i) && bit H d (j - 1) (2 * i + 1))

/-- Every node of the coordinate system is inactive. -/
def AllDown (d : Nat) (H : Heap) : Prop :=
  ∀ j i, j ≤ d → i < 2 ^ (d - j) → bit H d j i = false

/-- The AND-invariant in coordinates, at every internal node except `(j0, i0)`. -/
def AndExcept (d : Nat) (H : Heap) (j0 i0 : Nat) : Prop :=
  ∀ j i, 1 ≤ j → j ≤ d → i < 2 ^ (d - j) → (j ≠ j0 ∨ i ≠ i0) →
    bit H d j i = (bit H d (j - 1) (2 * i) && bit H d (j - 1) (2 * i + 1))

/-- The subnet test of `main` and `host_to_node` for a 32-bit address `h`, against the
root that `main` prepares from `addr` and `w`. -/
def in_subnet (addr w h : Nat) : Bool :=
  match width_to_mask w with
  | some m => decide (h < U32 ∧ h &&& m = addr &&& m)
  | none => false

/-- Whether an update marks its host up. -/
def Op.is_up : Op → Bool
  | .up _ => true
  | .down _ => false

/-- Whether the most recent update about host `h` in `ops` (first to last) was an `up`;
a host without any update is down. -/
def most_recent_up (ops : List Op) (h : Nat) : Bool :=
  match ops.reverse.find? (fun op => decide (op.host = h)) with
  | some op => op.is_up
  | none => false

/-- The AND-invariant on the heap itself: every node with a child has the conjunction of
its children's active flags as its own. -/
def AndInvariant (H : Heap) : Prop :=
  ∀ q n, H.read q = some n → (n.l ≠ Ptr.null ∨ n.r ≠ Ptr.null) →
    ∃ nl nr, H.read n.l = some nl ∧ H.read n.r = some nr ∧
      n.active = (nl.active && nr.active)

/-- The address block `(prefix, width)` of the node with coordinates `(j, i)`. -/
def blk (P j i : Nat) : Nat × Nat := (P + i * 2 ^ j, 32 - j)

/-- The pre-order traversal of `print_mst` in coordinates: the blocks printed below the
node `(j, i)` when the active flags are `bits`. -/
def emit (P : Nat) (bits : Nat → Nat → Bool) : Nat → Nat → List (Nat × Nat)
  | 0, i => if bits 0 i then [blk P 0 i] else []
  | j + 1, i =>
    if bits (j + 1) i then [blk P (j + 1) i]
    else emit P bits j (2 * i) ++ emit P bits j (2 * i + 1)

/-- The address `a` lies in the block `b = (prefix, width)`. -/
def in_block (b : Nat × Nat) (a : Nat) : Prop := b.1 ≤ a ∧ a < b.1 + 2 ^ (32 - b.2)

/-- The block `b = (prefix, width)` is a CIDR block: the width is at most 32 and the
prefix is aligned to it. -/
def is_cidr (b : Nat × Nat) : Prop := b.2 ≤ 32 ∧ b.1 % 2 ^ (32 - b.2) = 0

/-- The blocks `(prefix, width)` denoted by printed lines. -/
def blocks (out : List Line) : List (Nat × Nat) := out.map Line.block

/-- The block `a` ends at or before the start of the block `b`. -/
def ends_before (a b : Nat × Nat) : Prop := a.1 + 2 ^ (32 - a.2) ≤ b.1

/-- The active flag of the leaf that `host_to_node` returns for `h`. -/
def leaf_active (H : Heap) (h : Nat) : Option Bool :=
  (host_to_node H h).bind fun q => (H.read q).map fun n => n.active

/-- One line of input as the loop of `main` uses it: the first character `cmd[0]` and the
result of the `sscanf` on `&cmd[2]` (`none` when fewer than four integers are read). -/
structure CmdLine where
  c0 : Char
  scan : Option (Nat × Nat × Nat × Nat)

/-- The diagnostics that the loop of `main` writes to the error stream. -/
inductive Diag where
  | invalid_address
  | outside_subnet
  | bad_input
deriving DecidableEq, Repr

/-- The outcome of one iteration of the loop of `main`: the loop is left (`x`), or it
continues with a heap, the lines printed and the diagnostic reported, if any. -/
inductive Step where
  | exit
  | next (H : Heap) (out : List Line) (diag : Option Diag)

/-- One iteration of the `while (fgets(...))` loop of `main`. -/
def main_step (fuel : Nat) (H : Heap) (cmd : CmdLine) : Option Step :=
  if cmd.c0 = 'x' then some Step.exit
  else if cmd.c0 = 'u' ∨ cmd.c0 = 'd' then
    if (ascii_to_in_addr_t cmd.scan).1 = 0 then
      some (Step.next H [] (some Diag.invalid_address))
    else if (ascii_to_in_addr_t cmd.scan).2 &&& H.root.mask ≠ H.root.pfx then
      some (Step.next H [] (some Diag.outside_subnet))
    else if cmd.c0 = 'u' then
      (mark_host_up fuel H (ascii_to_in_addr_t cmd.scan).2).map fun H1 => Step.next H1 [] none
    else
      (mark_host_down fuel H (ascii_to_in_addr_t cmd.scan).2).map fun H1 => Step.next H1 [] none
  else if cmd.c0 = 'p' then
    (print_mst fuel H Ptr.rootp).map fun out => Step.next H out none
  else some (Step.next H [] (some Diag.bad_input))

/-- Written from the spec's words (the update without the early stop): starting at `node`,
move to the parent and recompute `active = l.active && r.active`, on every ancestor all
the way up to the root. -/
def naive_ripple : Nat → Heap → Ptr → Option Heap
  | 0, _, _ => none
  | fuel + 1, H, node =>
    (H.read node).bind fun n =>
      if n.p = Ptr.null then some H
      else
        (H.read n.p).bind fun pn =>
          (H.read pn.l).bind fun ln =>
            (H.read pn.r).bind fun rn =>
              (H.write n.p { pn with active := ln.active && rn.active }).bind fun H1 =>
                naive_ripple fuel H1 n.p

/-- Written from the spec's words: the naive update that sets the flag of leaf `host` to
`up` and then recomputes every ancestor with `naive_ripple`. -/
def naive_mark (up : Bool) (fuel : Nat) (H : Heap) (host : Nat) : Option Heap :=
  (host_to_node H host).bind fun node =>
    (set_active node up H).bind fun H1 => naive_ripple fuel H1 node

/-- The node reached from `q` after `k` steps along the `p` links. -/
def follow_p : Nat → Heap → Ptr → Option Ptr
  | 0, _, q => some q
  | k + 1, H, q => (follow_p k H q).bind fun a => (H.read a).map fun n => n.p

/-- The fields of a node other than its active flag. -/
def mst_node.static (n : mst_node) : Ptr × Ptr × Ptr × Nat × Nat × Nat :=
  (n.l, n.r, n.p, n.width, n.mask, n.pfx)

/-- The index of the sibling of the node with index `c` on its level: the other child of the
same parent. -/
def sibling (c : Nat) : Nat := if c % 2 = 0 then c + 1 else c - 1

-- DEFS-END

/-! ## Theorems -/

/-! ## Heap lemmas -/

theorem Heap.read_write {H H1 : Heap} {q : Ptr} {n : mst_node} (h : H.write q n = some H1)
    (q1 : Ptr) : H1.read q1 = if q1 = q then some n else H.read q1 := by
  cases q with
  | null => simp [Heap.write] at h
  | rootp =>
    simp only [Heap.write, Option.some.injEq] at h
    subst h
    cases q1 <;> simp [Heap.read]
  | host i =>
    simp only [Heap.write] at h
    split at h
    · simp only [Option.some.injEq] at h
      subst h
      cases q1 with
      | host k =>
        simp only [Heap.read, Ptr.host.injEq]
        by_cases hk : k = i
        · subst hk; simp [List.getElem?_set_self, *]
        · rw [List.getElem?_set_ne (Ne.symm hk)]; simp [hk]
      | _ => simp [Heap.read]
    · simp at h
  | tnode i =>
    simp only [Heap.write] at h
    split at h
    · simp only [Option.some.injEq] at h
      subst h
      cases q1 with
      | tnode k =>
        simp only [Heap.read, Ptr.tnode.injEq]
        by_cases hk : k = i
        · subst hk; simp [List.getElem?_set_self, *]
        · rw [List.getElem?_set_ne (Ne.symm hk)]; simp [hk]
      | _ => simp [Heap.read]
    · simp at h

theorem Heap.write_lengths {H H1 : Heap} {q : Ptr} {n : mst_node} (h : H.write q n = some H1) :
    H1.hosts.length = H.hosts.length ∧ H1.tree_nodes.length = H.tree_nodes.length := by
  cases q with
  | null => simp [Heap.write] at h
  | rootp => simp only [Heap.write, Option.some.injEq] at h; subst h; simp
  | host i =>
    simp only [Heap.write] at h
    split at h
    · simp only [Option.some.injEq] at h; subst h; simp
    · simp at h
  | tnode i =>
    simp only [Heap.write] at h
    split at h
    · simp only [Option.some.injEq] at h; subst h; simp
    · simp at h

theorem Heap.write_of_read {H : Heap} {q : Ptr} {m : mst_node} (h : H.read q = some m)
    (n : mst_node) : ∃ H1, H.write q n = some H1 := by
  cases q with
  | null => simp [Heap.read] at h
  | rootp => exact ⟨_, rfl⟩
  | host i =>
    simp only [Heap.read] at h
    have hi : i < H.hosts.length := by
      by_contra hc
      rw [List.getElem?_eq_none (by omega)] at h
      simp at h
    exact ⟨{ H with hosts := H.hosts.set i n }, by simp only [Heap.write, hi, if_true]⟩
  | tnode i =>
    simp only [Heap.read] at h
    have hi : i < H.tree_nodes.length := by
      by_contra hc
      rw [List.getElem?_eq_none (by omega)] at h
      simp at h
    exact ⟨{ H with tree_nodes := H.tree_nodes.set i n },
      by simp only [Heap.write, hi, if_true]⟩

theorem Heap.ext_read {H H1 : Heap} (h : ∀ q, H.read q = H1.read q) : H = H1 := by
  cases H with
  | mk r hs ts =>
    cases H1 with
    | mk r1 hs1 ts1 =>
      have h1 := h Ptr.rootp
      have h2 : hs = hs1 := List.ext_getElem? (fun i => h (Ptr.host i))
      have h3 : ts = ts1 := List.ext_getElem? (fun i => h (Ptr.tnode i))
      simp only [Heap.read, Option.some.injEq] at h1
      subst h1 h2 h3
      rfl

theorem Heap.modify_spec {H : Heap} {q : Ptr} {m : mst_node} (h : H.read q = some m)
    (f : mst_node → mst_node) : ∃ H1, H.modify q f = some H1 ∧ Upd H q (f m) H1 := by
  obtain ⟨H1, hw⟩ := Heap.write_of_read h (f m)
  refine ⟨H1, ?_, Heap.read_write hw, Heap.write_lengths hw⟩
  simp [Heap.modify, h, hw]

/-! ## 32-bit arithmetic lemmas -/

theorem maskOf_eq (j : Nat) (hj : j ≤ 32) : maskOf j = 2 ^ 32 - 2 ^ j := by
  unfold maskOf ALL_ONES U32
  interval_cases j <;> rfl

theorem width_to_mask_eq (j : Nat) (hj : j ≤ 16) : width_to_mask (32 - j) = some (maskOf j) := by
  unfold width_to_mask maskOf
  have h1 : 32 - j ≤ 32 ∧ 32 - j ≥ 16 := by omega
  rw [if_pos h1]
  by_cases h0 : j = 0
  · subst h0; rfl
  · have h2 : 32 - j < 32 := by omega
    have h3 : 32 - (32 - j) = j := by omega
    rw [if_pos h2, h3]

theorem land_maskOf (x j : Nat) (hx : x < 2 ^ 32) (hj : j ≤ 32) :
    x &&& maskOf j = x / 2 ^ j * 2 ^ j := by
  apply Nat.eq_of_testBit_eq
  intro k
  have hR : x / 2 ^ j * 2 ^ j = (x >>> j) <<< j := by
    rw [Nat.shiftLeft_eq, Nat.shiftRight_eq_div_pow]
  have hA : ALL_ONES = 2 ^ 32 - 1 := by rfl
  have hU : U32 = 2 ^ 32 := by rfl
  rw [hR, Nat.testBit_and, maskOf, hA, hU, Nat.testBit_mod_two_pow, Nat.testBit_shiftLeft,
    Nat.testBit_shiftLeft, Nat.testBit_two_pow_sub_one, Nat.testBit_shiftRight]
  by_cases hk : k < 32
  · by_cases hkj : j ≤ k
    · have h1 : k - j < 32 := by omega
      have h2 : j + (k - j) = k := by omega
      simp [hk, hkj, h1, h2]
    · simp [hkj]
  · have hx2 : x.testBit k = false := by
      apply Nat.testBit_lt_two_pow
      calc x < 2 ^ 32 := hx
        _ ≤ 2 ^ k := Nat.pow_le_pow_right (by norm_num) (by omega)
    by_cases hkj : j ≤ k
    · have h2 : j + (k - j) = k := by omega
      simp [hk, hkj, h2, hx2]
    · simp [hkj, hk]

theorem land_not_maskOf (x j : Nat) (hj : j ≤ 32) : x &&& u32_not (maskOf j) = x % 2 ^ j := by
  have h1 : u32_not (maskOf j) = 2 ^ j - 1 := by
    unfold u32_not maskOf ALL_ONES U32
    interval_cases j <;> rfl
  rw [h1, Nat.and_pow_two_sub_one_eq_mod]

theorem print_line_block (n : mst_node) (h : n.pfx < 2 ^ 32) :
    (print_line n).block = (n.pfx, n.width) := by
  have e8 : (255 : Nat) = 2 ^ 8 - 1 := by norm_num
  simp only [print_line, Line.block, Nat.shiftRight_eq_div_pow, Prod.mk.injEq, and_true]
  rw [e8, Nat.and_pow_two_sub_one_eq_mod, Nat.and_pow_two_sub_one_eq_mod,
    Nat.and_pow_two_sub_one_eq_mod, Nat.and_pow_two_sub_one_eq_mod]
  norm_num at h ⊢
  omega

/-! ## The coordinate system -/

theorem pow_level_succ (d j : Nat) (h : j < d) : 2 ^ (d - j) = 2 * 2 ^ (d - (j + 1)) := by
  have e : d - j = (d - (j + 1)) + 1 := by omega
  rw [e, Nat.pow_succ]
  omega

theorem pow_level_le (d j j1 : Nat) (h : j ≤ j1) : 2 ^ (d - j1) ≤ 2 ^ (d - j) :=
  Nat.pow_le_pow_right (by norm_num) (by omega)

theorem pow_level_lt (d j j1 : Nat) (h : j < j1) (h1 : j1 ≤ d) :
    2 * 2 ^ (d - j1) ≤ 2 ^ (d - j) := by
  have e := pow_level_succ d j (by omega)
  have l := pow_level_le d (j + 1) j1 (by omega)
  omega

theorem pow_level_pos (d j : Nat) : 0 < 2 ^ (d - j) := Nat.pow_pos (by norm_num)

theorem pow_level_le_top (d j : Nat) : 2 ^ (d - j) ≤ 2 ^ d :=
  Nat.pow_le_pow_right (by norm_num) (by omega)

theorem pow_level_two_le (d j : Nat) (h : 0 < j) (h1 : j ≤ d) : 2 * 2 ^ (d - j) ≤ 2 ^ d := by
  have := pow_level_lt d 0 j h h1
  simpa using this

theorem loc_zero (d i : Nat) : loc d 0 i = Ptr.host i := by
  simp [loc]

theorem loc_top (d i : Nat) (h : 0 < d) : loc d d i = Ptr.rootp := by
  have : d ≠ 0 := by omega
  simp [loc, this]

theorem loc_mid (d j i : Nat) (h : 0 < j) (h1 : j < d) :
    loc d j i = Ptr.tnode (2 ^ d - 2 * 2 ^ (d - j) + i) := by
  have a : j ≠ 0 := by omega
  have b : j ≠ d := by omega
  simp [loc, a, b]

theorem loc_inj {d j i j1 i1 : Nat} (hj : j ≤ d) (hi : i < 2 ^ (d - j)) (hj1 : j1 ≤ d)
    (hi1 : i1 < 2 ^ (d - j1)) (h : loc d j i = loc d j1 i1) : j = j1 ∧ i = i1 := by
  have top : ∀ x, x < 2 ^ (d - d) → x = 0 := by
    intro x hx
    simp at hx
    exact hx
  rcases Nat.eq_zero_or_pos j with a | a
  · subst a
    rw [loc_zero] at h
    rcases Nat.eq_zero_or_pos j1 with a1 | a1
    · subst a1
      rw [loc_zero] at h
      exact ⟨rfl, Ptr.host.inj h⟩
    · rcases Nat.lt_or_ge j1 d with b1 | b1
      · rw [loc_mid d j1 i1 a1 b1] at h
        cases h
      · have e : j1 = d := by omega
        subst e
        rw [loc_top j1 i1 a1] at h
        cases h
  · rcases Nat.lt_or_ge j d with b | b
    · rw [loc_mid d j i a b] at h
      rcases Nat.eq_zero_or_pos j1 with a1 | a1
      · subst a1
        rw [loc_zero] at h
        cases h
      · rcases Nat.lt_or_ge j1 d with b1 | b1
        · rw [loc_mid d j1 i1 a1 b1] at h
          have h := Ptr.tnode.inj h
          have t1 := pow_level_two_le d j a hj
          have t2 := pow_level_two_le d j1 a1 hj1
          rcases Nat.lt_trichotomy j j1 with c | c | c
          · have := pow_level_lt d j j1 c hj1
            omega
          · subst c
            exact ⟨rfl, by omega⟩
          · have := pow_level_lt d j1 j c hj
            omega
        · have e : j1 = d := by omega
          subst e
          rw [loc_top j1 i1 a1] at h
          cases h
    · have e : j = d := by omega
      subst e
      rw [loc_top j i a] at h
      rcases Nat.eq_zero_or_pos j1 with a1 | a1
      · subst a1
        rw [loc_zero] at h
        cases h
      · rcases Nat.lt_or_ge j1 j with b1 | b1
        · rw [loc_mid j j1 i1 a1 b1] at h
          cases h
        · have e : j1 = j := by omega
          subst e
          exact ⟨rfl, by rw [top i hi, top i1 hi1]⟩

theorem levelBase_idx (d j i : Nat) (h : j < d) : (levelBase d j).idx i = loc d j i := by
  unfold levelBase loc
  by_cases a : j = 0
  · simp [a, Ptr.idx]
  · have b : j ≠ d := by omega
    simp [a, b, Ptr.idx]

/-! ## The statements of `populate_tree` -/

theorem Upd.read_self {H H1 : Heap} {q : Ptr} {n : mst_node} (u : Upd H q n H1) :
    H1.read q = some n := by
  rw [u.1 q, if_pos rfl]

theorem Upd.read_ne {H H1 : Heap} {q q1 : Ptr} {n : mst_node} (u : Upd H q n H1)
    (h : q1 ≠ q) : H1.read q1 = H.read q1 := by
  rw [u.1 q1, if_neg h]

theorem set_l_spec {H : Heap} {q : Ptr} {n : mst_node} (h : H.read q = some n) (v : Ptr) :
    ∃ H1, set_l q v H = some H1 ∧ Upd H q { n with l := v } H1 :=
  Heap.modify_spec h _

theorem set_r_spec {H : Heap} {q : Ptr} {n : mst_node} (h : H.read q = some n) (v : Ptr) :
    ∃ H1, set_r q v H = some H1 ∧ Upd H q { n with r := v } H1 :=
  Heap.modify_spec h _

theorem set_p_spec {H : Heap} {q : Ptr} {n : mst_node} (h : H.read q = some n) (v : Ptr) :
    ∃ H1, set_p q v H = some H1 ∧ Upd H q { n with p := v } H1 :=
  Heap.modify_spec h _

theorem set_active_spec {H : Heap} {q : Ptr} {n : mst_node} (h : H.read q = some n)
    (v : Bool) : ∃ H1, set_active q v H = some H1 ∧ Upd H q { n with active := v } H1 :=
  Heap.modify_spec h _

theorem set_width_from_l_spec {H : Heap} {q : Ptr} {n ln : mst_node} (h : H.read q = some n)
    (hl : H.read n.l = some ln) :
    ∃ H1, set_width_from_l q H = some H1 ∧
      Upd H q { n with width := (ln.width + U32 - 1) % U32 } H1 := by
  obtain ⟨H1, e, u⟩ := Heap.modify_spec h
    (fun n1 => { n1 with width := (ln.width + U32 - 1) % U32 })
  exact ⟨H1, by simp [set_width_from_l, h, hl, e], u⟩

theorem set_mask_from_width_spec {H : Heap} {q : Ptr} {n : mst_node} {m : Nat}
    (h : H.read q = some n) (hm : width_to_mask n.width = some m) :
    ∃ H1, set_mask_from_width q H = some H1 ∧ Upd H q { n with mask := m } H1 := by
  obtain ⟨H1, e, u⟩ := Heap.modify_spec h (fun n1 => { n1 with mask := m })
  exact ⟨H1, by simp [set_mask_from_width, h, hm, e], u⟩

theorem set_pfx_from_l_spec {H : Heap} {q : Ptr} {n ln : mst_node} (h : H.read q = some n)
    (hl : H.read n.l = some ln) :
    ∃ H1, set_pfx_from_l q H = some H1 ∧ Upd H q { n with pfx := ln.pfx &&& n.mask } H1 := by
  obtain ⟨H1, e, u⟩ := Heap.modify_spec h (fun n1 => { n1 with pfx := ln.pfx &&& n.mask })
  exact ⟨H1, by simp [set_pfx_from_l, h, hl, e], u⟩

theorem set_l_p_spec {H : Heap} {q : Ptr} {n c : mst_node} (h : H.read q = some n)
    (hc : H.read n.l = some c) (v : Ptr) :
    ∃ H1, set_l_p q v H = some H1 ∧ Upd H n.l { c with p := v } H1 := by
  obtain ⟨H1, e, u⟩ := set_p_spec hc v
  exact ⟨H1, by simp [set_l_p, h, e], u⟩

theorem set_r_p_spec {H : Heap} {q : Ptr} {n c : mst_node} (h : H.read q = some n)
    (hc : H.read n.r = some c) (v : Ptr) :
    ∃ H1, set_r_p q v H = some H1 ∧ Upd H n.r { c with p := v } H1 := by
  obtain ⟨H1, e, u⟩ := set_p_spec hc v
  exact ⟨H1, by simp [set_r_p, h, e], u⟩

/-- One iteration of the loop of `populate_tree` when the parent slot `pp` and the two
children `sl`, `sr` are three different, readable nodes. -/
theorem populate_body_spec {H : Heap} {subs parents pp sl sr : Ptr} {i m : Nat}
    {n0 c0 c1 : mst_node}
    (epp : parents.idx i = pp) (esl : subs.idx ((i <<< 1) % U32) = sl)
    (esr : subs.idx (((i <<< 1) % U32 + 1) % U32) = sr)
    (hp : H.read pp = some n0) (hl : H.read sl = some c0) (hr : H.read sr = some c1)
    (d1 : sl ≠ pp) (d2 : sr ≠ pp) (d3 : sr ≠ sl)
    (hm : width_to_mask ((c0.width + U32 - 1) % U32) = some m) :
    ∃ H1, populate_body subs parents i H = some H1 ∧
      H1.hosts.length = H.hosts.length ∧ H1.tree_nodes.length = H.tree_nodes.length ∧
      ∀ q, H1.read q =
        if q = sr then some { c1 with p := pp }
        else if q = sl then some { c0 with p := pp }
        else if q = pp then
          some { l := sl, r := sr, p := Ptr.null, active := false,
                 width := (c0.width + U32 - 1) % U32, mask := m, pfx := c0.pfx &&& m }
        else H.read q := by
  obtain ⟨a0, b0, p0, ac0, w0, m0, x0⟩ := n0
  obtain ⟨H1, e1, u1⟩ := set_l_spec hp sl
  have u1 : Upd H pp ⟨sl, b0, p0, ac0, w0, m0, x0⟩ H1 := u1
  obtain ⟨H2, e2, u2⟩ := set_r_spec u1.read_self sr
  have u2 : Upd H1 pp ⟨sl, sr, p0, ac0, w0, m0, x0⟩ H2 := u2
  obtain ⟨H3, e3, u3⟩ := set_p_spec u2.read_self Ptr.null
  have u3 : Upd H2 pp ⟨sl, sr, Ptr.null, ac0, w0, m0, x0⟩ H3 := u3
  obtain ⟨H4, e4, u4⟩ := set_active_spec u3.read_self false
  have u4 : Upd H3 pp ⟨sl, sr, Ptr.null, false, w0, m0, x0⟩ H4 := u4
  have r4 : H4.read sl = some c0 := by
    rw [u4.read_ne d1, u3.read_ne d1, u2.read_ne d1, u1.read_ne d1, hl]
  obtain ⟨H5, e5, u5⟩ := set_width_from_l_spec u4.read_self r4
  have u5 : Upd H4 pp ⟨sl, sr, Ptr.null, false, (c0.width + U32 - 1) % U32, m0, x0⟩ H5 := u5
  obtain ⟨H6, e6, u6⟩ := set_mask_from_width_spec u5.read_self hm
  have u6 : Upd H5 pp ⟨sl, sr, Ptr.null, false, (c0.width + U32 - 1) % U32, m, x0⟩ H6 := u6
  have r6 : H6.read sl = some c0 := by
    rw [u6.read_ne d1, u5.read_ne d1, r4]
  obtain ⟨H7, e7, u7⟩ := set_pfx_from_l_spec u6.read_self r6
  have u7 : Upd H6 pp
      ⟨sl, sr, Ptr.null, false, (c0.width + U32 - 1) % U32, m, c0.pfx &&& m⟩ H7 := u7
  have r7 : H7.read sl = some c0 := by
    rw [u7.read_ne d1, r6]
  obtain ⟨H8, e8, u8⟩ := set_l_p_spec u7.read_self r7 pp
  have u8 : Upd H7 sl { c0 with p := pp } H8 := u8
  have r8 : H8.read pp =
      some ⟨sl, sr, Ptr.null, false, (c0.width + U32 - 1) % U32, m, c0.pfx &&& m⟩ := by
    rw [u8.read_ne (Ne.symm d1)]
    exact u7.read_self
  have r8r : H8.read sr = some c1 := by
    rw [u8.read_ne d3, u7.read_ne d2, u6.read_ne d2, u5.read_ne d2, u4.read_ne d2,
      u3.read_ne d2, u2.read_ne d2, u1.read_ne d2, hr]
  obtain ⟨H9, e9, u9⟩ := set_r_p_spec r8 r8r pp
  have u9 : Upd H8 sr { c1 with p := pp } H9 := u9
  refine ⟨H9, ?_, ?_, ?_, ?_⟩
  · simp only [populate_body, epp, esl, esr, e1, e2, e3, e4, e5, e6, e7, e8, e9,
      Option.some_bind, Option.bind_some]
  · rw [u9.2.1, u8.2.1, u7.2.1, u6.2.1, u5.2.1, u4.2.1, u3.2.1, u2.2.1, u1.2.1]
  · rw [u9.2.2, u8.2.2, u7.2.2, u6.2.2, u5.2.2, u4.2.2, u3.2.2, u2.2.2, u1.2.2]
  · intro q
    rw [u9.1 q]
    by_cases q1 : q = sr
    · rw [if_pos q1, if_pos q1]
    · rw [if_neg q1, if_neg q1, u8.1 q]
      by_cases q2 : q = sl
      · rw [if_pos q2, if_pos q2]
      · rw [if_neg q2, if_neg q2, u7.1 q]
        by_cases q3 : q = pp
        · rw [if_pos q3, if_pos q3]
        · rw [if_neg q3, if_neg q3, u6.1 q, if_neg q3, u5.1 q, if_neg q3, u4.1 q, if_neg q3,
            u3.1 q, if_neg q3, u2.1 q, if_neg q3, u1.1 q, if_neg q3]

/-- The branch `len == 1` of `populate_tree` when the two children are different nodes
other than the root. -/
theorem populate_root_spec {H : Heap} {subs sl sr : Ptr} {c0 c1 : mst_node}
    (esl : subs.idx 0 = sl) (esr : subs.idx 1 = sr)
    (hl : H.read sl = some c0) (hr : H.read sr = some c1)
    (d1 : sl ≠ Ptr.rootp) (d2 : sr ≠ Ptr.rootp) (d3 : sr ≠ sl) :
    ∃ H1, populate_root subs H = some H1 ∧
      H1.hosts.length = H.hosts.length ∧ H1.tree_nodes.length = H.tree_nodes.length ∧
      ∀ q, H1.read q =
        if q = sr then some { c1 with p := Ptr.rootp }
        else if q = sl then some { c0 with p := Ptr.rootp }
        else if q = Ptr.rootp then some { H.root with l := sl, r := sr, p := Ptr.null }
        else H.read q := by
  have hp : H.read Ptr.rootp = some H.root := rfl
  generalize H.root = n0 at hp ⊢
  obtain ⟨a0, b0, p0, ac0, w0, m0, x0⟩ := n0
  obtain ⟨H1, e1, u1⟩ := set_l_spec hp sl
  have u1 : Upd H Ptr.rootp ⟨sl, b0, p0, ac0, w0, m0, x0⟩ H1 := u1
  obtain ⟨H2, e2, u2⟩ := set_r_spec u1.read_self sr
  have u2 : Upd H1 Ptr.rootp ⟨sl, sr, p0, ac0, w0, m0, x0⟩ H2 := u2
  obtain ⟨H3, e3, u3⟩ := set_p_spec u2.read_self Ptr.null
  have u3 : Upd H2 Ptr.rootp ⟨sl, sr, Ptr.null, ac0, w0, m0, x0⟩ H3 := u3
  have r3 : H3.read sl = some c0 := by
    rw [u3.read_ne d1, u2.read_ne d1, u1.read_ne d1, hl]
  obtain ⟨H4, e4, u4⟩ := set_l_p_spec u3.read_self r3 Ptr.rootp
  have u4 : Upd H3 sl { c0 with p := Ptr.rootp } H4 := u4
  have r4 : H4.read Ptr.rootp = some ⟨sl, sr, Ptr.null, ac0, w0, m0, x0⟩ := by
    rw [u4.read_ne (Ne.symm d1)]
    exact u3.read_self
  have r4r : H4.read sr = some c1 := by
    rw [u4.read_ne d3, u3.read_ne d2, u2.read_ne d2, u1.read_ne d2, hr]
  obtain ⟨H5, e5, u5⟩ := set_r_p_spec r4 r4r Ptr.rootp
  have u5 : Upd H4 sr { c1 with p := Ptr.rootp } H5 := u5
  refine ⟨H5, ?_, ?_, ?_, ?_⟩
  · simp only [populate_root, esl, esr, e1, e2, e3, e4, e5, Option.some_bind,
      Option.bind_some]
  · rw [u5.2.1, u4.2.1, u3.2.1, u2.2.1, u1.2.1]
  · rw [u5.2.2, u4.2.2, u3.2.2, u2.2.2, u1.2.2]
  · intro q
    rw [u5.1 q]
    by_cases q1 : q = sr
    · rw [if_pos q1, if_pos q1]
    · rw [if_neg q1, if_neg q1, u4.1 q]
      by_cases q2 : q = sl
      · rw [if_pos q2, if_pos q2]
      · rw [if_neg q2, if_neg q2, u3.1 q]
        by_cases q3 : q = Ptr.rootp
        · rw [if_pos q3, if_pos q3]
        · rw [if_neg q3, if_neg q3, u2.1 q, if_neg q3, u1.1 q, if_neg q3]

/-! ## Arithmetic of blocks -/

theorem block_bound (d j i : Nat) (hj : j ≤ d) (hi : i < 2 ^ (d - j)) :
    i * 2 ^ j + 2 ^ j ≤ 2 ^ d := by
  have e : 2 ^ d = 2 ^ (d - j) * 2 ^ j := by
    rw [← Nat.pow_add]
    congr 1
    omega
  have h1 : (i + 1) * 2 ^ j ≤ 2 ^ (d - j) * 2 ^ j := Nat.mul_le_mul_right _ hi
  rw [e]
  calc i * 2 ^ j + 2 ^ j = (i + 1) * 2 ^ j := by ring
    _ ≤ _ := h1

theorem land_child (P d j i c : Nat) (hd : d ≤ 32) (hP : 2 ^ d ∣ P) (hPb : P + 2 ^ d ≤ 2 ^ 32)
    (hj : j + 1 ≤ d) (hi : i < 2 ^ (d - (j + 1))) (hc : c < 2) :
    (P + (2 * i + c) * 2 ^ j) &&& maskOf (j + 1) = P + i * 2 ^ (j + 1) := by
  have hb := block_bound d (j + 1) i hj hi
  have e2 : 2 ^ (j + 1) = 2 * 2 ^ j := by rw [Nat.pow_succ]; ring
  have hpos : 0 < 2 ^ j := Nat.pow_pos (by norm_num)
  have hlt : c * 2 ^ j < 2 ^ (j + 1) := by
    rw [e2]
    nlinarith
  have hx : P + (2 * i + c) * 2 ^ j < 2 ^ 32 := by
    have : (2 * i + c) * 2 ^ j = i * 2 ^ (j + 1) + c * 2 ^ j := by rw [e2]; ring
    omega
  rw [land_maskOf _ _ hx (by omega)]
  have hPd : 2 ^ (j + 1) ∣ P := Dvd.dvd.trans (Nat.pow_dvd_pow 2 hj) hP
  obtain ⟨t, ht⟩ := hPd
  have e3 : P + (2 * i + c) * 2 ^ j = c * 2 ^ j + 2 ^ (j + 1) * (t + i) := by
    rw [ht, e2]; ring
  rw [e3, Nat.add_mul_div_left _ _ (Nat.pow_pos (by norm_num)), Nat.div_eq_of_lt hlt, ht]
  ring

/-! ## Construction: the loop of `populate_tree` -/

theorem loc_lower_tnode {d j i m t : Nat} (hj : j ≤ m) (hm : m < d) (hi : i < 2 ^ (d - j))
    (h : loc d j i = Ptr.tnode t) : t < 2 ^ d - 2 * 2 ^ (d - (m + 1)) := by
  rcases Nat.eq_zero_or_pos j with a | a
  · subst a
    rw [loc_zero] at h
    cases h
  · rw [loc_mid d j i a (by omega)] at h
    have h := Ptr.tnode.inj h
    have t1 := pow_level_two_le d j a (by omega)
    have t2 := pow_level_le d j m hj
    have t3 := pow_level_succ d m hm
    omega

theorem stageNode_link (P d j i : Nat) (hj : j < d) :
    { stageNode P d j i false with p := loc d (j + 1) (i / 2) } = stageNode P d j i true := by
  have : j ≠ d := by omega
  simp [stageNode, nodeAt, this]

theorem stage_step {P d m k : Nat} {H : Heap} (hd : d ≤ 16) (hP : 2 ^ d ∣ P)
    (hPb : P + 2 ^ d ≤ 2 ^ 32) (hm : m + 1 < d) (hk : k < 2 ^ (d - (m + 1)))
    (S : Stage P d m k H) :
    ∃ H1, populate_body (levelBase d m) (levelBase d (m + 1)) k H = some H1 ∧
      Stage P d m (k + 1) H1 := by
  have hlev := pow_level_succ d m (by omega)
  have htop := pow_level_two_le d (m + 1) (by omega) (by omega)
  have h16 : 2 ^ (d - (m + 1)) ≤ 2 ^ 16 := Nat.pow_le_pow_right (by norm_num) (by omega)
  have hk2 : (k <<< 1) % U32 = 2 * k := by
    have : k * 2 ^ 1 < U32 := by
      simp only [U32]
      omega
    rw [Nat.shiftLeft_eq, Nat.mod_eq_of_lt this]
    omega
  have hk3 : ((k <<< 1) % U32 + 1) % U32 = 2 * k + 1 := by
    rw [hk2, Nat.mod_eq_of_lt]
    simp only [U32]
    omega
  have v0 : 2 * k < 2 ^ (d - m) := by omega
  have v1 : 2 * k + 1 < 2 ^ (d - m) := by omega
  have epp : (levelBase d (m + 1)).idx k = loc d (m + 1) k := levelBase_idx d (m + 1) k hm
  have esl : (levelBase d m).idx ((k <<< 1) % U32) = loc d m (2 * k) := by
    rw [hk2, levelBase_idx d m _ (by omega)]
  have esr : (levelBase d m).idx (((k <<< 1) % U32 + 1) % U32) = loc d m (2 * k + 1) := by
    rw [hk3, levelBase_idx d m _ (by omega)]
  have hpp : loc d (m + 1) k = Ptr.tnode (2 ^ d - 2 * 2 ^ (d - (m + 1)) + k) :=
    loc_mid d (m + 1) k (by omega) hm
  have hp : H.read (loc d (m + 1) k) = some mst_node.zero := by
    rw [hpp]
    exact S.rest _ (Nat.le_refl _) (by omega)
  have hl := S.lower m (2 * k) (Nat.le_refl _) v0
  have hr := S.lower m (2 * k + 1) (Nat.le_refl _) v1
  have f0 : decide (m < m ∨ 2 * k < 2 * k) = false := by simp
  have f1 : decide (m < m ∨ 2 * k + 1 < 2 * k) = false := by simp
  rw [f0] at hl
  rw [f1] at hr
  have d1 : loc d m (2 * k) ≠ loc d (m + 1) k := by
    intro e
    have := (loc_inj (by omega) v0 (by omega) hk e).1
    omega
  have d2 : loc d m (2 * k + 1) ≠ loc d (m + 1) k := by
    intro e
    have := (loc_inj (by omega) v1 (by omega) hk e).1
    omega
  have d3 : loc d m (2 * k + 1) ≠ loc d m (2 * k) := by
    intro e
    have := (loc_inj (by omega) v1 (by omega) v0 e).2
    omega
  have hw : ((stageNode P d m (2 * k) false).width + U32 - 1) % U32 = 32 - (m + 1) := by
    simp only [stageNode, nodeAt, U32]
    omega
  have hmk : width_to_mask (((stageNode P d m (2 * k) false).width + U32 - 1) % U32)
      = some (maskOf (m + 1)) := by
    rw [hw]
    exact width_to_mask_eq (m + 1) (by omega)
  obtain ⟨H1, e, l1, l2, rd⟩ := populate_body_spec epp esl esr hp hl hr d1 d2 d3 hmk
  refine ⟨H1, e, ⟨?_, ?_, ?_, ?_, ?_, ?_⟩⟩
  · rw [l1, S.hosts_len]
  · rw [l2, S.tree_len]
  · have r0 := rd Ptr.rootp
    have n1 : Ptr.rootp ≠ loc d m (2 * k + 1) := by
      intro e
      rw [← loc_top d 0 (by omega)] at e
      have := (loc_inj (Nat.le_refl _) (by simp) (by omega) v1 e).1
      omega
    have n2 : Ptr.rootp ≠ loc d m (2 * k) := by
      intro e
      rw [← loc_top d 0 (by omega)] at e
      have := (loc_inj (Nat.le_refl _) (by simp) (by omega) v0 e).1
      omega
    have n3 : Ptr.rootp ≠ loc d (m + 1) k := by
      rw [hpp]
      intro e
      cases e
    rw [if_neg n1, if_neg n2, if_neg n3] at r0
    simp only [Heap.read, Option.some.injEq] at r0
    rw [r0, S.root_eq]
  · intro j i hj hi
    rw [rd]
    by_cases q1 : loc d j i = loc d m (2 * k + 1)
    · obtain ⟨a, b⟩ := loc_inj (by omega) hi (by omega) v1 q1
      subst a b
      rw [if_pos rfl]
      have t : decide (j < j ∨ 2 * k + 1 < 2 * (k + 1)) = true :=
        decide_eq_true (Or.inr (by omega))
      have hdiv : (2 * k + 1) / 2 = k := by omega
      rw [t, ← stageNode_link P d j (2 * k + 1) (by omega), hdiv]
    · rw [if_neg q1]
      by_cases q2 : loc d j i = loc d m (2 * k)
      · obtain ⟨a, b⟩ := loc_inj (by omega) hi (by omega) v0 q2
        subst a b
        rw [if_pos rfl]
        have t : decide (j < j ∨ 2 * k < 2 * (k + 1)) = true :=
          decide_eq_true (Or.inr (by omega))
        have hdiv : (2 * k) / 2 = k := by omega
        rw [t, ← stageNode_link P d j (2 * k) (by omega), hdiv]
      · rw [if_neg q2]
        have q3 : loc d j i ≠ loc d (m + 1) k := by
          intro e
          have := (loc_inj (by omega) hi (by omega) hk e).1
          omega
        rw [if_neg q3, S.lower j i hj hi]
        have t : decide (j < m ∨ i < 2 * (k + 1)) = decide (j < m ∨ i < 2 * k) := by
          by_cases c : j < m
          · simp [c]
          · have ej : j = m := by omega
            subst ej
            have c1 : i ≠ 2 * k + 1 := fun e => q1 (by rw [e])
            have c2 : i ≠ 2 * k := fun e => q2 (by rw [e])
            have : (i < 2 * (k + 1)) ↔ (i < 2 * k) := by omega
            simp [this]
        rw [t]
  · intro i hi
    rw [rd]
    have hi2 : i < 2 ^ (d - (m + 1)) := by omega
    have q1 : loc d (m + 1) i ≠ loc d m (2 * k + 1) := by
      intro e
      have := (loc_inj (by omega) hi2 (by omega) v1 e).1
      omega
    have q2 : loc d (m + 1) i ≠ loc d m (2 * k) := by
      intro e
      have := (loc_inj (by omega) hi2 (by omega) v0 e).1
      omega
    rw [if_neg q1, if_neg q2]
    by_cases q3 : i = k
    · subst q3
      rw [if_pos rfl, hw]
      have hpf : (stageNode P d m (2 * i) false).pfx &&& maskOf (m + 1)
          = P + i * 2 ^ (m + 1) := by
        have := land_child P d m i 0 (by omega) hP hPb (by omega) hk (by omega)
        simpa [stageNode, nodeAt] using this
      rw [hpf]
      simp [stageNode, nodeAt]
    · have q4 : loc d (m + 1) i ≠ loc d (m + 1) k := by
        intro e
        exact q3 (loc_inj (by omega) hi2 (by omega) hk e).2
      rw [if_neg q4]
      exact S.upper i (by omega)
  · intro t ht ht2
    rw [rd]
    have q1 : Ptr.tnode t ≠ loc d m (2 * k + 1) := by
      intro e
      have := loc_lower_tnode (Nat.le_refl m) (by omega) v1 e.symm
      omega
    have q2 : Ptr.tnode t ≠ loc d m (2 * k) := by
      intro e
      have := loc_lower_tnode (Nat.le_refl m) (by omega) v0 e.symm
      omega
    have q3 : Ptr.tnode t ≠ loc d (m + 1) k := by
      rw [hpp]
      intro e
      have := Ptr.tnode.inj e
      omega
    rw [if_neg q1, if_neg q2, if_neg q3]
    exact S.rest t (by omega) ht2

theorem stage_loop {P d m : Nat} {H : Heap} (hd : d ≤ 16) (hP : 2 ^ d ∣ P)
    (hPb : P + 2 ^ d ≤ 2 ^ 32) (hm : m + 1 < d) (S : Stage P d m 0 H) :
    ∀ k, k ≤ 2 ^ (d - (m + 1)) →
      ∃ H1, for_loop (populate_body (levelBase d m) (levelBase d (m + 1))) k H = some H1 ∧
        Stage P d m k H1 := by
  intro k
  induction k with
  | zero => intro _; exact ⟨H, rfl, S⟩
  | succ k ih =>
    intro hk
    obtain ⟨H1, e1, S1⟩ := ih (by omega)
    obtain ⟨H2, e2, S2⟩ := stage_step hd hP hPb hm (by omega) S1
    exact ⟨H2, by simp only [for_loop, e1, Option.some_bind, e2], S2⟩

theorem stage_next {P d m : Nat} {H : Heap} (hm : m + 1 < d)
    (S : Stage P d m (2 ^ (d - (m + 1))) H) : Stage P d (m + 1) 0 H := by
  have hlev := pow_level_succ d m (by omega)
  have hlev2 := pow_level_succ d (m + 1) (by omega)
  refine ⟨S.hosts_len, S.tree_len, S.root_eq, ?_, ?_, ?_⟩
  · intro j i hj hi
    rcases Nat.lt_or_ge j (m + 1) with c | c
    · rw [S.lower j i (by omega) hi]
      have t1 : decide (j < m ∨ i < 2 * 2 ^ (d - (m + 1))) = true := by
        apply decide_eq_true
        rcases Nat.lt_or_ge j m with c1 | c1
        · exact Or.inl c1
        · have : j = m := by omega
          subst this
          exact Or.inr (by omega)
      have t2 : decide (j < m + 1 ∨ i < 2 * 0) = true := decide_eq_true (Or.inl c)
      rw [t1, t2]
    · have e : j = m + 1 := by omega
      subst e
      rw [S.upper i hi]
      have t2 : decide (m + 1 < m + 1 ∨ i < 2 * 0) = false := by simp
      rw [t2]
  · intro i hi
    omega
  · intro t ht ht2
    have htop := pow_level_two_le d (m + 1) (by omega) (by omega)
    exact S.rest t (by omega) ht2

theorem stageNode_true (P d j i : Nat) : stageNode P d j i true = nodeAt P d j i false := by
  simp [stageNode]

theorem stage_root {P d m : Nat} {H : Heap} (hd : d = m + 1) (S : Stage P d m 0 H) :
    ∃ H1, populate_root (levelBase d m) H = some H1 ∧ Shaped P d H1 ∧
      ∀ j i, j ≤ d → i < 2 ^ (d - j) → H1.read (loc d j i) = some (nodeAt P d j i false) := by
  have hlev := pow_level_succ d m (by omega)
  have h1 : 2 ^ (d - (m + 1)) = 1 := by
    have : d - (m + 1) = 0 := by omega
    rw [this]
    rfl
  have v0 : 0 < 2 ^ (d - m) := by omega
  have v1 : 1 < 2 ^ (d - m) := by omega
  have esl : (levelBase d m).idx 0 = loc d m 0 := levelBase_idx d m 0 (by omega)
  have esr : (levelBase d m).idx 1 = loc d m 1 := levelBase_idx d m 1 (by omega)
  have hl := S.lower m 0 (Nat.le_refl _) v0
  have hr := S.lower m 1 (Nat.le_refl _) v1
  have f0 : decide (m < m ∨ 0 < 2 * 0) = false := by simp
  have f1 : decide (m < m ∨ 1 < 2 * 0) = false := by simp
  rw [f0] at hl
  rw [f1] at hr
  have rt : Ptr.rootp = loc d d 0 := (loc_top d 0 (by omega)).symm
  have vt : 0 < 2 ^ (d - d) := by simp
  have d1 : loc d m 0 ≠ Ptr.rootp := by
    rw [rt]
    intro e
    have := (loc_inj (by omega) v0 (Nat.le_refl _) vt e).1
    omega
  have d2 : loc d m 1 ≠ Ptr.rootp := by
    rw [rt]
    intro e
    have := (loc_inj (by omega) v1 (Nat.le_refl _) vt e).1
    omega
  have d3 : loc d m 1 ≠ loc d m 0 := by
    intro e
    have := (loc_inj (by omega) v1 (by omega) v0 e).2
    omega
  obtain ⟨H1, e, l1, l2, rd⟩ := populate_root_spec esl esr hl hr d1 d2 d3
  have key : ∀ j i, j ≤ d → i < 2 ^ (d - j) →
      H1.read (loc d j i) = some (nodeAt P d j i false) := by
    intro j i hj hi
    rw [rd]
    by_cases q1 : loc d j i = loc d m 1
    · obtain ⟨a, b⟩ := loc_inj hj hi (by omega) v1 q1
      subst a b
      rw [if_pos rfl, ← stageNode_true, ← stageNode_link P d j 1 (by omega)]
      have : loc d (j + 1) (1 / 2) = Ptr.rootp := by
        rw [rt, hd]
      rw [this]
    · rw [if_neg q1]
      by_cases q2 : loc d j i = loc d m 0
      · obtain ⟨a, b⟩ := loc_inj hj hi (by omega) v0 q2
        subst a b
        rw [if_pos rfl, ← stageNode_true, ← stageNode_link P d j 0 (by omega)]
        have : loc d (j + 1) (0 / 2) = Ptr.rootp := by
          rw [rt, hd]
        rw [this]
      · rw [if_neg q2]
        by_cases q3 : j = d
        · subst q3
          have i0 : i = 0 := by
            simp at hi
            exact hi
          subst i0
          rw [← rt, if_pos rfl, S.root_eq]
          have a : j ≠ 0 := by omega
          have b : j - 1 = m := by omega
          simp [nodeAt, rootInit, mst_node.zero, a, b]
        · have q4 : loc d j i ≠ Ptr.rootp := by
            rw [rt]
            intro e
            exact q3 (loc_inj hj hi (Nat.le_refl _) vt e).1
          rw [if_neg q4, S.lower j i (by omega) hi, ← stageNode_true]
          have : j < m := by
            rcases Nat.lt_or_ge j m with c | c
            · exact c
            · exfalso
              have ej : j = m := by omega
              subst ej
              have : i = 0 ∨ i = 1 := by omega
              rcases this with c | c
              · exact q2 (by rw [c])
              · exact q1 (by rw [c])
          have t : decide (j < m ∨ i < 2 * 0) = true := decide_eq_true (Or.inl this)
          rw [t]
  refine ⟨H1, e, ⟨?_, ?_, ?_, ?_, ?_⟩, key⟩
  · rw [l1, S.hosts_len]
  · have : d ≠ 0 := by omega
    rw [l2, S.tree_len, if_neg this]
  · intro j i hj hi
    exact ⟨false, key j i hj hi⟩
  · intro h0
    omega
  · intro t ht ht2 _
    rw [rd]
    have q1 : Ptr.tnode t ≠ loc d m 1 := by
      intro e
      have := loc_lower_tnode (Nat.le_refl m) (by omega) v1 e.symm
      omega
    have q2 : Ptr.tnode t ≠ loc d m 0 := by
      intro e
      have := loc_lower_tnode (Nat.le_refl m) (by omega) v0 e.symm
      omega
    have q3 : Ptr.tnode t ≠ Ptr.rootp := by
      intro e
      cases e
    rw [if_neg q1, if_neg q2, if_neg q3]
    exact S.rest t (by omega) ht2

theorem populate_tree_spec {P d : Nat} (hd : d ≤ 16) (hP : 2 ^ d ∣ P)
    (hPb : P + 2 ^ d ≤ 2 ^ 32) :
    ∀ n m fuel H, d = m + 1 + n → n + 1 ≤ fuel → Stage P d m 0 H →
      ∃ H1, populate_tree fuel H (levelBase d m) (2 ^ (d - (m + 1))) (levelBase d (m + 1))
          = some H1 ∧ Shaped P d H1 ∧
        ∀ j i, j ≤ d → i < 2 ^ (d - j) → H1.read (loc d j i) = some (nodeAt P d j i false) := by
  intro n
  induction n with
  | zero =>
    intro m fuel H hdm hf S
    obtain ⟨f, rfl⟩ : ∃ f, fuel = f + 1 := ⟨fuel - 1, by omega⟩
    have h1 : 2 ^ (d - (m + 1)) = 1 := by
      have : d - (m + 1) = 0 := by omega
      rw [this]
      rfl
    obtain ⟨H1, e, r⟩ := stage_root (by omega) S
    refine ⟨H1, ?_, r⟩
    simp only [populate_tree, h1, if_true, e]
  | succ n ih =>
    intro m fuel H hdm hf S
    obtain ⟨f, rfl⟩ : ∃ f, fuel = f + 1 := ⟨fuel - 1, by omega⟩
    have hlev := pow_level_succ d (m + 1) (by omega)
    have hpos := pow_level_pos d (m + 1 + 1)
    have hne : 2 ^ (d - (m + 1)) ≠ 1 := by omega
    obtain ⟨H1, e1, S1⟩ := stage_loop hd hP hPb (by omega) S _ (Nat.le_refl _)
    have S2 := stage_next (by omega) S1
    obtain ⟨H2, e2, r⟩ := ih (m + 1) f H1 (by omega) (by omega) S2
    refine ⟨H2, ?_, r⟩
    have hshift : 2 ^ (d - (m + 1)) >>> 1 = 2 ^ (d - (m + 1 + 1)) := by
      rw [Nat.shiftRight_eq_div_pow, hlev]
      omega
    have hbase : (levelBase d (m + 1)).idx (2 ^ (d - (m + 1))) = levelBase d (m + 1 + 1) := by
      have htop := pow_level_two_le d (m + 1) (by omega) (by omega)
      simp only [levelBase, Nat.add_one_ne_zero, if_false, Ptr.idx, Ptr.tnode.injEq]
      omega
    simp only [populate_tree, if_neg hne, e1, Option.some_bind, hshift, hbase, e2]

/-! ## Construction: `build_host_list`, `build_mst` and `main` -/

theorem build_host_body_spec {H : Heap} {i : Nat} {n : mst_node}
    (h : H.read (Ptr.host i) = some n) :
    ∃ H1, build_host_body i H = some H1 ∧
      Upd H (Ptr.host i)
        { n with pfx := (H.root.pfx + i) % U32, width := 32, mask := ALL_ONES } H1 := by
  obtain ⟨a0, b0, p0, ac0, w0, m0, x0⟩ := n
  obtain ⟨H1, e1, u1⟩ := Heap.modify_spec h (fun n => { n with pfx := (H.root.pfx + i) % U32 })
  have u1 : Upd H (Ptr.host i) ⟨a0, b0, p0, ac0, w0, m0, (H.root.pfx + i) % U32⟩ H1 := u1
  obtain ⟨H2, e2, u2⟩ := Heap.modify_spec u1.read_self (fun n => { n with width := 32 })
  have u2 : Upd H1 (Ptr.host i) ⟨a0, b0, p0, ac0, 32, m0, (H.root.pfx + i) % U32⟩ H2 := u2
  obtain ⟨H3, e3, u3⟩ := Heap.modify_spec u2.read_self (fun n => { n with mask := ALL_ONES })
  have u3 : Upd H2 (Ptr.host i) ⟨a0, b0, p0, ac0, 32, ALL_ONES, (H.root.pfx + i) % U32⟩ H3 := u3
  refine ⟨H3, ?_, ?_, ?_, ?_⟩
  · simp only [build_host_body, e1, e2, e3, Option.some_bind]
  · intro q
    rw [u3.1 q]
    by_cases c : q = Ptr.host i
    · rw [if_pos c, if_pos c]
    · rw [if_neg c, if_neg c, u2.1 q, if_neg c, u1.1 q, if_neg c]
  · rw [u3.2.1, u2.2.1, u1.2.1]
  · rw [u3.2.2, u2.2.2, u1.2.2]

theorem build_host_loop {P N : Nat} {H : Heap} (hN : P + N ≤ 2 ^ 32) (hr : H.root.pfx = P)
    (hz : ∀ i, i < N → H.read (Ptr.host i) = some mst_node.zero) :
    ∀ k, k ≤ N →
      ∃ H1, for_loop build_host_body k H = some H1 ∧
        H1.hosts.length = H.hosts.length ∧ H1.tree_nodes.length = H.tree_nodes.length ∧
        ∀ q, H1.read q =
          match q with
          | Ptr.host i =>
            if i < k then
              some { mst_node.zero with pfx := P + i, width := 32, mask := ALL_ONES }
            else H.read q
          | _ => H.read q := by
  intro k
  induction k with
  | zero =>
    intro _
    refine ⟨H, rfl, rfl, rfl, ?_⟩
    intro q
    cases q <;> simp
  | succ k ih =>
    intro hk
    obtain ⟨H1, e1, l1, l2, rd⟩ := ih (by omega)
    have hk1 : H1.read (Ptr.host k) = some mst_node.zero := by
      rw [rd]
      simp only [Nat.lt_irrefl, if_false]
      exact hz k (by omega)
    obtain ⟨H2, e2, u⟩ := build_host_body_spec hk1
    have hroot : H1.root = H.root := by
      have := rd Ptr.rootp
      simpa [Heap.read] using this
    refine ⟨H2, ?_, ?_, ?_, ?_⟩
    · simp only [for_loop, e1, Option.some_bind, e2]
    · rw [u.2.1, l1]
    · rw [u.2.2, l2]
    · intro q
      rw [u.1 q]
      have hmod : (H1.root.pfx + k) % U32 = P + k := by
        rw [hroot, hr, Nat.mod_eq_of_lt]
        simp only [U32]
        omega
      cases q with
      | host i =>
        by_cases c : i = k
        · subst c
          simp [hmod, mst_node.zero]
        · have c1 : Ptr.host i ≠ Ptr.host k := fun e => c (Ptr.host.inj e)
          rw [if_neg c1, rd]
          have : i < k + 1 ↔ i < k := by omega
          simp only [this]
      | null => rw [if_neg (by simp), rd]
      | rootp => rw [if_neg (by simp), rd]
      | tnode t => rw [if_neg (by simp), rd]

theorem nodeAt_leaf (P d i : Nat) :
    stageNode P d 0 i false
      = { mst_node.zero with pfx := P + i, width := 32, mask := ALL_ONES } := by
  simp [stageNode, nodeAt, mst_node.zero, maskOf, ALL_ONES, U32]

theorem build_mst_spec {P d fuel : Nat} {H : Heap} (hd : d ≤ 16) (hP : 2 ^ d ∣ P)
    (hPb : P + 2 ^ d ≤ 2 ^ 32) (hf : d ≤ fuel) (hr : H.root = rootInit P d)
    (ht : H.tree_nodes = []) :
    ∃ H1, build_mst fuel H = some H1 ∧ Shaped P d H1 ∧
      ∀ j i, j ≤ d → i < 2 ^ (d - j) → H1.read (loc d j i) = some (nodeAt P d j i false) := by
  rcases Nat.eq_zero_or_pos d with d0 | dpos
  · subst d0
    have hw : ¬ H.root.width < 32 := by
      rw [hr]
      simp [rootInit]
    have e : build_mst fuel H = some { H with hosts := [H.root] } := by
      simp [build_mst, hw, build_host_list, Heap.write]
    have key : ∀ j i, j ≤ 0 → i < 2 ^ (0 - j) →
        Heap.read { H with hosts := [H.root] } (loc 0 j i) = some (nodeAt P 0 j i false) := by
      intro j i hj hi
      have j0 : j = 0 := by omega
      subst j0
      have i0 : i = 0 := by
        simp at hi
        exact hi
      subst i0
      simp [loc, Heap.read, hr, rootInit, nodeAt, mst_node.zero]
    refine ⟨_, e, ⟨?_, ?_, ?_, ?_, ?_⟩, key⟩
    · simp
    · simp [ht]
    · intro j i hj hi
      exact ⟨false, key j i hj hi⟩
    · intro _
      simp [hr, rootInit, nodeAt, mst_node.zero]
    · intro t _ _ h
      omega
  · have hN2 : 2 ≤ 2 ^ d := by
      calc 2 = 2 ^ 1 := by norm_num
        _ ≤ 2 ^ d := Nat.pow_le_pow_right (by norm_num) dpos
    have hN16 : 2 ^ d ≤ 65536 := by
      calc 2 ^ d ≤ 2 ^ 16 := Nat.pow_le_pow_right (by norm_num) hd
        _ = 65536 := by norm_num
    have hw : H.root.width < 32 := by
      rw [hr]
      simp only [rootInit]
      omega
    have hnum : (1 <<< (32 - H.root.width)) % U32 = 2 ^ d := by
      have : 32 - H.root.width = d := by
        rw [hr]
        simp only [rootInit]
        omega
      rw [this, Nat.shiftLeft_eq, Nat.one_mul, Nat.mod_eq_of_lt]
      simp only [U32]
      omega
    have hne : 2 ^ d ≠ 1 := by omega
    have hz : ∀ i, i < 2 ^ d →
        Heap.read { H with hosts := List.replicate (2 ^ d) mst_node.zero } (Ptr.host i)
          = some mst_node.zero := by
      intro i hi
      simp [Heap.read, List.getElem?_replicate, hi]
    have hrp : (Heap.root { H with hosts := List.replicate (2 ^ d) mst_node.zero }).pfx = P := by
      simp [hr, rootInit]
    obtain ⟨H1, e1, l1, _, rd⟩ := build_host_loop hPb hrp hz (2 ^ d) (Nat.le_refl _)
    have S : Stage P d 0 0 { H1 with tree_nodes := List.replicate (2 ^ d) mst_node.zero } := by
      refine ⟨?_, ?_, ?_, ?_, ?_, ?_⟩
      · rw [l1]
        simp
      · simp
      · have := rd Ptr.rootp
        simp only [Heap.read, Option.some.injEq] at this
        simp [this, hr]
      · intro j i hj hi
        have j0 : j = 0 := by omega
        subst j0
        have hi : i < 2 ^ d := hi
        have := rd (Ptr.host i)
        simp only [hi, if_true] at this
        simp only [loc_zero, Nat.lt_irrefl, Nat.mul_zero, Nat.not_lt_zero, or_self,
          decide_False, nodeAt_leaf]
        simpa [Heap.read] using this
      · intro i hi
        omega
      · intro t _ ht2
        simp [Heap.read, List.getElem?_replicate, ht2]
    obtain ⟨H2, e2, r⟩ := populate_tree_spec hd hP hPb (d - 1) 0 fuel _ (by omega) (by omega) S
    refine ⟨H2, ?_, r⟩
    have hshift : 2 ^ d >>> 1 = 2 ^ (d - (0 + 1)) := by
      have := pow_level_succ d 0 dpos
      rw [Nat.shiftRight_eq_div_pow]
      simp only [Nat.sub_zero] at this
      omega
    have hb0 : Ptr.host 0 = levelBase d 0 := by simp [levelBase]
    have hb1 : Ptr.tnode 0 = levelBase d (0 + 1) := by
      have := pow_level_succ d 0 dpos
      simp only [Nat.sub_zero] at this
      simp only [levelBase, Nat.add_one_ne_zero, if_false, Ptr.tnode.injEq]
      omega
    simp only [build_mst, hw, if_true, hnum, hN16, build_host_list, if_neg hne, e1,
      Option.some_bind, hshift, hb0, hb1, e2]

theorem aligned_block (addr d : Nat) (ha : addr < 2 ^ 32) (hd : d ≤ 32) :
    2 ^ d ∣ addr &&& maskOf d ∧ (addr &&& maskOf d) + 2 ^ d ≤ 2 ^ 32 := by
  rw [land_maskOf addr d ha hd]
  refine ⟨Dvd.intro_left _ rfl, ?_⟩
  have e : (2 : Nat) ^ 32 = 2 ^ (32 - d) * 2 ^ d := by
    rw [← Nat.pow_add]
    congr 1
    omega
  have hq : addr / 2 ^ d < 2 ^ (32 - d) := by
    rw [Nat.div_lt_iff_lt_mul (Nat.pow_pos (by norm_num))]
    rw [← e]
    exact ha
  have : (addr / 2 ^ d + 1) * 2 ^ d ≤ 2 ^ (32 - d) * 2 ^ d := Nat.mul_le_mul_right _ hq
  rw [e]
  calc addr / 2 ^ d * 2 ^ d + 2 ^ d = (addr / 2 ^ d + 1) * 2 ^ d := by ring
    _ ≤ _ := this

/-- The start of `main` succeeds for every width in `[16, 32]` and produces the tree in
the shape of the coordinate system, with every node inactive. -/
theorem main_init_spec (addr w fuel : Nat) (ha : addr < 2 ^ 32) (hw1 : 16 ≤ w) (hw2 : w ≤ 32)
    (hf : 32 - w ≤ fuel) :
    ∃ H, main_init fuel addr w = some H ∧ Shaped (addr &&& maskOf (32 - w)) (32 - w) H ∧
      ∀ j i, j ≤ 32 - w → i < 2 ^ (32 - w - j) →
        H.read (loc (32 - w) j i) = some (nodeAt (addr &&& maskOf (32 - w)) (32 - w) j i false) := by
  obtain ⟨hP, hPb⟩ := aligned_block addr (32 - w) ha (by omega)
  have hm : width_to_mask w = some (maskOf (32 - w)) := by
    have := width_to_mask_eq (32 - w) (by omega)
    have e : 32 - (32 - w) = w := by omega
    rwa [e] at this
  have hr : Heap.root
      { root := { mst_node.zero with
                  pfx := addr &&& maskOf (32 - w), width := w, mask := maskOf (32 - w) },
        hosts := [], tree_nodes := [] } = rootInit (addr &&& maskOf (32 - w)) (32 - w) := by
    have e : 32 - (32 - w) = w := by omega
    simp [rootInit, e]
  obtain ⟨H1, e1, r⟩ := build_mst_spec (by omega) hP hPb hf hr rfl
  refine ⟨H1, ?_, r⟩
  have hn : ¬ (w < 16 ∨ w > 32) := by omega
  simp only [main_init, if_neg hn, hm, Option.some_bind, e1]

/-! ## Built trees: reading and updating active flags -/

theorem Shaped.read_bit {P d : Nat} {H : Heap} (S : Shaped P d H) {j i : Nat} (hj : j ≤ d)
    (hi : i < 2 ^ (d - j)) : H.read (loc d j i) = some (nodeAt P d j i (bit H d j i)) := by
  obtain ⟨b, hb⟩ := S.node j i hj hi
  have : bit H d j i = b := by
    simp [bit, hb, nodeAt]
  rw [this, hb]

theorem loc_ne_null (d j i : Nat) : loc d j i ≠ Ptr.null := by
  unfold loc
  split
  · simp
  · split <;> simp

theorem loc_top_zero (d : Nat) : loc d d 0 = if d = 0 then Ptr.host 0 else Ptr.rootp := by
  unfold loc
  split <;> simp_all

theorem Shaped.root_eq {P d : Nat} {H : Heap} (S : Shaped P d H) :
    ∃ b, H.root = nodeAt P d d 0 b := by
  rcases Nat.eq_zero_or_pos d with d0 | dpos
  · subst d0
    exact ⟨false, S.root0 rfl⟩
  · obtain ⟨b, hb⟩ := S.node d 0 (Nat.le_refl _) (by simp)
    rw [loc_top d 0 dpos] at hb
    exact ⟨b, by simpa [Heap.read] using hb⟩

theorem Shaped.root_mask {P d : Nat} {H : Heap} (S : Shaped P d H) :
    H.root.mask = maskOf d ∧ H.root.pfx = P ∧ H.root.width = 32 - d := by
  obtain ⟨b, hb⟩ := S.root_eq
  rw [hb]
  simp [nodeAt]

/-- Storing a node that differs from the present one in the active flag only keeps the
tree in shape and changes exactly one flag. -/
theorem Shaped.set_bit {P d : Nat} {H H1 : Heap} (S : Shaped P d H) {j i : Nat} (hj : j ≤ d)
    (hi : i < 2 ^ (d - j)) {b : Bool}
    (u : Upd H (loc d j i) (nodeAt P d j i b) H1) :
    Shaped P d H1 ∧
      ∀ j1 i1, j1 ≤ d → i1 < 2 ^ (d - j1) →
        bit H1 d j1 i1 = if j1 = j ∧ i1 = i then b else bit H d j1 i1 := by
  have rd : ∀ j1 i1, j1 ≤ d → i1 < 2 ^ (d - j1) →
      H1.read (loc d j1 i1) =
        some (nodeAt P d j1 i1 (if j1 = j ∧ i1 = i then b else bit H d j1 i1)) := by
    intro j1 i1 hj1 hi1
    rw [u.1]
    by_cases c : loc d j1 i1 = loc d j i
    · obtain ⟨a, b1⟩ := loc_inj hj1 hi1 hj hi c
      subst a b1
      simp
    · have c2 : ¬ (j1 = j ∧ i1 = i) := by
        rintro ⟨a, b1⟩
        subst a b1
        exact c rfl
      rw [if_neg c, if_neg c2]
      exact S.read_bit hj1 hi1
  refine ⟨⟨?_, ?_, ?_, ?_, ?_⟩, ?_⟩
  · rw [u.2.1, S.hosts_len]
  · rw [u.2.2, S.tree_len]
  · intro j1 i1 hj1 hi1
    exact ⟨_, rd j1 i1 hj1 hi1⟩
  · intro d0
    subst d0
    have j0 : j = 0 := by omega
    subst j0
    have := u.1 Ptr.rootp
    rw [loc_zero, if_neg (by simp)] at this
    simp only [Heap.read, Option.some.injEq] at this
    rw [this]
    exact S.root0 rfl
  · intro t ht ht2 dpos
    rw [u.1]
    have c : Ptr.tnode t ≠ loc d j i := by
      intro e
      rcases Nat.lt_or_ge j d with c1 | c1
      · have := loc_lower_tnode (m := d - 1) (by omega) (by omega) hi e.symm
        have e2 : d - (d - 1 + 1) = 0 := by omega
        rw [e2] at this
        simp at this
        omega
      · have : j = d := by omega
        subst this
        rw [loc_top j i dpos] at e
        cases e
    rw [if_neg c]
    exact S.spare t ht ht2 dpos
  · intro j1 i1 hj1 hi1
    have := rd j1 i1 hj1 hi1
    simp only [bit, this, nodeAt]

theorem Shaped.write_bit {P d : Nat} {H : Heap} (S : Shaped P d H) {j i : Nat} (hj : j ≤ d)
    (hi : i < 2 ^ (d - j)) (b b0 : Bool) :
    ∃ H1, H.write (loc d j i) { nodeAt P d j i b0 with active := b } = some H1 ∧
      Upd H (loc d j i) (nodeAt P d j i b) H1 := by
  obtain ⟨H1, e⟩ := Heap.write_of_read (S.read_bit hj hi) { nodeAt P d j i b0 with active := b }
  exact ⟨H1, e, Heap.read_write e, Heap.write_lengths e⟩

/-! ## `mark_host_up` on a built tree -/

theorem nodeAt_p (P d j i : Nat) (b : Bool) (h : j < d) :
    (nodeAt P d j i b).p = loc d (j + 1) (i / 2) := by
  have : j ≠ d := by omega
  simp [nodeAt, this]

theorem nodeAt_p_top (P d i : Nat) (b : Bool) : (nodeAt P d d i b).p = Ptr.null := by
  simp [nodeAt]

theorem nodeAt_l (P d j i : Nat) (b : Bool) : (nodeAt P d (j + 1) i b).l = loc d j (2 * i) := by
  simp [nodeAt]

theorem nodeAt_r (P d j i : Nat) (b : Bool) :
    (nodeAt P d (j + 1) i b).r = loc d j (2 * i + 1) := by
  simp [nodeAt]

theorem nodeAt_active (P d j i : Nat) (b : Bool) : (nodeAt P d j i b).active = b := rfl

theorem half_lt (d j i : Nat) (hj : j < d) (hi : i < 2 ^ (d - j)) :
    i / 2 < 2 ^ (d - (j + 1)) := by
  have := pow_level_succ d j hj
  omega

theorem child_lt (d j i : Nat) (hi : i < 2 ^ (d - (j + 1))) (hj : j < d) :
    2 * i < 2 ^ (d - j) ∧ 2 * i + 1 < 2 ^ (d - j) := by
  have := pow_level_succ d j hj
  omega

theorem up_loop_step {H H1 : Heap} {node : Ptr} {n pn ln : mst_node} {v : Bool} (fuel : Nat)
    (h1 : H.read node = some n) (ha : n.active = true) (hp : n.p ≠ Ptr.null)
    (h2 : H.read n.p = some pn) (h3 : H.read pn.l = some ln)
    (hv : (if ln.active then (H.read pn.r).map (fun rn => rn.active) else some false) = some v)
    (hw : H.write n.p { pn with active := v } = some H1) :
    mark_host_up_loop (fuel + 1) H node = mark_host_up_loop fuel H1 n.p := by
  simp only [mark_host_up_loop, h1, Option.some_bind, ha, ne_eq, hp, not_false_eq_true,
    and_self, if_true, h2, h3, hv, hw]

theorem up_loop_stop {H : Heap} {node : Ptr} {n : mst_node} (fuel : Nat)
    (h1 : H.read node = some n) (h : ¬ (n.active = true ∧ n.p ≠ Ptr.null)) :
    mark_host_up_loop (fuel + 1) H node = some H := by
  simp only [mark_host_up_loop, h1, Option.some_bind, if_neg h]

theorem up_loop_spec {P d : Nat} :
    ∀ n j i fuel H, d = j + n → i < 2 ^ (d - j) → n + 1 ≤ fuel → Shaped P d H →
      ∃ H1, mark_host_up_loop fuel H (loc d j i) = some H1 ∧ Shaped P d H1 ∧
        (∀ j1 i1, j1 ≤ j → i1 < 2 ^ (d - j1) → bit H1 d j1 i1 = bit H d j1 i1) ∧
        (AndExcept d H (j + 1) (i / 2) →
          (j < d → bit H d (j + 1) (i / 2) = true →
            bit H d j (2 * (i / 2)) = true ∧ bit H d j (2 * (i / 2) + 1) = true) →
          AndInv d H1) := by
  intro n
  induction n with
  | zero =>
    intro j i fuel H hd hi hf S
    obtain ⟨f, rfl⟩ : ∃ f, fuel = f + 1 := ⟨fuel - 1, by omega⟩
    have hjd : j = d := by omega
    subst hjd
    refine ⟨H, ?_, S, fun _ _ _ _ => rfl, ?_⟩
    · apply up_loop_stop f (S.read_bit (Nat.le_refl _) hi)
      rw [nodeAt_p_top]
      simp
    · intro hA _ j1 i1 h1 h2 h3
      exact hA j1 i1 h1 h2 h3 (Or.inl (by omega))
  | succ n ih =>
    intro j i fuel H hd hi hf S
    obtain ⟨f, rfl⟩ : ∃ f, fuel = f + 1 := ⟨fuel - 1, by omega⟩
    have hjd : j < d := by omega
    have hh := half_lt d j i hjd hi
    have hc := child_lt d j (i / 2) hh hjd
    have hpar : i = 2 * (i / 2) ∨ i = 2 * (i / 2) + 1 := by omega
    by_cases hb : bit H d j i = true
    · -- the loop moves to the parent and recomputes its flag
      obtain ⟨H1, e1, u1⟩ := S.write_bit (by omega) hh
        (bit H d j (2 * (i / 2)) && bit H d j (2 * (i / 2) + 1)) (bit H d (j + 1) (i / 2))
      obtain ⟨S1, b1⟩ := S.set_bit (by omega) hh u1
      obtain ⟨H2, e2, S2, low2, and2⟩ := ih (j + 1) (i / 2) f H1 (by omega) hh (by omega) S1
      refine ⟨H2, ?_, S2, ?_, ?_⟩
      · rw [← e2]
        have hpp := nodeAt_p P d j i (bit H d j i) hjd
        have r2 : H.read (nodeAt P d j i (bit H d j i)).p
            = some (nodeAt P d (j + 1) (i / 2) (bit H d (j + 1) (i / 2))) := by
          rw [hpp]
          exact S.read_bit (by omega) hh
        have r3 : H.read (nodeAt P d (j + 1) (i / 2) (bit H d (j + 1) (i / 2))).l
            = some (nodeAt P d j (2 * (i / 2)) (bit H d j (2 * (i / 2)))) := by
          rw [nodeAt_l]
          exact S.read_bit (by omega) hc.1
        have hv : (if (nodeAt P d j (2 * (i / 2)) (bit H d j (2 * (i / 2)))).active then
            (H.read (nodeAt P d (j + 1) (i / 2) (bit H d (j + 1) (i / 2))).r).map
              (fun rn => rn.active) else some false)
            = some (bit H d j (2 * (i / 2)) && bit H d j (2 * (i / 2) + 1)) := by
          rw [nodeAt_r, S.read_bit (by omega) hc.2, nodeAt_active]
          cases bit H d j (2 * (i / 2)) <;> simp [nodeAt_active]
        have hw : H.write (nodeAt P d j i (bit H d j i)).p
            { nodeAt P d (j + 1) (i / 2) (bit H d (j + 1) (i / 2)) with
              active := (bit H d j (2 * (i / 2)) && bit H d j (2 * (i / 2) + 1)) } = some H1 := by
          rw [hpp]
          exact e1
        have := up_loop_step f (S.read_bit (Nat.le_of_lt hjd) hi) hb
          (by rw [hpp]; exact loc_ne_null _ _ _) r2 r3 hv hw
        rw [this, hpp]
      · intro j1 i1 hj1 hi1
        rw [low2 j1 i1 (by omega) hi1, b1 j1 i1 (by omega) hi1]
        have : ¬ (j1 = j + 1 ∧ i1 = i / 2) := by omega
        rw [if_neg this]
      · intro hA hB
        apply and2
        · intro j1 i1 h1 h2 h3 h4
          have hc1 := child_lt d (j1 - 1) i1 (by
            have : j1 - 1 + 1 = j1 := by omega
            rw [this]
            exact h3) (by omega)
          rw [b1 j1 i1 h2 h3, b1 (j1 - 1) (2 * i1) (by omega) hc1.1,
            b1 (j1 - 1) (2 * i1 + 1) (by omega) hc1.2]
          have n1 : ¬ (j1 - 1 = j + 1 ∧ 2 * i1 = i / 2) := by omega
          have n2 : ¬ (j1 - 1 = j + 1 ∧ 2 * i1 + 1 = i / 2) := by omega
          rw [if_neg n1, if_neg n2]
          by_cases c : j1 = j + 1 ∧ i1 = i / 2
          · obtain ⟨c1, c2⟩ := c
            subst c1 c2
            simp
          · rw [if_neg c]
            exact hA j1 i1 h1 h2 h3 (by omega)
        · intro hj2 hg
          have hh2 := half_lt d (j + 1) (i / 2) hj2 hh
          have hc2 := child_lt d (j + 1) (i / 2 / 2) hh2 hj2
          rw [b1 (j + 1 + 1) (i / 2 / 2) (by omega) hh2] at hg
          have n0 : ¬ (j + 1 + 1 = j + 1 ∧ i / 2 / 2 = i / 2) := by omega
          rw [if_neg n0] at hg
          have hgp := hA (j + 1 + 1) (i / 2 / 2) (by omega) (by omega) hh2 (Or.inl (by omega))
          rw [hg] at hgp
          have hgp := hgp.symm
          simp only [Nat.add_sub_cancel, Bool.and_eq_true] at hgp
          have hpar2 : i / 2 = 2 * (i / 2 / 2) ∨ i / 2 = 2 * (i / 2 / 2) + 1 := by omega
          have hold : bit H d (j + 1) (i / 2) = true := by
            rcases hpar2 with c | c
            · rw [c]; exact hgp.1
            · rw [c]; exact hgp.2
          have hboth := hB hjd hold
          have hv : (bit H d j (2 * (i / 2)) && bit H d j (2 * (i / 2) + 1)) = true := by
            rw [hboth.1, hboth.2]
            rfl
          rw [b1 (j + 1) (2 * (i / 2 / 2)) (by omega) hc2.1,
            b1 (j + 1) (2 * (i / 2 / 2) + 1) (by omega) hc2.2, hv]
          constructor
          · split
            · rfl
            · exact hgp.1
          · split
            · rfl
            · exact hgp.2
    · -- the node is inactive: the loop stops at once
      have hb : bit H d j i = false := by simpa using hb
      refine ⟨H, ?_, S, fun _ _ _ _ => rfl, ?_⟩
      · apply up_loop_stop f (S.read_bit (Nat.le_of_lt hjd) hi)
        rw [nodeAt_active, hb]
        simp
      · intro hA hB j1 i1 h1 h2 h3
        by_cases c : j1 = j + 1 ∧ i1 = i / 2
        · obtain ⟨c1, c2⟩ := c
          subst c1 c2
          simp only [Nat.add_sub_cancel]
          cases hp : bit H d (j + 1) (i / 2)
          · rcases hpar with c | c
            · rw [← c, hb]; rfl
            · rw [← c, hb]; simp
          · have := hB hjd hp
            rw [this.1, this.2]
            rfl
        · exact hA j1 i1 h1 h2 h3 (by omega)

/-! ## `mark_host_down` on a built tree -/

theorem down_loop_null (fuel : Nat) (H : Heap) :
    mark_host_down_loop (fuel + 1) H Ptr.null = some H := by
  simp [mark_host_down_loop]

theorem down_loop_step {H H1 : Heap} {node : Ptr} {n : mst_node} (fuel : Nat)
    (hn : node ≠ Ptr.null) (h1 : H.read node = some n) (ha : n.active = true)
    (hw : H.write node { n with active := false } = some H1) :
    mark_host_down_loop (fuel + 1) H node = mark_host_down_loop fuel H1 n.p := by
  simp only [mark_host_down_loop, if_neg hn, h1, Option.some_bind, ha, if_true, hw]

theorem down_loop_stop {H : Heap} {node : Ptr} {n : mst_node} (fuel : Nat)
    (hn : node ≠ Ptr.null) (h1 : H.read node = some n) (ha : n.active = false) :
    mark_host_down_loop (fuel + 1) H node = some H := by
  simp only [mark_host_down_loop, if_neg hn, h1, Option.some_bind, ha]
  rfl

theorem down_loop_spec {P d : Nat} :
    ∀ n j i fuel H, d = j + n → i < 2 ^ (d - j) → n + 2 ≤ fuel → Shaped P d H →
      ∃ H1, mark_host_down_loop fuel H (loc d j i) = some H1 ∧ Shaped P d H1 ∧
        (∀ j1 i1, j1 ≤ j → i1 < 2 ^ (d - j1) →
          bit H1 d j1 i1 = if j1 = j ∧ i1 = i then false else bit H d j1 i1) ∧
        (AndExcept d H j i →
          (1 ≤ j → (bit H d (j - 1) (2 * i) && bit H d (j - 1) (2 * i + 1)) = false) →
          AndInv d H1) := by
  intro n
  induction n with
  | zero =>
    intro j i fuel H hd hi hf S
    obtain ⟨f, rfl⟩ : ∃ f, fuel = f + 2 := ⟨fuel - 2, by omega⟩
    have hjd : j = d := by omega
    subst hjd
    cases hb : bit H j j i
    · refine ⟨H, ?_, S, ?_, ?_⟩
      · apply down_loop_stop _ (loc_ne_null _ _ _) (S.read_bit (Nat.le_refl _) hi)
        rw [nodeAt_active, hb]
      · intro j1 i1 hj1 hi1
        split
        · rename_i c
          rw [c.1, c.2, hb]
        · rfl
      · intro hA hB j1 i1 h1 h2 h3
        by_cases c : j1 = j ∧ i1 = i
        · obtain ⟨c1, c2⟩ := c
          subst c1 c2
          rw [hb, hB h1]
        · exact hA j1 i1 h1 h2 h3 (by omega)
    · obtain ⟨H1, e1, u1⟩ := S.write_bit (Nat.le_refl _) hi false (bit H j j i)
      obtain ⟨S1, b1⟩ := S.set_bit (Nat.le_refl _) hi u1
      refine ⟨H1, ?_, S1, ?_, ?_⟩
      · rw [down_loop_step _ (loc_ne_null _ _ _) (S.read_bit (Nat.le_refl _) hi)
          (by rw [nodeAt_active, hb]) e1, nodeAt_p_top, down_loop_null]
      · intro j1 i1 hj1 hi1
        exact b1 j1 i1 hj1 hi1
      · intro hA hB j1 i1 h1 h2 h3
        have hc1 := child_lt j (j1 - 1) i1 (by
          have : j1 - 1 + 1 = j1 := by omega
          rw [this]
          exact h3) (by omega)
        rw [b1 j1 i1 h2 h3, b1 (j1 - 1) (2 * i1) (by omega) hc1.1,
          b1 (j1 - 1) (2 * i1 + 1) (by omega) hc1.2]
        have n1 : ¬ (j1 - 1 = j ∧ 2 * i1 = i) := by omega
        have n2 : ¬ (j1 - 1 = j ∧ 2 * i1 + 1 = i) := by omega
        rw [if_neg n1, if_neg n2]
        by_cases c : j1 = j ∧ i1 = i
        · obtain ⟨c1, c2⟩ := c
          subst c1 c2
          rw [if_pos ⟨rfl, rfl⟩, hB h1]
        · rw [if_neg c]
          exact hA j1 i1 h1 h2 h3 (by omega)
  | succ n ih =>
    intro j i fuel H hd hi hf S
    obtain ⟨f, rfl⟩ : ∃ f, fuel = f + 1 := ⟨fuel - 1, by omega⟩
    have hjd : j < d := by omega
    have hh := half_lt d j i hjd hi
    have hpar : i = 2 * (i / 2) ∨ i = 2 * (i / 2) + 1 := by omega
    cases hb : bit H d j i
    · refine ⟨H, ?_, S, ?_, ?_⟩
      · apply down_loop_stop _ (loc_ne_null _ _ _) (S.read_bit (Nat.le_of_lt hjd) hi)
        rw [nodeAt_active, hb]
      · intro j1 i1 hj1 hi1
        split
        · rename_i c
          rw [c.1, c.2, hb]
        · rfl
      · intro hA hB j1 i1 h1 h2 h3
        by_cases c : j1 = j ∧ i1 = i
        · obtain ⟨c1, c2⟩ := c
          subst c1 c2
          rw [hb, hB h1]
        · exact hA j1 i1 h1 h2 h3 (by omega)
    · obtain ⟨H1, e1, u1⟩ := S.write_bit (Nat.le_of_lt hjd) hi false (bit H d j i)
      obtain ⟨S1, b1⟩ := S.set_bit (Nat.le_of_lt hjd) hi u1
      obtain ⟨H2, e2, S2, low2, and2⟩ := ih (j + 1) (i / 2) f H1 (by omega) hh (by omega) S1
      refine ⟨H2, ?_, S2, ?_, ?_⟩
      · rw [down_loop_step _ (loc_ne_null _ _ _) (S.read_bit (Nat.le_of_lt hjd) hi)
          (by rw [nodeAt_active, hb]) e1, nodeAt_p P d j i _ hjd, e2]
      · intro j1 i1 hj1 hi1
        rw [low2 j1 i1 (by omega) hi1]
        have : ¬ (j1 = j + 1 ∧ i1 = i / 2) := by omega
        rw [if_neg this]
        exact b1 j1 i1 (by omega) hi1
      · intro hA hB
        apply and2
        · intro j1 i1 h1 h2 h3 h4
          have hc1 := child_lt d (j1 - 1) i1 (by
            have : j1 - 1 + 1 = j1 := by omega
            rw [this]
            exact h3) (by omega)
          rw [b1 j1 i1 h2 h3, b1 (j1 - 1) (2 * i1) (by omega) hc1.1,
            b1 (j1 - 1) (2 * i1 + 1) (by omega) hc1.2]
          have n1 : ¬ (j1 - 1 = j ∧ 2 * i1 = i) := by omega
          have n2 : ¬ (j1 - 1 = j ∧ 2 * i1 + 1 = i) := by omega
          rw [if_neg n1, if_neg n2]
          by_cases c : j1 = j ∧ i1 = i
          · obtain ⟨c1, c2⟩ := c
            subst c1 c2
            rw [if_pos ⟨rfl, rfl⟩, hB h1]
          · rw [if_neg c]
            exact hA j1 i1 h1 h2 h3 (by omega)
        · intro _
          have hc := child_lt d j (i / 2) hh hjd
          simp only [Nat.add_sub_cancel]
          rw [b1 j (2 * (i / 2)) (by omega) hc.1, b1 j (2 * (i / 2) + 1) (by omega) hc.2]
          rcases hpar with c | c
          · rw [if_pos ⟨rfl, c.symm⟩]
            rfl
          · have e : (if j = j ∧ 2 * (i / 2) + 1 = i then false
                else bit H d j (2 * (i / 2) + 1)) = false := by
              rw [if_pos ⟨rfl, c.symm⟩]
            rw [e]
            simp

/-! ## Whole updates and sequences of updates -/

theorem host_split (P d h : Nat) (hh : h < 2 ^ 32) (hd : d ≤ 32) (hs : h &&& maskOf d = P) :
    h = P + h % 2 ^ d ∧ h % 2 ^ d < 2 ^ d := by
  rw [land_maskOf h d hh hd] at hs
  have := Nat.div_add_mod h (2 ^ d)
  have hp : 0 < 2 ^ d := Nat.pow_pos (by norm_num)
  refine ⟨?_, Nat.mod_lt _ hp⟩
  rw [← hs]
  rw [Nat.mul_comm] at this
  omega

theorem host_to_node_spec {P d h : Nat} {H : Heap} (S : Shaped P d H) (hd : d ≤ 32)
    (hs : h &&& maskOf d = P) : host_to_node H h = some (loc d 0 (h % 2 ^ d)) := by
  obtain ⟨m1, m2, _⟩ := S.root_mask
  simp only [host_to_node, m1, m2, hs, if_true, land_not_maskOf h d hd, Ptr.idx, loc_zero,
    Nat.zero_add]

theorem mark_host_up_spec {P d h fuel : Nat} {H : Heap} (S : Shaped P d H) (A : AndInv d H)
    (hd : d ≤ 32) (hh : h < 2 ^ 32) (hs : h &&& maskOf d = P) (hf : d + 1 ≤ fuel) :
    ∃ H1, mark_host_up fuel H h = some H1 ∧ Shaped P d H1 ∧ AndInv d H1 ∧
      ∀ i, i < 2 ^ d → bit H1 d 0 i = if i = h % 2 ^ d then true else bit H d 0 i := by
  obtain ⟨_, hi⟩ := host_split P d h hh hd hs
  have hi0 : h % 2 ^ d < 2 ^ (d - 0) := hi
  obtain ⟨H1, e1, u1⟩ := Heap.modify_spec (S.read_bit (Nat.zero_le d) hi0)
    (fun n => { n with active := true })
  have u1 : Upd H (loc d 0 (h % 2 ^ d)) (nodeAt P d 0 (h % 2 ^ d) true) H1 := u1
  obtain ⟨S1, b1⟩ := S.set_bit (Nat.zero_le d) hi0 u1
  obtain ⟨H2, e2, S2, low2, and2⟩ :=
    up_loop_spec d 0 (h % 2 ^ d) fuel H1 (by omega) hi0 hf S1
  refine ⟨H2, ?_, S2, ?_, ?_⟩
  · simp only [mark_host_up, host_to_node_spec S hd hs, Option.some_bind, e1, e2]
  · apply and2
    · intro j1 i1 h1 h2 h3 h4
      have hc1 := child_lt d (j1 - 1) i1 (by
        have : j1 - 1 + 1 = j1 := by omega
        rw [this]
        exact h3) (by omega)
      rw [b1 j1 i1 h2 h3, b1 (j1 - 1) (2 * i1) (by omega) hc1.1,
        b1 (j1 - 1) (2 * i1 + 1) (by omega) hc1.2]
      have n0 : ¬ (j1 = 0 ∧ i1 = h % 2 ^ d) := by omega
      have n1 : ¬ (j1 - 1 = 0 ∧ 2 * i1 = h % 2 ^ d) := by omega
      have n2 : ¬ (j1 - 1 = 0 ∧ 2 * i1 + 1 = h % 2 ^ d) := by omega
      rw [if_neg n0, if_neg n1, if_neg n2]
      exact A j1 i1 h1 h2 h3
    · intro hd0 hp
      have hh2 := half_lt d 0 (h % 2 ^ d) hd0 hi0
      have hc := child_lt d 0 (h % 2 ^ d / 2) hh2 hd0
      rw [b1 (0 + 1) (h % 2 ^ d / 2) (by omega) hh2] at hp
      have n0 : ¬ (0 + 1 = 0 ∧ h % 2 ^ d / 2 = h % 2 ^ d) := by omega
      rw [if_neg n0, A (0 + 1) (h % 2 ^ d / 2) (by omega) (by omega) hh2] at hp
      simp only [Nat.add_sub_cancel, Bool.and_eq_true] at hp
      rw [b1 0 (2 * (h % 2 ^ d / 2)) (by omega) hc.1,
        b1 0 (2 * (h % 2 ^ d / 2) + 1) (by omega) hc.2]
      constructor
      · split
        · rfl
        · exact hp.1
      · split
        · rfl
        · exact hp.2
  · intro i hi1
    rw [low2 0 i (Nat.le_refl _) hi1, b1 0 i (Nat.zero_le d) hi1]
    simp

theorem mark_host_down_spec {P d h fuel : Nat} {H : Heap} (S : Shaped P d H)
    (A : AndInv d H) (hd : d ≤ 32) (hh : h < 2 ^ 32) (hs : h &&& maskOf d = P)
    (hf : d + 2 ≤ fuel) :
    ∃ H1, mark_host_down fuel H h = some H1 ∧ Shaped P d H1 ∧ AndInv d H1 ∧
      ∀ i, i < 2 ^ d → bit H1 d 0 i = if i = h % 2 ^ d then false else bit H d 0 i := by
  obtain ⟨_, hi⟩ := host_split P d h hh hd hs
  have hi0 : h % 2 ^ d < 2 ^ (d - 0) := hi
  obtain ⟨H2, e2, S2, low2, and2⟩ :=
    down_loop_spec d 0 (h % 2 ^ d) fuel H (by omega) hi0 hf S
  refine ⟨H2, ?_, S2, ?_, ?_⟩
  · simp only [mark_host_down, host_to_node_spec S hd hs, Option.some_bind, e2]
  · apply and2
    · intro j1 i1 h1 h2 h3 _
      exact A j1 i1 h1 h2 h3
    · intro h0
      omega
  · intro i hi1
    rw [low2 0 i (Nat.le_refl _) hi1]
    simp

theorem run_ops_append (fuel : Nat) (H : Heap) (ops1 ops2 : List Op) :
    run_ops fuel H (ops1 ++ ops2) = (run_ops fuel H ops1).bind fun H1 => run_ops fuel H1 ops2 := by
  induction ops1 generalizing H with
  | nil => simp [run_ops]
  | cons op ops ih =>
    simp only [List.cons_append, run_ops]
    cases apply_op fuel H op with
    | none => simp
    | some H1 => simp [ih]

theorem most_recent_up_append (ops : List Op) (op : Op) (h : Nat) :
    most_recent_up (ops ++ [op]) h = if op.host = h then op.is_up else most_recent_up ops h := by
  simp only [most_recent_up, List.reverse_append, List.reverse_cons, List.reverse_nil,
    List.nil_append, List.singleton_append, List.find?_cons]
  by_cases c : op.host = h
  · simp [c]
  · simp [c]

theorem in_subnet_iff (addr w h : Nat) (hw1 : 16 ≤ w) (hw2 : w ≤ 32) :
    in_subnet addr w h = true ↔
      h < 2 ^ 32 ∧ h &&& maskOf (32 - w) = addr &&& maskOf (32 - w) := by
  have hm : width_to_mask w = some (maskOf (32 - w)) := by
    have := width_to_mask_eq (32 - w) (by omega)
    have e : 32 - (32 - w) = w := by omega
    rwa [e] at this
  simp [in_subnet, hm, U32]

/-- Every state reached from a built tree by in-subnet updates is a built tree that
satisfies the AND-invariant, and its leaves record the most recent update of each host. -/
theorem run_ops_spec {P d fuel : Nat} {H0 : Heap} (S0 : Shaped P d H0) (A0 : AllDown d H0)
    (hd : d ≤ 32) (hf : d + 2 ≤ fuel) (ops : List Op)
    (hops : ∀ op ∈ ops, op.host < 2 ^ 32 ∧ op.host &&& maskOf d = P) :
    ∃ H, run_ops fuel H0 ops = some H ∧ Shaped P d H ∧ AndInv d H ∧
      ∀ i, i < 2 ^ d → bit H d 0 i = most_recent_up ops (P + i) := by
  induction ops using List.reverseRecOn with
  | nil =>
    refine ⟨H0, rfl, S0, ?_, ?_⟩
    · intro j i h1 h2 h3
      have hc1 := child_lt d (j - 1) i (by
        have : j - 1 + 1 = j := by omega
        rw [this]
        exact h3) (by omega)
      rw [A0 j i h2 h3, A0 (j - 1) (2 * i) (by omega) hc1.1]
      rfl
    · intro i hi
      rw [A0 0 i (Nat.zero_le _) hi]
      rfl
  | append_singleton ops op ih =>
    obtain ⟨H, e, S, A, b⟩ := ih (fun o ho => hops o (List.mem_append_left _ ho))
    have hop := hops op (List.mem_append_right _ (List.mem_singleton_self op))
    have step : ∀ h, op.host = h → h < 2 ^ 32 ∧ h &&& maskOf d = P ∧ h = P + h % 2 ^ d ∧
        ∀ i, i < 2 ^ d → (i = h % 2 ^ d ↔ h = P + i) := by
      intro h eh
      rw [eh] at hop
      obtain ⟨hsplit, hlt⟩ := host_split P d h hop.1 hd hop.2
      refine ⟨hop.1, hop.2, hsplit, ?_⟩
      intro i hi
      constructor
      · intro c
        rw [c]
        exact hsplit
      · intro c
        omega
    cases op with
    | up h =>
      obtain ⟨hh, hs, _, key⟩ := step h rfl
      obtain ⟨H1, e1, S1, A1, b1⟩ := @mark_host_up_spec _ _ _ fuel _ S A hd hh hs (by omega)
      refine ⟨H1, ?_, S1, A1, ?_⟩
      · simp only [run_ops_append, e, Option.some_bind, run_ops, apply_op, e1]
      · intro i hi
        rw [b1 i hi, most_recent_up_append, b i hi]
        simp only [Op.host, Op.is_up]
        by_cases c : i = h % 2 ^ d
        · rw [if_pos c, if_pos ((key i hi).1 c)]
        · rw [if_neg c, if_neg (fun x => c ((key i hi).2 x))]
    | down h =>
      obtain ⟨hh, hs, _, key⟩ := step h rfl
      obtain ⟨H1, e1, S1, A1, b1⟩ := @mark_host_down_spec _ _ _ fuel _ S A hd hh hs hf
      refine ⟨H1, ?_, S1, A1, ?_⟩
      · simp only [run_ops_append, e, Option.some_bind, run_ops, apply_op, e1]
      · intro i hi
        rw [b1 i hi, most_recent_up_append, b i hi]
        simp only [Op.host, Op.is_up]
        by_cases c : i = h % 2 ^ d
        · rw [if_pos c, if_pos ((key i hi).1 c)]
        · rw [if_neg c, if_neg (fun x => c ((key i hi).2 x))]

/-! ## Every pointer of a built tree -/

theorem tnode_coords (d : Nat) :
    ∀ m, m < d → ∀ t, t < 2 ^ d - 2 * 2 ^ (d - (m + 1)) →
      ∃ j i, 1 ≤ j ∧ j ≤ m ∧ i < 2 ^ (d - j) ∧ Ptr.tnode t = loc d j i := by
  intro m
  induction m with
  | zero =>
    intro hm t ht
    have := pow_level_succ d 0 hm
    simp only [Nat.sub_zero] at this
    omega
  | succ m ih =>
    intro hm t ht
    rcases Nat.lt_or_ge t (2 ^ d - 2 * 2 ^ (d - (m + 1))) with c | c
    · obtain ⟨j, i, h1, h2, h3, h4⟩ := ih (by omega) t c
      exact ⟨j, i, h1, by omega, h3, h4⟩
    · have e := pow_level_succ d (m + 1) hm
      have htop := pow_level_two_le d (m + 1) (by omega) (by omega)
      refine ⟨m + 1, t - (2 ^ d - 2 * 2 ^ (d - (m + 1))), by omega, Nat.le_refl _, by omega, ?_⟩
      rw [loc_mid d (m + 1) _ (by omega) hm]
      congr 1
      omega

theorem ptr_classify (d : Nat) (q : Ptr) :
    (∃ j i, j ≤ d ∧ i < 2 ^ (d - j) ∧ q = loc d j i) ∨
    (0 < d ∧ ∃ t, q = Ptr.tnode t ∧ 2 ^ d - 2 ≤ t ∧ t < 2 ^ d) ∨
    (d = 0 ∧ q = Ptr.rootp) ∨
    (q = Ptr.null ∨ (∃ i, q = Ptr.host i ∧ 2 ^ d ≤ i) ∨
      (∃ t, q = Ptr.tnode t ∧ (if d = 0 then 0 else 2 ^ d) ≤ t)) := by
  cases q with
  | null => exact Or.inr (Or.inr (Or.inr (Or.inl rfl)))
  | rootp =>
    rcases Nat.eq_zero_or_pos d with d0 | dpos
    · exact Or.inr (Or.inr (Or.inl ⟨d0, rfl⟩))
    · exact Or.inl ⟨d, 0, Nat.le_refl _, by simp, (loc_top d 0 dpos).symm⟩
  | host i =>
    rcases Nat.lt_or_ge i (2 ^ d) with c | c
    · exact Or.inl ⟨0, i, Nat.zero_le _, c, (loc_zero d i).symm⟩
    · exact Or.inr (Or.inr (Or.inr (Or.inr (Or.inl ⟨i, rfl, c⟩))))
  | tnode t =>
    rcases Nat.eq_zero_or_pos d with d0 | dpos
    · exact Or.inr (Or.inr (Or.inr (Or.inr (Or.inr ⟨t, rfl, by simp [d0]⟩))))
    · rcases Nat.lt_or_ge t (2 ^ d - 2) with c | c
      · have e : 2 ^ (d - (d - 1 + 1)) = 1 := by
          have : d - (d - 1 + 1) = 0 := by omega
          rw [this]
          rfl
        obtain ⟨j, i, _, h2, h3, h4⟩ := tnode_coords d (d - 1) (by omega) t (by rw [e]; omega)
        exact Or.inl ⟨j, i, by omega, h3, h4⟩
      · rcases Nat.lt_or_ge t (2 ^ d) with c1 | c1
        · exact Or.inr (Or.inl ⟨dpos, t, rfl, c, c1⟩)
        · have : d ≠ 0 := by omega
          exact Or.inr (Or.inr (Or.inr (Or.inr (Or.inr ⟨t, rfl, by simp [this, c1]⟩))))

theorem Shaped.read_out {P d : Nat} {H : Heap} (S : Shaped P d H) {q : Ptr}
    (h : q = Ptr.null ∨ (∃ i, q = Ptr.host i ∧ 2 ^ d ≤ i) ∨
      (∃ t, q = Ptr.tnode t ∧ (if d = 0 then 0 else 2 ^ d) ≤ t)) : H.read q = none := by
  rcases h with h | ⟨i, h, hi⟩ | ⟨t, h, ht⟩
  · subst h; rfl
  · subst h
    simp only [Heap.read]
    exact List.getElem?_eq_none (by rw [S.hosts_len]; exact hi)
  · subst h
    simp only [Heap.read]
    exact List.getElem?_eq_none (by rw [S.tree_len]; exact ht)

/-- Two built trees over the same block with the same active flags are the same heap. -/
theorem Shaped.ext {P d : Nat} {H H1 : Heap} (S : Shaped P d H) (S1 : Shaped P d H1)
    (hb : ∀ j i, j ≤ d → i < 2 ^ (d - j) → bit H d j i = bit H1 d j i) : H = H1 := by
  apply Heap.ext_read
  intro q
  rcases ptr_classify d q with ⟨j, i, hj, hi, rfl⟩ | ⟨dpos, t, rfl, h1, h2⟩ | ⟨d0, rfl⟩ | h
  · rw [S.read_bit hj hi, S1.read_bit hj hi, hb j i hj hi]
  · rw [S.spare t h1 h2 dpos, S1.spare t h1 h2 dpos]
  · simp only [Heap.read]
    rw [S.root0 d0, S1.root0 d0]
  · rw [S.read_out h, S1.read_out h]

/-- Under the AND-invariant the leaves determine every flag. -/
theorem bits_determined {d : Nat} {H H1 : Heap} (A : AndInv d H) (A1 : AndInv d H1)
    (hb : ∀ i, i < 2 ^ d → bit H d 0 i = bit H1 d 0 i) :
    ∀ j i, j ≤ d → i < 2 ^ (d - j) → bit H d j i = bit H1 d j i := by
  intro j
  induction j with
  | zero =>
    intro i _ hi
    exact hb i hi
  | succ j ih =>
    intro i hj hi
    have hc := child_lt d j i hi (by omega)
    rw [A (j + 1) i (by omega) hj hi, A1 (j + 1) i (by omega) hj hi]
    simp only [Nat.add_sub_cancel]
    rw [ih (2 * i) (by omega) hc.1, ih (2 * i + 1) (by omega) hc.2]

theorem Shaped.eq_of_leaves {P d : Nat} {H H1 : Heap} (S : Shaped P d H) (S1 : Shaped P d H1)
    (A : AndInv d H) (A1 : AndInv d H1)
    (hb : ∀ i, i < 2 ^ d → bit H d 0 i = bit H1 d 0 i) : H = H1 :=
  S.ext S1 (bits_determined A A1 hb)

theorem Shaped.and_invariant {P d : Nat} {H : Heap} (S : Shaped P d H) (A : AndInv d H) :
    AndInvariant H := by
  intro q n hq hn
  rcases ptr_classify d q with ⟨j, i, hj, hi, rfl⟩ | ⟨dpos, t, rfl, h1, h2⟩ | ⟨d0, rfl⟩ | h
  · rw [S.read_bit hj hi] at hq
    have hq := (Option.some.inj hq).symm
    subst hq
    rcases Nat.eq_zero_or_pos j with j0 | jpos
    · subst j0
      simp [nodeAt] at hn
    · obtain ⟨k, rfl⟩ : ∃ k, j = k + 1 := ⟨j - 1, by omega⟩
      have hc := child_lt d k i hi (by omega)
      refine ⟨nodeAt P d k (2 * i) (bit H d k (2 * i)),
        nodeAt P d k (2 * i + 1) (bit H d k (2 * i + 1)), ?_, ?_, ?_⟩
      · rw [nodeAt_l]
        exact S.read_bit (by omega) hc.1
      · rw [nodeAt_r]
        exact S.read_bit (by omega) hc.2
      · have := A (k + 1) i (by omega) hj hi
        simpa [nodeAt_active] using this
  · rw [S.spare t h1 h2 dpos] at hq
    have hq := (Option.some.inj hq).symm
    subst hq
    simp [mst_node.zero] at hn
  · simp only [Heap.read, Option.some.injEq] at hq
    rw [S.root0 d0] at hq
    subst hq
    simp [nodeAt] at hn
  · rw [S.read_out h] at hq
    cases hq

/-! ## Reachable states -/

/-- The tree that `main` builds, and every state reached from it by in-subnet updates. -/
theorem reach_spec (addr w fuel : Nat) (ops : List Op) (ha : addr < 2 ^ 32) (hw1 : 16 ≤ w)
    (hw2 : w ≤ 32) (hf : 32 - w + 2 ≤ fuel)
    (hops : ∀ op ∈ ops, in_subnet addr w op.host = true) :
    ∃ H0 H, main_init fuel addr w = some H0 ∧ run_ops fuel H0 ops = some H ∧
      Shaped (addr &&& maskOf (32 - w)) (32 - w) H0 ∧ AllDown (32 - w) H0 ∧
      Shaped (addr &&& maskOf (32 - w)) (32 - w) H ∧ AndInv (32 - w) H ∧
      ∀ i, i < 2 ^ (32 - w) →
        bit H (32 - w) 0 i = most_recent_up ops ((addr &&& maskOf (32 - w)) + i) := by
  obtain ⟨H0, e0, S0, r0⟩ := main_init_spec addr w fuel ha hw1 hw2 (by omega)
  have A0 : AllDown (32 - w) H0 := by
    intro j i hj hi
    simp only [bit, r0 j i hj hi, nodeAt]
  have hops2 : ∀ op ∈ ops, op.host < 2 ^ 32 ∧
      op.host &&& maskOf (32 - w) = addr &&& maskOf (32 - w) := by
    intro op hop
    exact (in_subnet_iff addr w op.host hw1 hw2).1 (hops op hop)
  obtain ⟨H, e, S, A, b⟩ := run_ops_spec S0 A0 (by omega) hf ops hops2
  exact ⟨H0, H, e0, e, S0, A0, S, A, b⟩

/-- C1 (AND-invariant): for every root width in [16,32] and every finite sequence of
`mark_host_up` / `mark_host_down` calls on in-subnet hosts applied to the tree produced by
`build_mst`, every node with children (the root included) has
`active == (l->active && r->active)`; this holds right after construction (`k = 0`) and
after each call of the sequence (the first `k` calls, for every `k`). -/
theorem C1_and_invariant (addr w fuel : Nat) (ops : List Op) (ha : addr < 2 ^ 32)
    (hw1 : 16 ≤ w) (hw2 : w ≤ 32) (hf : 32 - w + 2 ≤ fuel)
    (hops : ∀ op ∈ ops, in_subnet addr w op.host = true) :
    ∃ H0, main_init fuel addr w = some H0 ∧
      ∀ k, ∃ H, run_ops fuel H0 (ops.take k) = some H ∧ AndInvariant H := by
  obtain ⟨H0, _, e0, _, _, _, _, _, _⟩ :=
    reach_spec addr w fuel [] ha hw1 hw2 hf (by simp)
  refine ⟨H0, e0, ?_⟩
  intro k
  obtain ⟨H0', H, e0', e, _, _, S, A, _⟩ := reach_spec addr w fuel (ops.take k) ha hw1 hw2 hf
    (fun op hop => hops op (List.mem_of_mem_take hop))
  rw [e0] at e0'
  cases e0'
  exact ⟨H, e, S.and_invariant A⟩

theorem C1_and_invariant_witness :
    (∀ op ∈ [Op.up 2163867909, Op.up 2163867908, Op.down 2163867909],
        in_subnet 2163867909 30 op.host = true) ∧
      ∃ H0, main_init 4 2163867909 30 = some H0 ∧
        ∀ k, ∃ H, run_ops 4 H0
          ([Op.up 2163867909, Op.up 2163867908, Op.down 2163867909].take k) = some H ∧
          AndInvariant H :=
  ⟨by decide,
    C1_and_invariant 2163867909 30 4 [Op.up 2163867909, Op.up 2163867908, Op.down 2163867909]
      (by decide) (by decide) (by decide) (by decide) (by decide)⟩

/-! ## `print_mst` on a built tree -/

theorem print_mst_null (fuel : Nat) (H : Heap) : print_mst (fuel + 1) H Ptr.null = some [] := by
  simp [print_mst]

theorem print_mst_active {H : Heap} {q : Ptr} {n : mst_node} (fuel : Nat) (hq : q ≠ Ptr.null)
    (h : H.read q = some n) (ha : n.active = true) :
    print_mst (fuel + 1) H q = some [print_line n] := by
  simp only [print_mst, if_neg hq, h, Option.some_bind, ha, if_true]

theorem print_mst_inactive {H : Heap} {q : Ptr} {n : mst_node} (fuel : Nat) (hq : q ≠ Ptr.null)
    (h : H.read q = some n) (ha : n.active = false) :
    print_mst (fuel + 1) H q =
      (print_mst fuel H n.l).bind fun out_l =>
        (print_mst fuel H n.r).bind fun out_r => some (out_l ++ out_r) := by
  simp only [print_mst, if_neg hq, h, Option.some_bind, ha]
  rfl

theorem nodeAt_block (P d j i : Nat) (b : Bool) (hj : j ≤ d) (hi : i < 2 ^ (d - j))
    (hPb : P + 2 ^ d ≤ 2 ^ 32) : (print_line (nodeAt P d j i b)).block = blk P j i := by
  have hb := block_bound d j i hj hi
  have hp : 0 < 2 ^ j := Nat.pow_pos (by norm_num)
  rw [print_line_block]
  · rfl
  · simp only [nodeAt]
    omega

theorem print_emit {P d : Nat} {H : Heap} (S : Shaped P d H) (hPb : P + 2 ^ d ≤ 2 ^ 32) :
    ∀ j i fuel, j ≤ d → i < 2 ^ (d - j) → j + 2 ≤ fuel →
      ∃ ls, print_mst fuel H (loc d j i) = some ls ∧
        ls.map Line.block = emit P (bit H d) j i := by
  intro j
  induction j with
  | zero =>
    intro i fuel hj hi hf
    obtain ⟨f, rfl⟩ : ∃ f, fuel = f + 2 := ⟨fuel - 2, by omega⟩
    cases hb : bit H d 0 i
    · refine ⟨[], ?_, ?_⟩
      · rw [print_mst_inactive _ (loc_ne_null _ _ _) (S.read_bit hj hi)
          (by rw [nodeAt_active, hb])]
        have e1 : (nodeAt P d 0 i false).l = Ptr.null := by simp [nodeAt]
        have e2 : (nodeAt P d 0 i false).r = Ptr.null := by simp [nodeAt]
        rw [hb, e1, e2, print_mst_null]
        rfl
      · simp [emit, hb]
    · refine ⟨[print_line (nodeAt P d 0 i true)], ?_, ?_⟩
      · rw [print_mst_active _ (loc_ne_null _ _ _) (S.read_bit hj hi)
          (by rw [nodeAt_active, hb]), hb]
      · simp [emit, hb, nodeAt_block P d 0 i true hj hi hPb]
  | succ j ih =>
    intro i fuel hj hi hf
    obtain ⟨f, rfl⟩ : ∃ f, fuel = f + 1 := ⟨fuel - 1, by omega⟩
    have hc := child_lt d j i hi (by omega)
    cases hb : bit H d (j + 1) i
    · obtain ⟨l1, e1, m1⟩ := ih (2 * i) f (by omega) hc.1 (by omega)
      obtain ⟨l2, e2, m2⟩ := ih (2 * i + 1) f (by omega) hc.2 (by omega)
      refine ⟨l1 ++ l2, ?_, ?_⟩
      · rw [print_mst_inactive _ (loc_ne_null _ _ _) (S.read_bit hj hi)
          (by rw [nodeAt_active, hb]), nodeAt_l, nodeAt_r, e1, e2]
        rfl
      · simp [emit, hb, m1, m2]
    · refine ⟨[print_line (nodeAt P d (j + 1) i true)], ?_, ?_⟩
      · rw [print_mst_active _ (loc_ne_null _ _ _) (S.read_bit hj hi)
          (by rw [nodeAt_active, hb]), hb]
      · simp [emit, hb, nodeAt_block P d (j + 1) i true hj hi hPb]

/-- What `print_mst(root)` prints on a built tree of depth at least one. -/
theorem print_root {P d fuel : Nat} {H : Heap} (S : Shaped P d H) (hPb : P + 2 ^ d ≤ 2 ^ 32)
    (hd : 0 < d) (hf : d + 2 ≤ fuel) :
    ∃ ls, print_mst fuel H Ptr.rootp = some ls ∧ ls.map Line.block = emit P (bit H d) d 0 := by
  have := print_emit S hPb d 0 fuel (Nat.le_refl _) (by simp) hf
  rwa [loc_top d 0 hd] at this

/-- With a root of width 32 the root node is never marked, so nothing is printed. -/
theorem print_root_single {P fuel : Nat} {H : Heap} (S : Shaped P 0 H) (hf : 2 ≤ fuel) :
    print_mst fuel H Ptr.rootp = some [] := by
  obtain ⟨f, rfl⟩ : ∃ f, fuel = f + 2 := ⟨fuel - 2, by omega⟩
  have hr : H.read Ptr.rootp = some (nodeAt P 0 0 0 false) := by
    simp only [Heap.read]
    rw [S.root0 rfl]
  rw [print_mst_inactive _ (by simp) hr rfl]
  have e1 : (nodeAt P 0 0 0 false).l = Ptr.null := by simp [nodeAt]
  have e2 : (nodeAt P 0 0 0 false).r = Ptr.null := by simp [nodeAt]
  rw [e1, e2, print_mst_null]
  rfl

/-! ## The printed blocks -/

theorem child_blocks (i j : Nat) :
    i * 2 ^ (j + 1) = 2 * (i * 2 ^ j) ∧ 2 * i * 2 ^ j = 2 * (i * 2 ^ j) ∧
      (2 * i + 1) * 2 ^ j = 2 * (i * 2 ^ j) + 2 ^ j ∧ 2 ^ (j + 1) = 2 * 2 ^ j := by
  refine ⟨?_, ?_, ?_, ?_⟩ <;> ring

theorem all_up {d : Nat} {H : Heap} (A : AndInv d H) :
    ∀ j i, j ≤ d → i < 2 ^ (d - j) → bit H d j i = true →
      ∀ x, i * 2 ^ j ≤ x → x < i * 2 ^ j + 2 ^ j → bit H d 0 x = true := by
  intro j
  induction j with
  | zero =>
    intro i _ _ hb x h1 h2
    have : x = i := by omega
    rw [this]
    exact hb
  | succ j ih =>
    intro i hj hi hb x h1 h2
    have hc := child_lt d j i hi (by omega)
    obtain ⟨c1, c2, c3, c4⟩ := child_blocks i j
    rw [A (j + 1) i (by omega) hj hi] at hb
    simp only [Nat.add_sub_cancel, Bool.and_eq_true] at hb
    rcases Nat.lt_or_ge x (2 * i * 2 ^ j + 2 ^ j) with c | c
    · exact ih (2 * i) (by omega) hc.1 hb.1 x (by omega) c
    · exact ih (2 * i + 1) (by omega) hc.2 hb.2 x (by omega) (by omega)

theorem some_down {d : Nat} {H : Heap} (A : AndInv d H) :
    ∀ j i, j ≤ d → i < 2 ^ (d - j) → bit H d j i = false →
      ∃ x, i * 2 ^ j ≤ x ∧ x < i * 2 ^ j + 2 ^ j ∧ bit H d 0 x = false := by
  intro j
  induction j with
  | zero =>
    intro i _ _ hb
    exact ⟨i, by omega, by omega, hb⟩
  | succ j ih =>
    intro i hj hi hb
    have hc := child_lt d j i hi (by omega)
    obtain ⟨c1, c2, c3, c4⟩ := child_blocks i j
    rw [A (j + 1) i (by omega) hj hi] at hb
    simp only [Nat.add_sub_cancel, Bool.and_eq_false_iff] at hb
    rcases hb with hb | hb
    · obtain ⟨x, x1, x2, x3⟩ := ih (2 * i) (by omega) hc.1 hb
      exact ⟨x, by omega, by omega, x3⟩
    · obtain ⟨x, x1, x2, x3⟩ := ih (2 * i + 1) (by omega) hc.2 hb
      exact ⟨x, by omega, by omega, x3⟩

theorem in_block_blk (P j i a : Nat) (hj : j ≤ 32) :
    in_block (blk P j i) a ↔ P + i * 2 ^ j ≤ a ∧ a < P + i * 2 ^ j + 2 ^ j := by
  have : 32 - (32 - j) = j := by omega
  simp only [in_block, blk, this]

theorem emit_active (P : Nat) (bits : Nat → Nat → Bool) (j i : Nat) (h : bits j i = true) :
    emit P bits j i = [blk P j i] := by
  cases j <;> simp [emit, h]

theorem emit_leaf_down (P : Nat) (bits : Nat → Nat → Bool) (i : Nat) (h : bits 0 i = false) :
    emit P bits 0 i = [] := by
  simp [emit, h]

theorem emit_inactive (P : Nat) (bits : Nat → Nat → Bool) (j i : Nat)
    (h : bits (j + 1) i = false) :
    emit P bits (j + 1) i = emit P bits j (2 * i) ++ emit P bits j (2 * i + 1) := by
  simp [emit, h]

theorem emit_cover {P d : Nat} {H : Heap} (A : AndInv d H) (hd : d ≤ 32) :
    ∀ j i, j ≤ d → i < 2 ^ (d - j) → ∀ a,
      (∃ b ∈ emit P (bit H d) j i, in_block b a) ↔
        (P + i * 2 ^ j ≤ a ∧ a < P + i * 2 ^ j + 2 ^ j ∧ bit H d 0 (a - P) = true) := by
  have active : ∀ j i, j ≤ d → i < 2 ^ (d - j) → bit H d j i = true → ∀ a,
      (∃ b ∈ emit P (bit H d) j i, in_block b a) ↔
        (P + i * 2 ^ j ≤ a ∧ a < P + i * 2 ^ j + 2 ^ j ∧ bit H d 0 (a - P) = true) := by
    intro j i hj hi hb a
    rw [emit_active P _ j i hb]
    constructor
    · rintro ⟨b, hm, hin⟩
      rw [List.mem_singleton] at hm
      subst hm
      rw [in_block_blk P j i a (by omega)] at hin
      exact ⟨hin.1, hin.2, all_up A j i hj hi hb (a - P) (by omega) (by omega)⟩
    · rintro ⟨h1, h2, _⟩
      exact ⟨blk P j i, List.mem_singleton_self _, (in_block_blk P j i a (by omega)).2 ⟨h1, h2⟩⟩
  intro j
  induction j with
  | zero =>
    intro i hj hi a
    cases hb : bit H d 0 i
    · rw [emit_leaf_down P _ i hb]
      constructor
      · rintro ⟨b, hm, _⟩
        cases hm
      · rintro ⟨h1, h2, h3⟩
        have : a - P = i := by omega
        rw [this, hb] at h3
        cases h3
    · exact active 0 i hj hi hb a
  | succ j ih =>
    intro i hj hi a
    have hc := child_lt d j i hi (by omega)
    obtain ⟨c1, c2, c3, c4⟩ := child_blocks i j
    cases hb : bit H d (j + 1) i
    · rw [emit_inactive P _ j i hb]
      have ihl := ih (2 * i) (by omega) hc.1 a
      have ihr := ih (2 * i + 1) (by omega) hc.2 a
      constructor
      · rintro ⟨b, hm, hin⟩
        rcases List.mem_append.1 hm with hm | hm
        · obtain ⟨h1, h2, h3⟩ := ihl.1 ⟨b, hm, hin⟩
          exact ⟨by omega, by omega, h3⟩
        · obtain ⟨h1, h2, h3⟩ := ihr.1 ⟨b, hm, hin⟩
          exact ⟨by omega, by omega, h3⟩
      · rintro ⟨h1, h2, h3⟩
        rcases Nat.lt_or_ge a (P + 2 * i * 2 ^ j + 2 ^ j) with c | c
        · obtain ⟨b, hm, hin⟩ := ihl.2 ⟨by omega, by omega, h3⟩
          exact ⟨b, List.mem_append_left _ hm, hin⟩
        · obtain ⟨b, hm, hin⟩ := ihr.2 ⟨by omega, by omega, h3⟩
          exact ⟨b, List.mem_append_right _ hm, hin⟩
    · exact active (j + 1) i hj hi hb a

theorem emit_mem {P : Nat} {bits : Nat → Nat → Bool} :
    ∀ j i b, b ∈ emit P bits j i →
      ∃ j1 i1, j1 ≤ j ∧ b = blk P j1 i1 ∧ bits j1 i1 = true ∧
        i * 2 ^ j ≤ i1 * 2 ^ j1 ∧ i1 * 2 ^ j1 + 2 ^ j1 ≤ i * 2 ^ j + 2 ^ j := by
  intro j
  induction j with
  | zero =>
    intro i b hb
    cases h : bits 0 i
    · rw [emit_leaf_down P bits i h] at hb
      cases hb
    · rw [emit_active P bits 0 i h, List.mem_singleton] at hb
      exact ⟨0, i, Nat.le_refl _, hb, h, Nat.le_refl _, Nat.le_refl _⟩
  | succ j ih =>
    intro i b hb
    obtain ⟨c1, c2, c3, c4⟩ := child_blocks i j
    cases h : bits (j + 1) i
    · rw [emit_inactive P bits j i h, List.mem_append] at hb
      rcases hb with hb | hb
      · obtain ⟨j1, i1, h1, h2, h3, h4, h5⟩ := ih (2 * i) b hb
        exact ⟨j1, i1, by omega, h2, h3, by omega, by omega⟩
      · obtain ⟨j1, i1, h1, h2, h3, h4, h5⟩ := ih (2 * i + 1) b hb
        exact ⟨j1, i1, by omega, h2, h3, by omega, by omega⟩
    · rw [emit_active P bits (j + 1) i h, List.mem_singleton] at hb
      exact ⟨j + 1, i, Nat.le_refl _, hb, h, Nat.le_refl _, Nat.le_refl _⟩

theorem emit_bounds {P : Nat} {bits : Nat → Nat → Bool} (j i : Nat) (b : Nat × Nat)
    (hj : j ≤ 32) (hb : b ∈ emit P bits j i) :
    P + i * 2 ^ j ≤ b.1 ∧ b.1 + 2 ^ (32 - b.2) ≤ P + i * 2 ^ j + 2 ^ j ∧
      32 - j ≤ b.2 ∧ b.2 ≤ 32 := by
  obtain ⟨j1, i1, h1, h2, _, h4, h5⟩ := emit_mem j i b hb
  subst h2
  have : 32 - (32 - j1) = j1 := by omega
  simp only [blk, this]
  omega

theorem emit_cidr {P d : Nat} {bits : Nat → Nat → Bool} (j i : Nat) (b : Nat × Nat)
    (hP : 2 ^ d ∣ P) (hj : j ≤ d) (hd : d ≤ 32) (hb : b ∈ emit P bits j i) : is_cidr b := by
  obtain ⟨j1, i1, h1, h2, _, _, _⟩ := emit_mem j i b hb
  subst h2
  have e : 32 - (32 - j1) = j1 := by omega
  have hdv : 2 ^ j1 ∣ P := Dvd.dvd.trans (Nat.pow_dvd_pow 2 (by omega)) hP
  refine ⟨by simp only [blk]; omega, ?_⟩
  simp only [blk, e]
  exact Nat.mod_eq_zero_of_dvd (Dvd.dvd.add hdv (Dvd.intro_left _ rfl))

theorem emit_pairwise {P : Nat} {bits : Nat → Nat → Bool} :
    ∀ j i, j ≤ 32 →
      List.Pairwise (fun a b : Nat × Nat => a.1 + 2 ^ (32 - a.2) ≤ b.1) (emit P bits j i) := by
  intro j
  induction j with
  | zero =>
    intro i _
    cases h : bits 0 i
    · rw [emit_leaf_down P bits i h]
      exact List.Pairwise.nil
    · rw [emit_active P bits 0 i h]
      exact List.pairwise_singleton _ _
  | succ j ih =>
    intro i hj
    obtain ⟨c1, c2, c3, c4⟩ := child_blocks i j
    cases h : bits (j + 1) i
    · rw [emit_inactive P bits j i h, List.pairwise_append]
      refine ⟨ih (2 * i) (by omega), ih (2 * i + 1) (by omega), ?_⟩
      intro a ha b hb
      have b1 := emit_bounds j (2 * i) a (by omega) ha
      have b2 := emit_bounds j (2 * i + 1) b (by omega) hb
      omega
    · rw [emit_active P bits (j + 1) i h]
      exact List.pairwise_singleton _ _

/-! ## Coverage and order of the printed list -/

theorem subnet_range (P d a : Nat) (hd : d ≤ 32) (hP : 2 ^ d ∣ P) (hPb : P + 2 ^ d ≤ 2 ^ 32) :
    (a < 2 ^ 32 ∧ a &&& maskOf d = P) ↔ (P ≤ a ∧ a < P + 2 ^ d) := by
  constructor
  · rintro ⟨h1, h2⟩
    obtain ⟨e, l⟩ := host_split P d a h1 hd h2
    omega
  · rintro ⟨h1, h2⟩
    have ha : a < 2 ^ 32 := by omega
    refine ⟨ha, ?_⟩
    rw [land_maskOf a d ha hd]
    obtain ⟨t, ht⟩ := hP
    have hp : 0 < 2 ^ d := Nat.pow_pos (by norm_num)
    have e : a = (a - P) + 2 ^ d * t := by omega
    have hq : a / 2 ^ d = t := by
      rw [e, Nat.add_mul_div_left _ _ hp, Nat.div_eq_of_lt (by omega)]
      omega
    rw [hq, ht, Nat.mul_comm]

theorem mem_blocks (out : List Line) (a : Nat) :
    (∃ b ∈ blocks out, in_block b a) ↔ (∃ ln ∈ out, in_block ln.block a) := by
  simp [blocks]

/-- C2 (coverage): for every root width in [16,31] and every finite sequence of up/down
commands on in-subnet hosts applied to the freshly built tree, an address lies in one of the
blocks printed by `print_mst(root)` exactly when it is a host of the subnet whose most
recent command was `up`. -/
theorem C2_coverage (addr w fuel : Nat) (ops : List Op) (ha : addr < 2 ^ 32)
    (hw1 : 16 ≤ w) (hw2 : w ≤ 31) (hf : 32 - w + 2 ≤ fuel)
    (hops : ∀ op ∈ ops, in_subnet addr w op.host = true) :
    ∃ H0 H out, main_init fuel addr w = some H0 ∧ run_ops fuel H0 ops = some H ∧
      print_mst fuel H Ptr.rootp = some out ∧
      ∀ a, (∃ ln ∈ out, in_block ln.block a) ↔
        (in_subnet addr w a = true ∧ most_recent_up ops a = true) := by
  obtain ⟨H0, H, e0, e, _, _, S, A, b⟩ := reach_spec addr w fuel ops ha hw1 (by omega) hf hops
  obtain ⟨hP, hPb⟩ := aligned_block addr (32 - w) ha (by omega)
  obtain ⟨out, eo, em⟩ := print_root S hPb (by omega) hf
  refine ⟨H0, H, out, e0, e, eo, ?_⟩
  intro a
  rw [← mem_blocks, blocks, em, emit_cover A (by omega) (32 - w) 0 (Nat.le_refl _) (by simp) a,
    in_subnet_iff addr w a hw1 (by omega), subnet_range _ _ a (by omega) hP hPb]
  simp only [Nat.zero_mul, Nat.add_zero]
  constructor
  · rintro ⟨h1, h2, h3⟩
    refine ⟨⟨h1, h2⟩, ?_⟩
    rw [b (a - (addr &&& maskOf (32 - w))) (by omega)] at h3
    have : (addr &&& maskOf (32 - w)) + (a - (addr &&& maskOf (32 - w))) = a := by omega
    rwa [this] at h3
  · rintro ⟨⟨h1, h2⟩, h3⟩
    refine ⟨h1, h2, ?_⟩
    rw [b (a - (addr &&& maskOf (32 - w))) (by omega)]
    have : (addr &&& maskOf (32 - w)) + (a - (addr &&& maskOf (32 - w))) = a := by omega
    rwa [this]

theorem C2_coverage_witness :
    (∀ op ∈ [Op.up 2163867909, Op.up 2163867908, Op.down 2163867909],
        in_subnet 2163867909 30 op.host = true) ∧
      ∃ H0 H out, main_init 4 2163867909 30 = some H0 ∧
        run_ops 4 H0 [Op.up 2163867909, Op.up 2163867908, Op.down 2163867909] = some H ∧
        print_mst 4 H Ptr.rootp = some out ∧
        ∀ a, (∃ ln ∈ out, in_block ln.block a) ↔
          (in_subnet 2163867909 30 a = true ∧
            most_recent_up [Op.up 2163867909, Op.up 2163867908, Op.down 2163867909] a = true) :=
  ⟨by decide,
    C2_coverage 2163867909 30 4 [Op.up 2163867909, Op.up 2163867908, Op.down 2163867909]
      (by decide) (by decide) (by decide) (by decide) (by decide)⟩

/-- C5 (ordered partition): for every root width in [16,32] and every reachable state, the
blocks printed by `print_mst(root)` are in ascending address order without overlap: each
block ends at or before the start of the next one (consecutive pairs), indeed of every
later one; hence the blocks are pairwise disjoint; and every prefix is aligned to its
width. -/
theorem C5_ordered_partition (addr w fuel : Nat) (ops : List Op) (ha : addr < 2 ^ 32)
    (hw1 : 16 ≤ w) (hw2 : w ≤ 32) (hf : 32 - w + 2 ≤ fuel)
    (hops : ∀ op ∈ ops, in_subnet addr w op.host = true) :
    ∃ H0 H out, main_init fuel addr w = some H0 ∧ run_ops fuel H0 ops = some H ∧
      print_mst fuel H Ptr.rootp = some out ∧
      List.Chain' ends_before (blocks out) ∧
      List.Pairwise ends_before (blocks out) ∧
      List.Pairwise (fun b1 b2 => ∀ a, ¬ (in_block b1 a ∧ in_block b2 a)) (blocks out) ∧
      ∀ b ∈ blocks out, is_cidr b := by
  obtain ⟨H0, H, e0, e, _, _, S, A, b⟩ := reach_spec addr w fuel ops ha hw1 hw2 hf hops
  obtain ⟨hP, hPb⟩ := aligned_block addr (32 - w) ha (by omega)
  have key : ∃ out, print_mst fuel H Ptr.rootp = some out ∧
      List.Pairwise ends_before (blocks out) ∧ ∀ b ∈ blocks out, is_cidr b := by
    rcases Nat.eq_zero_or_pos (32 - w) with d0 | dpos
    · rw [d0] at S
      refine ⟨[], print_root_single S (by omega), List.Pairwise.nil, ?_⟩
      intro b hb
      cases hb
    · obtain ⟨out, eo, em⟩ := print_root S hPb dpos hf
      refine ⟨out, eo, ?_, ?_⟩
      · rw [blocks, em]
        exact emit_pairwise (32 - w) 0 (by omega)
      · intro b hb
        rw [blocks, em] at hb
        exact emit_cidr (32 - w) 0 b hP (Nat.le_refl _) (by omega) hb
  obtain ⟨out, eo, pw, al⟩ := key
  refine ⟨H0, H, out, e0, e, eo, pw.chain', pw, ?_, al⟩
  refine pw.imp ?_
  intro b1 b2 h a hin
  have h1 := hin.1.2
  have h2 := hin.2.1
  unfold ends_before at h
  omega

theorem C5_ordered_partition_witness :
    (∀ op ∈ [Op.up 2163867909, Op.up 2163867911, Op.up 2163867910],
        in_subnet 2163867909 30 op.host = true) ∧
      ∃ H0 H out, main_init 4 2163867909 30 = some H0 ∧
        run_ops 4 H0 [Op.up 2163867909, Op.up 2163867911, Op.up 2163867910] = some H ∧
        print_mst 4 H Ptr.rootp = some out ∧
        List.Chain' ends_before (blocks out) ∧
        List.Pairwise ends_before (blocks out) ∧
        List.Pairwise (fun b1 b2 => ∀ a, ¬ (in_block b1 a ∧ in_block b2 a)) (blocks out) ∧
        ∀ b ∈ blocks out, is_cidr b :=
  ⟨by decide,
    C5_ordered_partition 2163867909 30 4 [Op.up 2163867909, Op.up 2163867911, Op.up 2163867910]
      (by decide) (by decide) (by decide) (by decide) (by decide)⟩

/-! ## Minimality of the printed list -/

theorem multiple_step (M x y : Nat) (hx : M ∣ x) (hy : M ∣ y) (h : x < y) : x + M ≤ y := by
  obtain ⟨u, rfl⟩ := hx
  obtain ⟨v, rfl⟩ := hy
  have huv : u < v := by
    by_contra c
    have : M * v ≤ M * u := Nat.mul_le_mul_left M (by omega)
    omega
  calc M * u + M = M * (u + 1) := by ring
    _ ≤ M * v := Nat.mul_le_mul_left M huv

/-- A CIDR block that reaches across the middle of an aligned block of size `2^(j+1)`
contains that block. -/
theorem cidr_cross (b : Nat × Nat) (s j : Nat) (hb : is_cidr b) (hs : 2 ^ (j + 1) ∣ s)
    (h1 : b.1 < s + 2 ^ j) (h2 : s + 2 ^ j < b.1 + 2 ^ (32 - b.2)) :
    b.1 ≤ s ∧ s + 2 ^ (j + 1) ≤ b.1 + 2 ^ (32 - b.2) := by
  obtain ⟨_, hal⟩ := hb
  have hbd : 2 ^ (32 - b.2) ∣ b.1 := Nat.dvd_of_mod_eq_zero hal
  have e2 : 2 ^ (j + 1) = 2 * 2 ^ j := by rw [Nat.pow_succ]; ring
  have hp : 0 < 2 ^ j := Nat.pow_pos (by norm_num)
  rcases Nat.lt_or_ge j (32 - b.2) with c | c
  · have hd1 : 2 ^ (j + 1) ∣ b.1 := Dvd.dvd.trans (Nat.pow_dvd_pow 2 (by omega)) hbd
    have hd2 : 2 ^ (j + 1) ∣ b.1 + 2 ^ (32 - b.2) :=
      Dvd.dvd.add hd1 (Nat.pow_dvd_pow 2 (by omega))
    constructor
    · by_contra hc
      have := multiple_step _ _ _ hs hd1 (by omega)
      omega
    · exact multiple_step _ _ _ hs hd2 (by omega)
  · exfalso
    have hd1 : 2 ^ (32 - b.2) ∣ 2 ^ j := Nat.pow_dvd_pow 2 c
    have hd2 : 2 ^ (32 - b.2) ∣ s :=
      Dvd.dvd.trans (Dvd.dvd.trans hd1 (Nat.pow_dvd_pow 2 (by omega))) hs
    have := multiple_step _ _ _ hbd (Dvd.dvd.add hd2 hd1) h1
    omega

theorem countP_add_le {α : Type} (p1 p2 p : α → Bool) (l : List α)
    (h1 : ∀ x ∈ l, p1 x = true → p x = true) (h2 : ∀ x ∈ l, p2 x = true → p x = true)
    (h3 : ∀ x ∈ l, ¬ (p1 x = true ∧ p2 x = true)) :
    l.countP p1 + l.countP p2 ≤ l.countP p := by
  induction l with
  | nil => simp
  | cons x xs ih =>
    have ih := ih (fun y hy => h1 y (List.mem_cons_of_mem _ hy))
      (fun y hy => h2 y (List.mem_cons_of_mem _ hy))
      (fun y hy => h3 y (List.mem_cons_of_mem _ hy))
    have a1 := h1 x (List.mem_cons_self _ _)
    have a2 := h2 x (List.mem_cons_self _ _)
    have a3 := h3 x (List.mem_cons_self _ _)
    simp only [List.countP_cons]
    cases e1 : p1 x <;> cases e2 : p2 x <;> cases e : p x <;> simp_all <;> omega

/-- The blocks of `F` that meet the address range of the node `(j, i)`. -/
theorem emit_count {P d : Nat} {H : Heap} (A : AndInv d H) (hP : 2 ^ d ∣ P)
    (F : List (Nat × Nat)) (hF : ∀ b ∈ F, is_cidr b)
    (hsub : ∀ b ∈ F, ∀ a, in_block b a → P ≤ a ∧ a < P + 2 ^ d ∧ bit H d 0 (a - P) = true)
    (hsup : ∀ a, P ≤ a → a < P + 2 ^ d → bit H d 0 (a - P) = true → ∃ b ∈ F, in_block b a) :
    ∀ j i, j ≤ d → i < 2 ^ (d - j) →
      (emit P (bit H d) j i).length ≤
        F.countP (fun b => decide (b.1 < P + i * 2 ^ j + 2 ^ j ∧
          P + i * 2 ^ j < b.1 + 2 ^ (32 - b.2))) := by
  have active : ∀ j i, j ≤ d → i < 2 ^ (d - j) → bit H d j i = true →
      (emit P (bit H d) j i).length ≤
        F.countP (fun b => decide (b.1 < P + i * 2 ^ j + 2 ^ j ∧
          P + i * 2 ^ j < b.1 + 2 ^ (32 - b.2))) := by
    intro j i hj hi hb
    rw [emit_active P _ j i hb]
    have hbb := block_bound d j i hj hi
    have hp : 0 < 2 ^ j := Nat.pow_pos (by norm_num)
    have hup := all_up A j i hj hi hb (i * 2 ^ j) (Nat.le_refl _) (by omega)
    have e : P + i * 2 ^ j - P = i * 2 ^ j := by omega
    obtain ⟨b, hm, hin⟩ := hsup (P + i * 2 ^ j) (by omega) (by omega) (by rw [e]; exact hup)
    have : 0 < F.countP (fun b => decide (b.1 < P + i * 2 ^ j + 2 ^ j ∧
        P + i * 2 ^ j < b.1 + 2 ^ (32 - b.2))) := by
      rw [List.countP_pos_iff]
      refine ⟨b, hm, ?_⟩
      have h1 := hin.1
      have h2 := hin.2
      simp only [decide_eq_true_eq]
      omega
    simpa using this
  intro j
  induction j with
  | zero =>
    intro i hj hi
    cases hb : bit H d 0 i
    · rw [emit_leaf_down P _ i hb]
      simp
    · exact active 0 i hj hi hb
  | succ j ih =>
    intro i hj hi
    have hc := child_lt d j i hi (by omega)
    obtain ⟨c1, c2, c3, c4⟩ := child_blocks i j
    cases hb : bit H d (j + 1) i
    · rw [emit_inactive P _ j i hb, List.length_append]
      have ihl := ih (2 * i) (by omega) hc.1
      have ihr := ih (2 * i + 1) (by omega) hc.2
      refine Nat.le_trans (Nat.add_le_add ihl ihr) ?_
      apply countP_add_le
      · intro b _ h
        simp only [decide_eq_true_eq] at h ⊢
        omega
      · intro b _ h
        simp only [decide_eq_true_eq] at h ⊢
        omega
      · intro b hm h
        simp only [decide_eq_true_eq] at h
        have hs : 2 ^ (j + 1) ∣ P + i * 2 ^ (j + 1) :=
          Dvd.dvd.add (Dvd.dvd.trans (Nat.pow_dvd_pow 2 hj) hP) (Dvd.intro_left _ rfl)
        have hx := cidr_cross b (P + i * 2 ^ (j + 1)) j (hF b hm) hs (by omega) (by omega)
        obtain ⟨x, x1, x2, x3⟩ := some_down A (j + 1) i hj hi hb
        have hin : in_block b (P + x) := ⟨by omega, by omega⟩
        have := (hsub b hm (P + x) hin).2.2
        have e : P + x - P = x := by omega
        rw [e, x3] at this
        cases this
    · exact active (j + 1) i hj hi hb

/-- No list of CIDR blocks whose union is the set of up leaves is shorter than the list
printed below the root. -/
theorem emit_minimal {P d : Nat} {H : Heap} (A : AndInv d H) (hP : 2 ^ d ∣ P)
    (F : List (Nat × Nat)) (hF : ∀ b ∈ F, is_cidr b)
    (hcov : ∀ a, (∃ b ∈ F, in_block b a) ↔
      (P ≤ a ∧ a < P + 2 ^ d ∧ bit H d 0 (a - P) = true)) :
    (emit P (bit H d) d 0).length ≤ F.length := by
  have h := emit_count A hP F hF (fun b hm a hin => (hcov a).1 ⟨b, hm, hin⟩)
    (fun a h1 h2 h3 => (hcov a).2 ⟨h1, h2, h3⟩) d 0 (Nat.le_refl _) (by simp)
  exact Nat.le_trans h (List.countP_le_length _)

theorem leaf_up_iff {addr w : Nat} {ops : List Op} {H : Heap} (ha : addr < 2 ^ 32)
    (hw1 : 16 ≤ w) (hw2 : w ≤ 32)
    (b : ∀ i, i < 2 ^ (32 - w) →
      bit H (32 - w) 0 i = most_recent_up ops ((addr &&& maskOf (32 - w)) + i)) (a : Nat) :
    ((addr &&& maskOf (32 - w)) ≤ a ∧ a < (addr &&& maskOf (32 - w)) + 2 ^ (32 - w) ∧
        bit H (32 - w) 0 (a - (addr &&& maskOf (32 - w))) = true) ↔
      (in_subnet addr w a = true ∧ most_recent_up ops a = true) := by
  obtain ⟨hP, hPb⟩ := aligned_block addr (32 - w) ha (by omega)
  rw [in_subnet_iff addr w a hw1 hw2, subnet_range _ _ a (by omega) hP hPb]
  constructor
  · rintro ⟨h1, h2, h3⟩
    refine ⟨⟨h1, h2⟩, ?_⟩
    rw [b (a - (addr &&& maskOf (32 - w))) (by omega)] at h3
    have : (addr &&& maskOf (32 - w)) + (a - (addr &&& maskOf (32 - w))) = a := by omega
    rwa [this] at h3
  · rintro ⟨⟨h1, h2⟩, h3⟩
    refine ⟨h1, h2, ?_⟩
    rw [b (a - (addr &&& maskOf (32 - w))) (by omega)]
    have : (addr &&& maskOf (32 - w)) + (a - (addr &&& maskOf (32 - w))) = a := by omega
    rwa [this]

theorem halves_union (q k a : Nat) (hk : 1 ≤ k) (hk2 : k ≤ 32) :
    in_block (q, k - 1) a ↔ (in_block (q, k) a ∨ in_block (q + 2 ^ (32 - k), k) a) := by
  have e : 32 - (k - 1) = (32 - k) + 1 := by omega
  simp only [in_block, e, Nat.pow_succ]
  omega

/-- C3 (minimality): for every root width in [16,31] and every state reachable from the
built tree by up/down commands, the list printed by `print_mst(root)` is itself a set of
CIDR blocks, without repetition, whose union is exactly the set of up hosts, and it has the
least possible number of entries among all finite sets of CIDR blocks with that union; in
particular no two printed blocks are the two halves `(q, k)` and `(q + 2^(32-k), k)` of one
CIDR block `(q, k - 1)`. -/
theorem C3_minimality (addr w fuel : Nat) (ops : List Op) (ha : addr < 2 ^ 32)
    (hw1 : 16 ≤ w) (hw2 : w ≤ 31) (hf : 32 - w + 2 ≤ fuel)
    (hops : ∀ op ∈ ops, in_subnet addr w op.host = true) :
    ∃ H0 H out, main_init fuel addr w = some H0 ∧ run_ops fuel H0 ops = some H ∧
      print_mst fuel H Ptr.rootp = some out ∧
      (∀ b ∈ blocks out, is_cidr b) ∧
      (∀ a, (∃ b ∈ blocks out, in_block b a) ↔
        (in_subnet addr w a = true ∧ most_recent_up ops a = true)) ∧
      (blocks out).Nodup ∧ (blocks out).toFinset.card = out.length ∧
      (∀ F : Finset (Nat × Nat), (∀ b ∈ F, is_cidr b) →
        (∀ a, (∃ b ∈ F, in_block b a) ↔
          (in_subnet addr w a = true ∧ most_recent_up ops a = true)) →
        out.length ≤ F.card) ∧
      (∀ q k, 1 ≤ k → k ≤ 32 → q % 2 ^ (32 - k + 1) = 0 →
        ¬ ((q, k) ∈ blocks out ∧ (q + 2 ^ (32 - k), k) ∈ blocks out)) := by
  obtain ⟨H0, H, e0, e, _, _, S, A, b⟩ := reach_spec addr w fuel ops ha hw1 (by omega) hf hops
  obtain ⟨hP, hPb⟩ := aligned_block addr (32 - w) ha (by omega)
  obtain ⟨out, eo, em⟩ := print_root S hPb (by omega) hf
  have hlen : out.length = (emit (addr &&& maskOf (32 - w)) (bit H (32 - w)) (32 - w) 0).length := by
    rw [← em, List.length_map]
  have hmin : ∀ F : List (Nat × Nat), (∀ b ∈ F, is_cidr b) →
      (∀ a, (∃ b ∈ F, in_block b a) ↔
        (in_subnet addr w a = true ∧ most_recent_up ops a = true)) →
      out.length ≤ F.length := by
    intro F hF hcov
    rw [hlen]
    apply emit_minimal A hP F hF
    intro a
    rw [hcov a, leaf_up_iff ha hw1 (by omega) b a]
  have hown : ∀ a, (∃ b ∈ blocks out, in_block b a) ↔
      (in_subnet addr w a = true ∧ most_recent_up ops a = true) := by
    intro a
    rw [blocks, em, emit_cover A (by omega) (32 - w) 0 (Nat.le_refl _) (by simp) a,
      ← leaf_up_iff ha hw1 (by omega) b a]
    simp only [Nat.zero_mul, Nat.add_zero]
  have hcidr : ∀ b ∈ blocks out, is_cidr b := by
    intro b hb
    rw [blocks, em] at hb
    exact emit_cidr (32 - w) 0 b hP (Nat.le_refl _) (by omega) hb
  have hnd : (blocks out).Nodup := by
    rw [blocks, em]
    refine List.Pairwise.imp ?_ (emit_pairwise (32 - w) 0 (by omega))
    intro x y hxy c
    have : 0 < 2 ^ (32 - y.2) := Nat.pow_pos (by norm_num)
    rw [c] at hxy
    omega
  have hcard : (blocks out).toFinset.card = out.length := by
    rw [List.toFinset_card_of_nodup hnd, blocks, List.length_map]
  refine ⟨H0, H, out, e0, e, eo, hcidr, hown, hnd, hcard, ?_, ?_⟩
  · intro F hF hcov
    have := hmin F.toList (fun b hb => hF b (Finset.mem_toList.1 hb)) (by
      intro a
      rw [← hcov a]
      constructor
      · rintro ⟨b, hb, hin⟩
        exact ⟨b, Finset.mem_toList.1 hb, hin⟩
      · rintro ⟨b, hb, hin⟩
        exact ⟨b, Finset.mem_toList.2 hb, hin⟩)
    rwa [Finset.length_toList] at this
  · rintro q k hk1 hk2 hq ⟨m1, m2⟩
    have hpos : 0 < 2 ^ (32 - k) := Nat.pow_pos (by norm_num)
    have hne : (q + 2 ^ (32 - k), k) ≠ (q, k) := by
      intro c
      have := (Prod.mk.inj c).1
      omega
    have m2' : (q + 2 ^ (32 - k), k) ∈ (blocks out).erase (q, k) :=
      (List.mem_erase_of_ne hne).2 m2
    have hl1 : ((blocks out).erase (q, k)).length = (blocks out).length - 1 :=
      List.length_erase_of_mem m1
    have hl2 : (((blocks out).erase (q, k)).erase (q + 2 ^ (32 - k), k)).length
        = ((blocks out).erase (q, k)).length - 1 := List.length_erase_of_mem m2'
    have hpos1 : 0 < (blocks out).length := List.length_pos_of_mem m1
    have hpos2 : 0 < ((blocks out).erase (q, k)).length := List.length_pos_of_mem m2'
    have hbl : (blocks out).length = out.length := by simp [blocks]
    have := hmin ((q, k - 1) :: ((blocks out).erase (q, k)).erase (q + 2 ^ (32 - k), k)) (by
      intro b hb
      rcases List.mem_cons.1 hb with c | c
      · subst c
        have e1 : 32 - (k - 1) = 32 - k + 1 := by omega
        exact ⟨by simp only; omega, by simp only [e1]; exact hq⟩
      · exact hcidr b (List.mem_of_mem_erase (List.mem_of_mem_erase c))) (by
      intro a
      rw [← hown a]
      constructor
      · rintro ⟨b, hb, hin⟩
        rcases List.mem_cons.1 hb with c | c
        · subst c
          rcases (halves_union q k a hk1 hk2).1 hin with c1 | c1
          · exact ⟨_, m1, c1⟩
          · exact ⟨_, m2, c1⟩
        · exact ⟨b, List.mem_of_mem_erase (List.mem_of_mem_erase c), hin⟩
      · rintro ⟨b, hb, hin⟩
        by_cases c1 : b = (q, k)
        · subst c1
          exact ⟨_, List.mem_cons_self _ _, (halves_union q k a hk1 hk2).2 (Or.inl hin)⟩
        · by_cases c2 : b = (q + 2 ^ (32 - k), k)
          · subst c2
            exact ⟨_, List.mem_cons_self _ _, (halves_union q k a hk1 hk2).2 (Or.inr hin)⟩
          · exact ⟨b, List.mem_cons_of_mem _
              ((List.mem_erase_of_ne c2).2 ((List.mem_erase_of_ne c1).2 hb)), hin⟩)
    simp only [List.length_cons] at this
    omega

theorem C3_minimality_witness :
    (∀ op ∈ [Op.up 2163867909, Op.up 2163867908, Op.up 2163867911],
        in_subnet 2163867909 30 op.host = true) ∧
      ∃ H0 H out, main_init 4 2163867909 30 = some H0 ∧
        run_ops 4 H0 [Op.up 2163867909, Op.up 2163867908, Op.up 2163867911] = some H ∧
        print_mst 4 H Ptr.rootp = some out ∧
        (∀ b ∈ blocks out, is_cidr b) ∧
        (∀ a, (∃ b ∈ blocks out, in_block b a) ↔
          (in_subnet 2163867909 30 a = true ∧
            most_recent_up [Op.up 2163867909, Op.up 2163867908, Op.up 2163867911] a = true)) ∧
        (blocks out).Nodup ∧ (blocks out).toFinset.card = out.length ∧
        (∀ F : Finset (Nat × Nat), (∀ b ∈ F, is_cidr b) →
          (∀ a, (∃ b ∈ F, in_block b a) ↔
            (in_subnet 2163867909 30 a = true ∧
              most_recent_up [Op.up 2163867909, Op.up 2163867908, Op.up 2163867911] a = true)) →
          out.length ≤ F.card) ∧
        (∀ q k, 1 ≤ k → k ≤ 32 → q % 2 ^ (32 - k + 1) = 0 →
          ¬ ((q, k) ∈ blocks out ∧ (q + 2 ^ (32 - k), k) ∈ blocks out)) :=
  ⟨by decide,
    C3_minimality 2163867909 30 4 [Op.up 2163867909, Op.up 2163867908, Op.up 2163867911]
      (by decide) (by decide) (by decide) (by decide) (by decide)⟩

/-! ## The single-host tree (root width 32) -/

/-- C4 (single-host boundary), evaluated on the code: with root 10.0.0.1/32, after
`mark_host_up(10.0.0.1)` on the freshly built tree `print_mst(root)` prints nothing,
because `build_host_list(1)` copies the root into `hosts[0]` and the update only reaches
that copy. -/
theorem C4_single_host_prints_nothing :
    ((main_init 4 167772161 32).bind fun H0 =>
      (mark_host_up 4 H0 167772161).bind fun H1 =>
        (print_mst 4 H1 Ptr.rootp).map blocks) = some [] := by
  decide

/-- With root width 32 the list printed from the root is empty in every reachable state,
while the leaf `hosts[0]` does record the updates. -/
theorem single_host_root_silent (addr fuel : Nat) (ops : List Op) (ha : addr < 2 ^ 32)
    (hf : 2 ≤ fuel) (hops : ∀ op ∈ ops, in_subnet addr 32 op.host = true) :
    ∃ H0 H, main_init fuel addr 32 = some H0 ∧ run_ops fuel H0 ops = some H ∧
      print_mst fuel H Ptr.rootp = some [] ∧
      leaf_active H addr = some (most_recent_up ops addr) := by
  obtain ⟨H0, H, e0, e, _, _, S, A, b⟩ :=
    reach_spec addr 32 fuel ops ha (by omega) (by omega) (by omega) hops
  have hP : addr &&& maskOf (32 - 32) = addr := by
    have := land_maskOf addr 0 ha (by omega)
    simpa using this
  refine ⟨H0, H, e0, e, print_root_single S hf, ?_⟩
  have hn := host_to_node_spec S (by omega) (h := addr) (by rw [hP])
  have h0 : addr % 2 ^ (32 - 32) = 0 := Nat.mod_one addr
  rw [h0] at hn
  have hb := b 0 (by simp)
  rw [hP] at hb
  simp only [Nat.add_zero] at hb
  have hr := S.read_bit (Nat.le_refl _) (i := 0) (by simp)
  simp only [leaf_active, hn, Option.some_bind, hr, Option.map_some', nodeAt_active]
  rw [hb]

/-! ## The tree right after construction -/

theorem emit_all_down {P d : Nat} {H : Heap} (A : AllDown d H) :
    ∀ j i, j ≤ d → i < 2 ^ (d - j) → emit P (bit H d) j i = [] := by
  intro j
  induction j with
  | zero =>
    intro i hj hi
    exact emit_leaf_down P _ i (A 0 i hj hi)
  | succ j ih =>
    intro i hj hi
    have hc := child_lt d j i hi (by omega)
    rw [emit_inactive P _ j i (A (j + 1) i hj hi), ih (2 * i) (by omega) hc.1,
      ih (2 * i + 1) (by omega) hc.2]
    rfl

theorem Shaped.all_inactive {P d : Nat} {H : Heap} (S : Shaped P d H) (A : AllDown d H) :
    ∀ q n, H.read q = some n → n.active = false := by
  intro q n hq
  rcases ptr_classify d q with ⟨j, i, hj, hi, rfl⟩ | ⟨dpos, t, rfl, h1, h2⟩ | ⟨d0, rfl⟩ | h
  · rw [S.read_bit hj hi] at hq
    have hq := (Option.some.inj hq).symm
    subst hq
    rw [nodeAt_active]
    exact A j i hj hi
  · rw [S.spare t h1 h2 dpos] at hq
    have hq := (Option.some.inj hq).symm
    subst hq
    rfl
  · simp only [Heap.read, Option.some.injEq] at hq
    rw [S.root0 d0] at hq
    subst hq
    rfl
  · rw [S.read_out h] at hq
    cases hq

theorem print_fresh {P d fuel : Nat} {H : Heap} (S : Shaped P d H) (A : AllDown d H)
    (hPb : P + 2 ^ d ≤ 2 ^ 32) (hf : d + 2 ≤ fuel) : print_mst fuel H Ptr.rootp = some [] := by
  rcases Nat.eq_zero_or_pos d with d0 | dpos
  · subst d0
    exact print_root_single S hf
  · obtain ⟨out, eo, em⟩ := print_root S hPb dpos hf
    rw [emit_all_down A d 0 (Nat.le_refl _) (by simp)] at em
    have : out = [] := by simpa using em
    rw [eo, this]

theorem root_fields (addr w : Nat) (hw1 : 16 ≤ w) (hw2 : w ≤ 32) {H : Heap}
    (S : Shaped (addr &&& maskOf (32 - w)) (32 - w) H) :
    width_to_mask w = some H.root.mask ∧ H.root.pfx = addr &&& H.root.mask ∧
      H.root.width = w := by
  obtain ⟨m1, m2, m3⟩ := S.root_mask
  have hm : width_to_mask w = some (maskOf (32 - w)) := by
    have := width_to_mask_eq (32 - w) (by omega)
    have e : 32 - (32 - w) = w := by omega
    rwa [e] at this
  rw [m1, m2, m3]
  exact ⟨hm, rfl, by omega⟩

/-- C6 (leaves after construction): for every root prefix and every root width `w` in
[16,32], `build_mst` produces exactly `2^(32-w)` leaves (65536 when `w = 16`); leaf
`hosts[i]` has prefix `P + i` without 32-bit wrap-around, where `P` is the aligned root
prefix, width 32, mask `0xFFFFFFFF` and is inactive; every node of the heap, the root
included, is inactive, and `print_mst(root)` prints nothing. -/
theorem C6_leaves_after_construction (addr w fuel : Nat) (ha : addr < 2 ^ 32) (hw1 : 16 ≤ w)
    (hw2 : w ≤ 32) (hf : 32 - w + 2 ≤ fuel) :
    ∃ H, main_init fuel addr w = some H ∧
      width_to_mask w = some H.root.mask ∧ H.root.pfx = addr &&& H.root.mask ∧
      H.hosts.length = 2 ^ (32 - w) ∧ (w = 16 → H.hosts.length = 65536) ∧
      (∀ i, i < 2 ^ (32 - w) → ∃ n, H.read (Ptr.host i) = some n ∧
        n.pfx = H.root.pfx + i ∧ H.root.pfx + i < 2 ^ 32 ∧ n.width = 32 ∧
        n.mask = 4294967295 ∧ n.active = false) ∧
      (∀ q n, H.read q = some n → n.active = false) ∧
      print_mst fuel H Ptr.rootp = some [] := by
  obtain ⟨H, e0, S, r⟩ := main_init_spec addr w fuel ha hw1 hw2 (by omega)
  have A : AllDown (32 - w) H := by
    intro j i hj hi
    simp only [bit, r j i hj hi, nodeAt]
  obtain ⟨hP, hPb⟩ := aligned_block addr (32 - w) ha (by omega)
  obtain ⟨f1, f2, _⟩ := root_fields addr w hw1 hw2 S
  obtain ⟨_, m2, _⟩ := S.root_mask
  refine ⟨H, e0, f1, f2, S.hosts_len, ?_, ?_, S.all_inactive A, print_fresh S A hPb hf⟩
  · intro h16
    rw [S.hosts_len, h16]
    rfl
  · intro i hi
    have := r 0 i (Nat.zero_le _) hi
    rw [loc_zero] at this
    refine ⟨_, this, ?_, ?_, rfl, ?_, rfl⟩
    · simp [nodeAt, m2]
    · rw [m2]
      omega
    · simp [nodeAt, maskOf, ALL_ONES, U32]

theorem C6_leaves_after_construction_witness :
    ∃ H, main_init 4 2163867909 30 = some H ∧
      width_to_mask 30 = some H.root.mask ∧ H.root.pfx = 2163867909 &&& H.root.mask ∧
      H.hosts.length = 2 ^ (32 - 30) ∧ (30 = 16 → H.hosts.length = 65536) ∧
      (∀ i, i < 2 ^ (32 - 30) → ∃ n, H.read (Ptr.host i) = some n ∧
        n.pfx = H.root.pfx + i ∧ H.root.pfx + i < 2 ^ 32 ∧ n.width = 32 ∧
        n.mask = 4294967295 ∧ n.active = false) ∧
      (∀ q n, H.read q = some n → n.active = false) ∧
      print_mst 4 H Ptr.rootp = some [] :=
  C6_leaves_after_construction 2163867909 30 4 (by decide) (by decide) (by decide) (by decide)

/-! ## Structure of the built tree -/

theorem Shaped.structural {P d : Nat} {H : Heap} (S : Shaped P d H) (hd : d ≤ 16)
    (hP : 2 ^ d ∣ P) (hPb : P + 2 ^ d ≤ 2 ^ 32) :
    ∀ q n, H.read q = some n → (n.l ≠ Ptr.null ∨ n.r ≠ Ptr.null) →
      ∃ nl nr, H.read n.l = some nl ∧ H.read n.r = some nr ∧
        n.width = nl.width - 1 ∧ n.width = nr.width - 1 ∧
        width_to_mask n.width = some n.mask ∧
        n.pfx = nl.pfx &&& n.mask ∧ n.pfx = nr.pfx &&& n.mask := by
  intro q n hq hn
  rcases ptr_classify d q with ⟨j, i, hj, hi, rfl⟩ | ⟨dpos, t, rfl, h1, h2⟩ | ⟨d0, rfl⟩ | h
  · rw [S.read_bit hj hi] at hq
    have hq := (Option.some.inj hq).symm
    subst hq
    rcases Nat.eq_zero_or_pos j with j0 | jpos
    · subst j0
      simp [nodeAt] at hn
    · obtain ⟨k, rfl⟩ : ∃ k, j = k + 1 := ⟨j - 1, by omega⟩
      have hc := child_lt d k i hi (by omega)
      refine ⟨nodeAt P d k (2 * i) (bit H d k (2 * i)),
        nodeAt P d k (2 * i + 1) (bit H d k (2 * i + 1)), ?_, ?_, ?_, ?_, ?_, ?_, ?_⟩
      · rw [nodeAt_l]
        exact S.read_bit (by omega) hc.1
      · rw [nodeAt_r]
        exact S.read_bit (by omega) hc.2
      · simp only [nodeAt]
        omega
      · simp only [nodeAt]
        omega
      · exact width_to_mask_eq (k + 1) (by omega)
      · have := land_child P d k i 0 (by omega) hP hPb hj hi (by omega)
        simp only [nodeAt]
        simpa using this.symm
      · have := land_child P d k i 1 (by omega) hP hPb hj hi (by omega)
        simp only [nodeAt]
        exact this.symm
  · rw [S.spare t h1 h2 dpos] at hq
    have hq := (Option.some.inj hq).symm
    subst hq
    simp [mst_node.zero] at hn
  · simp only [Heap.read, Option.some.injEq] at hq
    rw [S.root0 d0] at hq
    subst hq
    simp [nodeAt] at hn
  · rw [S.read_out h] at hq
    cases hq

/-- C7 (structural invariant after construction): for every root width `w` in [16,31],
with `root.mask = width_to_mask(w)` and `root.prefix = prefix & root.mask` as set by
`main`, the root has children, and every node `n` with children, the root included,
satisfies `n.width = n.l.width - 1 = n.r.width - 1`, `n.mask = width_to_mask(n.width)` and
`n.prefix = n.l.prefix & n.mask = n.r.prefix & n.mask`. -/
theorem C7_structure_after_construction (addr w fuel : Nat) (ha : addr < 2 ^ 32)
    (hw1 : 16 ≤ w) (hw2 : w ≤ 31) (hf : 32 - w + 2 ≤ fuel) :
    ∃ H, main_init fuel addr w = some H ∧
      width_to_mask w = some H.root.mask ∧ H.root.pfx = addr &&& H.root.mask ∧
      H.root.width = w ∧ H.root.l ≠ Ptr.null ∧ H.root.r ≠ Ptr.null ∧
      ∀ q n, H.read q = some n → (n.l ≠ Ptr.null ∨ n.r ≠ Ptr.null) →
        ∃ nl nr, H.read n.l = some nl ∧ H.read n.r = some nr ∧
          n.width = nl.width - 1 ∧ n.width = nr.width - 1 ∧
          width_to_mask n.width = some n.mask ∧
          n.pfx = nl.pfx &&& n.mask ∧ n.pfx = nr.pfx &&& n.mask := by
  obtain ⟨H, e0, S, _⟩ := main_init_spec addr w fuel ha hw1 (by omega) (by omega)
  obtain ⟨hP, hPb⟩ := aligned_block addr (32 - w) ha (by omega)
  obtain ⟨f1, f2, f3⟩ := root_fields addr w hw1 (by omega) S
  obtain ⟨b, hb⟩ := S.root_eq
  have hd0 : 32 - w ≠ 0 := by omega
  refine ⟨H, e0, f1, f2, f3, ?_, ?_, S.structural (by omega) hP hPb⟩
  · rw [hb]
    simp only [nodeAt, if_neg hd0]
    exact loc_ne_null _ _ _
  · rw [hb]
    simp only [nodeAt, if_neg hd0]
    exact loc_ne_null _ _ _

theorem C7_structure_after_construction_witness :
    ∃ H, main_init 4 2163867909 30 = some H ∧
      width_to_mask 30 = some H.root.mask ∧ H.root.pfx = 2163867909 &&& H.root.mask ∧
      H.root.width = 30 ∧ H.root.l ≠ Ptr.null ∧ H.root.r ≠ Ptr.null ∧
      ∀ q n, H.read q = some n → (n.l ≠ Ptr.null ∨ n.r ≠ Ptr.null) →
        ∃ nl nr, H.read n.l = some nl ∧ H.read n.r = some nr ∧
          n.width = nl.width - 1 ∧ n.width = nr.width - 1 ∧
          width_to_mask n.width = some n.mask ∧
          n.pfx = nl.pfx &&& n.mask ∧ n.pfx = nr.pfx &&& n.mask :=
  C7_structure_after_construction 2163867909 30 4 (by decide) (by decide) (by decide)
    (by decide)

/-! ## Host lookup -/

/-- C8 (host lookup): for every built tree (root width in [16,32], in any reachable state)
and every 32-bit host address `h`, the lookup is rejected, by the assertion of
`host_to_node` and by the subnet check of `main`, exactly when
`(h & root.mask) != root.prefix`; otherwise the index `h & ~root.mask` is smaller than the
number of leaves and `host_to_node(h)` is the leaf at that index, whose prefix is `h` and
whose width is 32. -/
theorem C8_host_lookup (addr w fuel : Nat) (ops : List Op) (h : Nat) (ha : addr < 2 ^ 32)
    (hw1 : 16 ≤ w) (hw2 : w ≤ 32) (hf : 32 - w + 2 ≤ fuel)
    (hops : ∀ op ∈ ops, in_subnet addr w op.host = true) (hh : h < 2 ^ 32) :
    ∃ H0 H, main_init fuel addr w = some H0 ∧ run_ops fuel H0 ops = some H ∧
      (host_to_node H h = none ↔ h &&& H.root.mask ≠ H.root.pfx) ∧
      (in_subnet addr w h = false ↔ h &&& H.root.mask ≠ H.root.pfx) ∧
      (h &&& H.root.mask = H.root.pfx →
        h &&& u32_not H.root.mask < H.hosts.length ∧
        host_to_node H h = some (Ptr.host (h &&& u32_not H.root.mask)) ∧
        ∃ n, H.read (Ptr.host (h &&& u32_not H.root.mask)) = some n ∧
          n.pfx = h ∧ n.width = 32) := by
  obtain ⟨H0, H, e0, e, _, _, S, A, b⟩ := reach_spec addr w fuel ops ha hw1 hw2 hf hops
  obtain ⟨m1, m2, _⟩ := S.root_mask
  refine ⟨H0, H, e0, e, ?_, ?_, ?_⟩
  · simp only [host_to_node]
    split <;> simp_all
  · rw [m1, m2, ← Bool.not_eq_true, in_subnet_iff addr w h hw1 hw2]
    constructor
    · intro c1 c2
      exact c1 ⟨hh, c2⟩
    · intro c1 c2
      exact c1 c2.2
  · intro hs
    rw [m1, m2] at hs
    obtain ⟨hsplit, hlt⟩ := host_split _ (32 - w) h hh (by omega) hs
    have hn := host_to_node_spec S (by omega) hs
    rw [loc_zero] at hn
    rw [m1, land_not_maskOf h (32 - w) (by omega), S.hosts_len]
    refine ⟨hlt, hn, ?_⟩
    have hr := S.read_bit (Nat.zero_le _) (i := h % 2 ^ (32 - w)) hlt
    rw [loc_zero] at hr
    refine ⟨_, hr, ?_, rfl⟩
    simp only [nodeAt, Nat.pow_zero, Nat.mul_one]
    exact hsplit.symm

theorem C8_host_lookup_witness :
    (∀ op ∈ [Op.up 2163867909, Op.down 2163867908], in_subnet 2163867909 30 op.host = true) ∧
      ∃ H0 H, main_init 4 2163867909 30 = some H0 ∧
        run_ops 4 H0 [Op.up 2163867909, Op.down 2163867908] = some H ∧
        (host_to_node H 2163867910 = none ↔ 2163867910 &&& H.root.mask ≠ H.root.pfx) ∧
        (in_subnet 2163867909 30 2163867910 = false ↔
          2163867910 &&& H.root.mask ≠ H.root.pfx) ∧
        (2163867910 &&& H.root.mask = H.root.pfx →
          2163867910 &&& u32_not H.root.mask < H.hosts.length ∧
          host_to_node H 2163867910 = some (Ptr.host (2163867910 &&& u32_not H.root.mask)) ∧
          ∃ n, H.read (Ptr.host (2163867910 &&& u32_not H.root.mask)) = some n ∧
            n.pfx = 2163867910 ∧ n.width = 32) :=
  ⟨by decide,
    C8_host_lookup 2163867909 30 4 [Op.up 2163867909, Op.down 2163867908] 2163867910
      (by decide) (by decide) (by decide) (by decide) (by decide) (by decide)⟩

/-! ## Idempotence and round trip -/

theorem leaf_active_eq {P d h : Nat} {H : Heap} (S : Shaped P d H) (hd : d ≤ 32)
    (hh : h < 2 ^ 32) (hs : h &&& maskOf d = P) :
    leaf_active H h = some (bit H d 0 (h % 2 ^ d)) := by
  obtain ⟨_, hlt⟩ := host_split P d h hh hd hs
  have hr := S.read_bit (Nat.zero_le _) (i := h % 2 ^ d) hlt
  simp only [leaf_active, host_to_node_spec S hd hs, Option.some_bind, hr, Option.map_some',
    nodeAt_active]

theorem up_idem {P d h fuel : Nat} {H : Heap} (S : Shaped P d H) (A : AndInv d H)
    (hd : d ≤ 32) (hh : h < 2 ^ 32) (hs : h &&& maskOf d = P) (hf : d + 1 ≤ fuel)
    (hb : bit H d 0 (h % 2 ^ d) = true) : mark_host_up fuel H h = some H := by
  obtain ⟨H1, e1, S1, A1, b1⟩ := mark_host_up_spec S A hd hh hs hf
  have : H1 = H := by
    apply S1.eq_of_leaves S A1 A
    intro i hi
    rw [b1 i hi]
    split
    · rename_i c
      rw [c, hb]
    · rfl
  rw [e1, this]

theorem down_idem {P d h fuel : Nat} {H : Heap} (S : Shaped P d H) (A : AndInv d H)
    (hd : d ≤ 32) (hh : h < 2 ^ 32) (hs : h &&& maskOf d = P) (hf : d + 2 ≤ fuel)
    (hb : bit H d 0 (h % 2 ^ d) = false) : mark_host_down fuel H h = some H := by
  obtain ⟨H1, e1, S1, A1, b1⟩ := mark_host_down_spec S A hd hh hs hf
  have : H1 = H := by
    apply S1.eq_of_leaves S A1 A
    intro i hi
    rw [b1 i hi]
    split
    · rename_i c
      rw [c, hb]
    · rfl
  rw [e1, this]

theorem down_up_restores {P d h fuel : Nat} {H : Heap} (S : Shaped P d H) (A : AndInv d H)
    (hd : d ≤ 32) (hh : h < 2 ^ 32) (hs : h &&& maskOf d = P) (hf : d + 2 ≤ fuel)
    (hb : bit H d 0 (h % 2 ^ d) = true) :
    ∃ H1, mark_host_down fuel H h = some H1 ∧ mark_host_up fuel H1 h = some H := by
  obtain ⟨H1, e1, S1, A1, b1⟩ := mark_host_down_spec S A hd hh hs hf
  obtain ⟨H2, e2, S2, A2, b2⟩ := @mark_host_up_spec _ _ _ fuel _ S1 A1 hd hh hs (by omega)
  have : H2 = H := by
    apply S2.eq_of_leaves S A2 A
    intro i hi
    rw [b2 i hi, b1 i hi]
    split
    · rename_i c
      rw [c, hb]
    · rfl
  exact ⟨H1, e1, by rw [e2, this]⟩

/-- C9 (idempotence): for every root width in [16,32], every state reachable from the built
tree by up/down commands and every in-subnet host `h`: if leaf `h` is already active then
`mark_host_up(h)` leaves the active flag of every node unchanged, and if leaf `h` is
already inactive then `mark_host_down(h)` leaves the active flag of every node
unchanged. -/
theorem C9_idempotence (addr w fuel : Nat) (ops : List Op) (h : Nat) (ha : addr < 2 ^ 32)
    (hw1 : 16 ≤ w) (hw2 : w ≤ 32) (hf : 32 - w + 2 ≤ fuel)
    (hops : ∀ op ∈ ops, in_subnet addr w op.host = true)
    (hh : in_subnet addr w h = true) :
    ∃ H0 H, main_init fuel addr w = some H0 ∧ run_ops fuel H0 ops = some H ∧
      (leaf_active H h = some true →
        ∃ H1, mark_host_up fuel H h = some H1 ∧
          ∀ q, (H1.read q).map (fun n => n.active) = (H.read q).map (fun n => n.active)) ∧
      (leaf_active H h = some false →
        ∃ H1, mark_host_down fuel H h = some H1 ∧
          ∀ q, (H1.read q).map (fun n => n.active) = (H.read q).map (fun n => n.active)) := by
  obtain ⟨H0, H, e0, e, _, _, S, A, b⟩ := reach_spec addr w fuel ops ha hw1 hw2 hf hops
  obtain ⟨h1, h2⟩ := (in_subnet_iff addr w h hw1 hw2).1 hh
  have hl := leaf_active_eq S (by omega) h1 h2
  refine ⟨H0, H, e0, e, ?_, ?_⟩
  · intro c
    rw [hl] at c
    exact ⟨H, up_idem S A (by omega) h1 h2 (by omega) (Option.some.inj c), fun _ => rfl⟩
  · intro c
    rw [hl] at c
    exact ⟨H, down_idem S A (by omega) h1 h2 hf (Option.some.inj c), fun _ => rfl⟩

theorem C9_idempotence_witness :
    ((∀ op ∈ [Op.up 2163867909, Op.up 2163867908], in_subnet 2163867909 30 op.host = true) ∧
      in_subnet 2163867909 30 2163867909 = true) ∧
      ∃ H0 H, main_init 4 2163867909 30 = some H0 ∧
        run_ops 4 H0 [Op.up 2163867909, Op.up 2163867908] = some H ∧
        (leaf_active H 2163867909 = some true →
          ∃ H1, mark_host_up 4 H 2163867909 = some H1 ∧
            ∀ q, (H1.read q).map (fun n => n.active) = (H.read q).map (fun n => n.active)) ∧
        (leaf_active H 2163867909 = some false →
          ∃ H1, mark_host_down 4 H 2163867909 = some H1 ∧
            ∀ q, (H1.read q).map (fun n => n.active) = (H.read q).map (fun n => n.active)) :=
  ⟨⟨by decide, by decide⟩,
    C9_idempotence 2163867909 30 4 [Op.up 2163867909, Op.up 2163867908] 2163867909
      (by decide) (by decide) (by decide) (by decide) (by decide) (by decide)⟩

/-- C10 (down/up round trip): for every root width in [16,32], every state reachable from
the built tree by up/down commands and every in-subnet host `h` that is up in that state,
`mark_host_down(h)` followed immediately by `mark_host_up(h)` restores the active flag of
every node of the tree, leaf `h` and its ancestors included, to its value before the
`mark_host_down` call. -/
theorem C10_down_up_round_trip (addr w fuel : Nat) (ops : List Op) (h : Nat)
    (ha : addr < 2 ^ 32) (hw1 : 16 ≤ w) (hw2 : w ≤ 32) (hf : 32 - w + 2 ≤ fuel)
    (hops : ∀ op ∈ ops, in_subnet addr w op.host = true)
    (hh : in_subnet addr w h = true) :
    ∃ H0 H, main_init fuel addr w = some H0 ∧ run_ops fuel H0 ops = some H ∧
      (leaf_active H h = some true →
        ∃ H1 H2, mark_host_down fuel H h = some H1 ∧ mark_host_up fuel H1 h = some H2 ∧
          ∀ q, (H2.read q).map (fun n => n.active) = (H.read q).map (fun n => n.active)) := by
  obtain ⟨H0, H, e0, e, _, _, S, A, b⟩ := reach_spec addr w fuel ops ha hw1 hw2 hf hops
  obtain ⟨h1, h2⟩ := (in_subnet_iff addr w h hw1 hw2).1 hh
  have hl := leaf_active_eq S (by omega) h1 h2
  refine ⟨H0, H, e0, e, ?_⟩
  intro c
  rw [hl] at c
  obtain ⟨H1, d1, d2⟩ := down_up_restores S A (by omega) h1 h2 hf (Option.some.inj c)
  exact ⟨H1, H, d1, d2, fun _ => rfl⟩

theorem C10_down_up_round_trip_witness :
    ((∀ op ∈ [Op.up 2163867909, Op.up 2163867908], in_subnet 2163867909 30 op.host = true) ∧
      in_subnet 2163867909 30 2163867909 = true) ∧
      ∃ H0 H, main_init 4 2163867909 30 = some H0 ∧
        run_ops 4 H0 [Op.up 2163867909, Op.up 2163867908] = some H ∧
        (leaf_active H 2163867909 = some true →
          ∃ H1 H2, mark_host_down 4 H 2163867909 = some H1 ∧
            mark_host_up 4 H1 2163867909 = some H2 ∧
            ∀ q, (H2.read q).map (fun n => n.active) = (H.read q).map (fun n => n.active)) :=
  ⟨⟨by decide, by decide⟩,
    C10_down_up_round_trip 2163867909 30 4 [Op.up 2163867909, Op.up 2163867908] 2163867909
      (by decide) (by decide) (by decide) (by decide) (by decide) (by decide)⟩

/-! ## Validation of the start-up parameters and of commands -/

/-- C11 (width validation): the construction is rejected (`main` leaves through `usage`
before `build_mst`, so no tree is built) for every root width below 16 or above 32, and it
succeeds for every width in [16,32]. -/
theorem C11_width_validation (addr w fuel : Nat) (ha : addr < 2 ^ 32) (hf : 16 ≤ fuel) :
    ((w < 16 ∨ w > 32) → main_init fuel addr w = none) ∧
      ((16 ≤ w ∧ w ≤ 32) → ∃ H, main_init fuel addr w = some H) ∧
      ((∃ H, main_init fuel addr w = some H) ↔ (16 ≤ w ∧ w ≤ 32)) := by
  have h1 : (w < 16 ∨ w > 32) → main_init fuel addr w = none := by
    intro h
    simp only [main_init, if_pos h]
  have h2 : (16 ≤ w ∧ w ≤ 32) → ∃ H, main_init fuel addr w = some H := by
    rintro ⟨a, b⟩
    obtain ⟨H, e, _⟩ := main_init_spec addr w fuel ha a b (by omega)
    exact ⟨H, e⟩
  refine ⟨h1, h2, ?_, h2⟩
  rintro ⟨H, e⟩
  by_contra c
  rw [h1 (by omega)] at e
  cases e

theorem C11_width_validation_witness :
    (main_init 16 2163867909 15 = none ∧ main_init 16 2163867909 33 = none) ∧
      ∃ H, main_init 16 2163867909 30 = some H :=
  ⟨⟨(C11_width_validation 2163867909 15 16 (by decide) (by decide)).1 (Or.inl (by decide)),
      (C11_width_validation 2163867909 33 16 (by decide) (by decide)).1 (Or.inr (by decide))⟩,
    (C11_width_validation 2163867909 30 16 (by decide) (by decide)).2.1
      ⟨by decide, by decide⟩⟩

/-! ## Address conversion -/

theorem octets_value (a b c d : Nat) (ha : a ≤ 255) (hb : b ≤ 255) (hc : c ≤ 255)
    (hd : d ≤ 255) :
    ((((((a &&& 255) <<< 24) % U32) ||| (((b &&& 255) <<< 16) % U32))
        ||| (((c &&& 255) <<< 8) % U32)) ||| (d &&& 255))
      = a * 16777216 + b * 65536 + c * 256 + d := by
  have e8 : (255 : Nat) = 2 ^ 8 - 1 := by norm_num
  have ma : a &&& 255 = a := by
    rw [e8, Nat.and_pow_two_sub_one_eq_mod, Nat.mod_eq_of_lt]
    norm_num
    omega
  have mb : b &&& 255 = b := by
    rw [e8, Nat.and_pow_two_sub_one_eq_mod, Nat.mod_eq_of_lt]
    norm_num
    omega
  have mc : c &&& 255 = c := by
    rw [e8, Nat.and_pow_two_sub_one_eq_mod, Nat.mod_eq_of_lt]
    norm_num
    omega
  have md : d &&& 255 = d := by
    rw [e8, Nat.and_pow_two_sub_one_eq_mod, Nat.mod_eq_of_lt]
    norm_num
    omega
  have sa : (a <<< 24) % U32 = 2 ^ 24 * a := by
    rw [Nat.shiftLeft_eq, Nat.mod_eq_of_lt]
    · ring
    · simp only [U32]
      norm_num
      omega
  have sb : (b <<< 16) % U32 = b * 2 ^ 16 := by
    rw [Nat.shiftLeft_eq, Nat.mod_eq_of_lt]
    simp only [U32]
    norm_num
    omega
  have sc : (c <<< 8) % U32 = c * 2 ^ 8 := by
    rw [Nat.shiftLeft_eq, Nat.mod_eq_of_lt]
    simp only [U32]
    norm_num
    omega
  rw [ma, mb, mc, md, sa, sb, sc]
  have o1 : 2 ^ 24 * a ||| b * 2 ^ 16 = 2 ^ 16 * (a * 2 ^ 8 + b) := by
    rw [← Nat.mul_add_lt_is_or (by norm_num; omega) a]
    ring
  have o2 : 2 ^ 16 * (a * 2 ^ 8 + b) ||| c * 2 ^ 8 = 2 ^ 8 * (a * 2 ^ 16 + b * 2 ^ 8 + c) := by
    rw [← Nat.mul_add_lt_is_or (by norm_num; omega) (a * 2 ^ 8 + b)]
    ring
  have o3 : 2 ^ 8 * (a * 2 ^ 16 + b * 2 ^ 8 + c) ||| d
      = a * 16777216 + b * 65536 + c * 256 + d := by
    rw [← Nat.mul_add_lt_is_or (by norm_num; omega) (a * 2 ^ 16 + b * 2 ^ 8 + c)]
    ring
  rw [o1, o2, o3]

theorem ascii_ok (a b c d : Nat) (ha : a ≤ 255) (hb : b ≤ 255) (hc : c ≤ 255) (hd : d ≤ 255) :
    ascii_to_in_addr_t (some (a, b, c, d)) = (1, a * 16777216 + b * 65536 + c * 256 + d) := by
  have na : ¬ a > 255 := by omega
  have nb : ¬ b > 255 := by omega
  have nc : ¬ c > 255 := by omega
  have nd : ¬ d > 255 := by omega
  simp only [ascii_to_in_addr_t, if_neg na, if_neg nb, if_neg nc, if_neg nd,
    octets_value a b c d ha hb hc hd]

theorem ascii_bad (a b c d : Nat) (h : ¬ (a ≤ 255 ∧ b ≤ 255 ∧ c ≤ 255 ∧ d ≤ 255)) :
    ascii_to_in_addr_t (some (a, b, c, d)) = (0, 0) := by
  simp only [ascii_to_in_addr_t]
  split
  · rfl
  · split
    · rfl
    · split
      · rfl
      · split
        · rfl
        · exfalso
          apply h
          omega

theorem ascii_lt (scan : Option (Nat × Nat × Nat × Nat)) :
    (ascii_to_in_addr_t scan).2 < 2 ^ 32 := by
  cases scan with
  | none => simp [ascii_to_in_addr_t]
  | some v =>
    obtain ⟨a, b, c, d⟩ := v
    by_cases h : a ≤ 255 ∧ b ≤ 255 ∧ c ≤ 255 ∧ d ≤ 255
    · rw [ascii_ok a b c d h.1 h.2.1 h.2.2.1 h.2.2.2]
      simp only
      omega
    · rw [ascii_bad a b c d h]
      simp

/-- C18 (address conversion): for the four integers `a, b, c, d` scanned by
`ascii_to_in_addr_t`, as stored in unsigned 32-bit variables, the conversion reports
success if and only if each of them is at most 255, and then yields
`a*2^24 + b*2^16 + c*2^8 + d`, from which `print_mst` extracts the octets `a, b, c, d`
again; on failure, also when fewer than four integers are scanned, it reports 0 and leaves
0 in the output address. -/
theorem C18_address_conversion (a b c d : Nat) :
    ((ascii_to_in_addr_t (some (a, b, c, d))).1 = 1 ↔
        (a ≤ 255 ∧ b ≤ 255 ∧ c ≤ 255 ∧ d ≤ 255)) ∧
      ((a ≤ 255 ∧ b ≤ 255 ∧ c ≤ 255 ∧ d ≤ 255) →
        (ascii_to_in_addr_t (some (a, b, c, d))).2
            = a * 2 ^ 24 + b * 2 ^ 16 + c * 2 ^ 8 + d ∧
          ∀ n : mst_node, n.pfx = (ascii_to_in_addr_t (some (a, b, c, d))).2 →
            (print_line n).o1 = a ∧ (print_line n).o2 = b ∧ (print_line n).o3 = c ∧
              (print_line n).o4 = d) ∧
      (¬ (a ≤ 255 ∧ b ≤ 255 ∧ c ≤ 255 ∧ d ≤ 255) →
        ascii_to_in_addr_t (some (a, b, c, d)) = (0, 0)) ∧
      ascii_to_in_addr_t none = (0, 0) ∧
      ascii_to_in_addr_t (some (400, 1, 1, 1)) = (0, 0) := by
  refine ⟨?_, ?_, ascii_bad a b c d, rfl, by decide⟩
  · constructor
    · intro h
      by_contra c1
      rw [ascii_bad a b c d c1] at h
      cases h
    · intro h
      rw [ascii_ok a b c d h.1 h.2.1 h.2.2.1 h.2.2.2]
  · intro h
    rw [ascii_ok a b c d h.1 h.2.1 h.2.2.1 h.2.2.2]
    refine ⟨by norm_num, ?_⟩
    intro n hn
    have e8 : (255 : Nat) = 2 ^ 8 - 1 := by norm_num
    simp only [print_line, hn, Nat.shiftRight_eq_div_pow]
    rw [e8, Nat.and_pow_two_sub_one_eq_mod, Nat.and_pow_two_sub_one_eq_mod,
      Nat.and_pow_two_sub_one_eq_mod, Nat.and_pow_two_sub_one_eq_mod]
    norm_num
    omega

theorem C18_address_conversion_witness :
    (128 ≤ 255 ∧ 250 ≤ 255 ∧ 1 ≤ 255 ∧ 200 ≤ 255) ∧
      (ascii_to_in_addr_t (some (128, 250, 1, 200))).2
        = 128 * 2 ^ 24 + 250 * 2 ^ 16 + 1 * 2 ^ 8 + 200 :=
  ⟨by decide, ((C18_address_conversion 128 250 1 200).2.1 (by decide)).1⟩

/-- C12 (rejected commands leave the core state unchanged): in the command step of `main`,
in every reachable state, a `u` or `d` command whose address fails `ascii_to_in_addr_t`,
or whose address is outside the subnet, and any command whose first character is none of
`u`, `d`, `p`, `x`, continues the loop with the very same heap (no field of any node
changes) and prints nothing. -/
theorem C12_rejected_commands_frame (addr w fuel : Nat) (ops : List Op) (cmd : CmdLine)
    (ha : addr < 2 ^ 32) (hw1 : 16 ≤ w) (hw2 : w ≤ 32) (hf : 32 - w + 2 ≤ fuel)
    (hops : ∀ op ∈ ops, in_subnet addr w op.host = true) :
    ∃ H0 H, main_init fuel addr w = some H0 ∧ run_ops fuel H0 ops = some H ∧
      ((cmd.c0 = 'u' ∨ cmd.c0 = 'd') → (ascii_to_in_addr_t cmd.scan).1 = 0 →
        main_step fuel H cmd = some (Step.next H [] (some Diag.invalid_address))) ∧
      ((cmd.c0 = 'u' ∨ cmd.c0 = 'd') → (ascii_to_in_addr_t cmd.scan).1 ≠ 0 →
        in_subnet addr w (ascii_to_in_addr_t cmd.scan).2 = false →
        main_step fuel H cmd = some (Step.next H [] (some Diag.outside_subnet))) ∧
      ((cmd.c0 ≠ 'u' ∧ cmd.c0 ≠ 'd' ∧ cmd.c0 ≠ 'p' ∧ cmd.c0 ≠ 'x') →
        main_step fuel H cmd = some (Step.next H [] (some Diag.bad_input))) := by
  obtain ⟨H0, H, e0, e, _, _, S, _, _⟩ := reach_spec addr w fuel ops ha hw1 hw2 hf hops
  obtain ⟨m1, m2, _⟩ := S.root_mask
  refine ⟨H0, H, e0, e, ?_, ?_, ?_⟩
  · intro hc hz
    have hx : cmd.c0 ≠ 'x' := by
      rcases hc with c | c <;> rw [c] <;> decide
    simp only [main_step, if_neg hx, if_pos hc, if_pos hz]
  · intro hc hz hs
    have hx : cmd.c0 ≠ 'x' := by
      rcases hc with c | c <;> rw [c] <;> decide
    have hout : (ascii_to_in_addr_t cmd.scan).2 &&& H.root.mask ≠ H.root.pfx := by
      rw [m1, m2]
      intro c
      have := (in_subnet_iff addr w _ hw1 hw2).2 ⟨ascii_lt cmd.scan, c⟩
      rw [hs] at this
      cases this
    simp only [main_step, if_neg hx, if_pos hc, if_neg hz, if_pos hout]
  · rintro ⟨c1, c2, c3, c4⟩
    have hud : ¬ (cmd.c0 = 'u' ∨ cmd.c0 = 'd') := by
      rintro (c | c)
      · exact c1 c
      · exact c2 c
    simp only [main_step, if_neg c4, if_neg hud, if_neg c3]

theorem C12_rejected_commands_frame_witness :
    ∃ H0 H, main_init 10 2163867904 24 = some H0 ∧ run_ops 10 H0 [] = some H ∧
      main_step 10 H { c0 := 'u', scan := some (10, 0, 0, 1) }
        = some (Step.next H [] (some Diag.outside_subnet)) := by
  obtain ⟨H0, H, e0, e, _, h2, _⟩ :=
    C12_rejected_commands_frame 2163867904 24 10 [] { c0 := 'u', scan := some (10, 0, 0, 1) }
      (by decide) (by decide) (by decide) (by decide) (by simp)
  exact ⟨H0, H, e0, e, h2 (Or.inl rfl) (by decide) (by decide)⟩

/-! ## History independence -/

theorem same_ups_same_heap (addr w fuel : Nat) (ops1 ops2 : List Op) (ha : addr < 2 ^ 32)
    (hw1 : 16 ≤ w) (hw2 : w ≤ 32) (hf : 32 - w + 2 ≤ fuel)
    (hops1 : ∀ op ∈ ops1, in_subnet addr w op.host = true)
    (hops2 : ∀ op ∈ ops2, in_subnet addr w op.host = true)
    (hsame : ∀ h, in_subnet addr w h = true → most_recent_up ops1 h = most_recent_up ops2 h) :
    ∃ H0 H, main_init fuel addr w = some H0 ∧ run_ops fuel H0 ops1 = some H ∧
      run_ops fuel H0 ops2 = some H := by
  obtain ⟨H0, H1, e0, e1, _, _, S1, A1, b1⟩ :=
    reach_spec addr w fuel ops1 ha hw1 hw2 hf hops1
  obtain ⟨H0', H2, e0', e2, _, _, S2, A2, b2⟩ :=
    reach_spec addr w fuel ops2 ha hw1 hw2 hf hops2
  rw [e0] at e0'
  cases e0'
  obtain ⟨hP, hPb⟩ := aligned_block addr (32 - w) ha (by omega)
  have : H2 = H1 := by
    apply S2.eq_of_leaves S1 A2 A1
    intro i hi
    rw [b1 i hi, b2 i hi]
    symm
    apply hsame
    rw [in_subnet_iff addr w _ hw1 hw2, subnet_range _ _ _ (by omega) hP hPb]
    omega
  rw [this] at e2
  exact ⟨H0, H1, e0, e1, e2⟩

/-- C20 (history independence): for every root width in [16,32], two finite sequences of
`mark_host_up` / `mark_host_down` calls on in-subnet hosts, applied to the same freshly
built tree, that leave the same set of hosts up produce identical active flags on every
node and identical `print_mst` output; in particular, from every reachable state, updates
to two different hosts give the same state in either order. -/
theorem C20_history_independence (addr w fuel : Nat) (ops1 ops2 : List Op)
    (ha : addr < 2 ^ 32) (hw1 : 16 ≤ w) (hw2 : w ≤ 32) (hf : 32 - w + 2 ≤ fuel)
    (hops1 : ∀ op ∈ ops1, in_subnet addr w op.host = true)
    (hops2 : ∀ op ∈ ops2, in_subnet addr w op.host = true)
    (hsame : ∀ h, most_recent_up ops1 h = most_recent_up ops2 h) :
    ∃ H0 H1 H2 out, main_init fuel addr w = some H0 ∧ run_ops fuel H0 ops1 = some H1 ∧
      run_ops fuel H0 ops2 = some H2 ∧
      (∀ q, (H1.read q).map (fun n => n.active) = (H2.read q).map (fun n => n.active)) ∧
      print_mst fuel H1 Ptr.rootp = some out ∧ print_mst fuel H2 Ptr.rootp = some out ∧
      (∀ o1 o2 : Op, in_subnet addr w o1.host = true → in_subnet addr w o2.host = true →
        o1.host ≠ o2.host →
        ∃ H3, run_ops fuel H1 [o1, o2] = some H3 ∧ run_ops fuel H1 [o2, o1] = some H3) := by
  obtain ⟨H0, H, e0, e1, e2⟩ := same_ups_same_heap addr w fuel ops1 ops2 ha hw1 hw2 hf
    hops1 hops2 (fun h _ => hsame h)
  obtain ⟨H0', H', e0', e1', _, _, S, A, _⟩ := reach_spec addr w fuel ops1 ha hw1 hw2 hf hops1
  rw [e0] at e0'
  cases e0'
  rw [e1] at e1'
  cases e1'
  obtain ⟨hP, hPb⟩ := aligned_block addr (32 - w) ha (by omega)
  have hpr : ∃ out, print_mst fuel H Ptr.rootp = some out := by
    rcases Nat.eq_zero_or_pos (32 - w) with d0 | dpos
    · rw [d0] at S
      exact ⟨[], print_root_single S (by omega)⟩
    · obtain ⟨out, eo, _⟩ := print_root S hPb dpos hf
      exact ⟨out, eo⟩
  obtain ⟨out, eo⟩ := hpr
  refine ⟨H0, H, H, out, e0, e1, e2, fun _ => rfl, eo, eo, ?_⟩
  intro o1 o2 s1 s2 hne
  have m1 : ∀ op ∈ ops1 ++ [o1, o2], in_subnet addr w op.host = true := by
    intro op hop
    rcases List.mem_append.1 hop with c | c
    · exact hops1 op c
    · simp only [List.mem_cons, List.mem_singleton, List.not_mem_nil, or_false] at c
      rcases c with c | c <;> rw [c] <;> assumption
  have m2 : ∀ op ∈ ops1 ++ [o2, o1], in_subnet addr w op.host = true := by
    intro op hop
    rcases List.mem_append.1 hop with c | c
    · exact hops1 op c
    · simp only [List.mem_cons, List.mem_singleton, List.not_mem_nil, or_false] at c
      rcases c with c | c <;> rw [c] <;> assumption
  obtain ⟨H0', H3, e0', r1, r2⟩ := same_ups_same_heap addr w fuel (ops1 ++ [o1, o2])
    (ops1 ++ [o2, o1]) ha hw1 hw2 hf m1 m2 (by
      intro h _
      have a1 : ops1 ++ [o1, o2] = (ops1 ++ [o1]) ++ [o2] := by simp
      have a2 : ops1 ++ [o2, o1] = (ops1 ++ [o2]) ++ [o1] := by simp
      rw [a1, a2, most_recent_up_append, most_recent_up_append, most_recent_up_append,
        most_recent_up_append]
      by_cases c1 : o1.host = h
      · have c2 : o2.host ≠ h := fun c => hne (c1.trans c.symm)
        rw [if_pos c1, if_neg c2, if_pos c1]
      · rw [if_neg c1, if_neg c1])
  rw [e0] at e0'
  cases e0'
  rw [run_ops_append, e1] at r1 r2
  exact ⟨H3, r1, r2⟩

theorem C20_history_independence_witness :
    ((∀ op ∈ [Op.up 2163867909, Op.up 2163867908, Op.down 2163867909],
        in_subnet 2163867909 30 op.host = true) ∧
      (∀ op ∈ [Op.up 2163867908], in_subnet 2163867909 30 op.host = true)) ∧
      ∃ H0 H1 H2 out, main_init 4 2163867909 30 = some H0 ∧
        run_ops 4 H0 [Op.up 2163867909, Op.up 2163867908, Op.down 2163867909] = some H1 ∧
        run_ops 4 H0 [Op.up 2163867908] = some H2 ∧
        (∀ q, (H1.read q).map (fun n => n.active) = (H2.read q).map (fun n => n.active)) ∧
        print_mst 4 H1 Ptr.rootp = some out ∧ print_mst 4 H2 Ptr.rootp = some out ∧
        (∀ o1 o2 : Op, in_subnet 2163867909 30 o1.host = true →
          in_subnet 2163867909 30 o2.host = true → o1.host ≠ o2.host →
          ∃ H3, run_ops 4 H1 [o1, o2] = some H3 ∧ run_ops 4 H1 [o2, o1] = some H3) :=
  ⟨⟨by decide, by decide⟩,
    C20_history_independence 2163867909 30 4
      [Op.up 2163867909, Op.up 2163867908, Op.down 2163867909] [Op.up 2163867908]
      (by decide) (by decide) (by decide) (by decide) (by decide) (by decide) (by
        intro h
        simp only [most_recent_up, List.reverse_cons, List.reverse_nil, List.nil_append,
          List.cons_append, List.find?_cons, Op.host, Op.is_up, List.find?_nil]
        by_cases c1 : 2163867909 = h
        · subst c1
          simp
        · by_cases c2 : 2163867908 = h
          · subst c2
            simp
          · simp [c1, c2])⟩

/-! ## The early stop against the naive update -/

theorem naive_ripple_step {H H1 : Heap} {node : Ptr} {n pn ln rn : mst_node} (fuel : Nat)
    (h1 : H.read node = some n) (hp : n.p ≠ Ptr.null)
    (h2 : H.read n.p = some pn) (h3 : H.read pn.l = some ln) (h4 : H.read pn.r = some rn)
    (hw : H.write n.p { pn with active := ln.active && rn.active } = some H1) :
    naive_ripple (fuel + 1) H node = naive_ripple fuel H1 n.p := by
  simp only [naive_ripple, h1, Option.some_bind, if_neg hp, h2, h3, h4, hw]

theorem naive_ripple_stop {H : Heap} {node : Ptr} {n : mst_node} (fuel : Nat)
    (h1 : H.read node = some n) (hp : n.p = Ptr.null) :
    naive_ripple (fuel + 1) H node = some H := by
  simp only [naive_ripple, h1, Option.some_bind, if_pos hp]

theorem naive_ripple_spec {P d : Nat} :
    ∀ n j i fuel H, d = j + n → i < 2 ^ (d - j) → n + 1 ≤ fuel → Shaped P d H →
      ∃ H1, naive_ripple fuel H (loc d j i) = some H1 ∧ Shaped P d H1 ∧
        (∀ j1 i1, j1 ≤ j → i1 < 2 ^ (d - j1) → bit H1 d j1 i1 = bit H d j1 i1) ∧
        (AndExcept d H (j + 1) (i / 2) → AndInv d H1) := by
  intro n
  induction n with
  | zero =>
    intro j i fuel H hd hi hf S
    obtain ⟨f, rfl⟩ : ∃ f, fuel = f + 1 := ⟨fuel - 1, by omega⟩
    have hjd : j = d := by omega
    subst hjd
    refine ⟨H, ?_, S, fun _ _ _ _ => rfl, ?_⟩
    · exact naive_ripple_stop f (S.read_bit (Nat.le_refl _) hi) (nodeAt_p_top _ _ _ _)
    · intro hA j1 i1 h1 h2 h3
      exact hA j1 i1 h1 h2 h3 (Or.inl (by omega))
  | succ n ih =>
    intro j i fuel H hd hi hf S
    obtain ⟨f, rfl⟩ : ∃ f, fuel = f + 1 := ⟨fuel - 1, by omega⟩
    have hjd : j < d := by omega
    have hh := half_lt d j i hjd hi
    have hc := child_lt d j (i / 2) hh hjd
    obtain ⟨H1, e1, u1⟩ := S.write_bit (by omega) hh
      (bit H d j (2 * (i / 2)) && bit H d j (2 * (i / 2) + 1)) (bit H d (j + 1) (i / 2))
    obtain ⟨S1, b1⟩ := S.set_bit (by omega) hh u1
    obtain ⟨H2, e2, S2, low2, and2⟩ := ih (j + 1) (i / 2) f H1 (by omega) hh (by omega) S1
    refine ⟨H2, ?_, S2, ?_, ?_⟩
    · rw [← e2]
      have hpp := nodeAt_p P d j i (bit H d j i) hjd
      have r2 : H.read (nodeAt P d j i (bit H d j i)).p
          = some (nodeAt P d (j + 1) (i / 2) (bit H d (j + 1) (i / 2))) := by
        rw [hpp]
        exact S.read_bit (by omega) hh
      have r3 : H.read (nodeAt P d (j + 1) (i / 2) (bit H d (j + 1) (i / 2))).l
          = some (nodeAt P d j (2 * (i / 2)) (bit H d j (2 * (i / 2)))) := by
        rw [nodeAt_l]
        exact S.read_bit (by omega) hc.1
      have r4 : H.read (nodeAt P d (j + 1) (i / 2) (bit H d (j + 1) (i / 2))).r
          = some (nodeAt P d j (2 * (i / 2) + 1) (bit H d j (2 * (i / 2) + 1))) := by
        rw [nodeAt_r]
        exact S.read_bit (by omega) hc.2
      have hw : H.write (nodeAt P d j i (bit H d j i)).p
          { nodeAt P d (j + 1) (i / 2) (bit H d (j + 1) (i / 2)) with
            active := ((nodeAt P d j (2 * (i / 2)) (bit H d j (2 * (i / 2)))).active &&
              (nodeAt P d j (2 * (i / 2) + 1) (bit H d j (2 * (i / 2) + 1))).active) }
          = some H1 := by
        rw [hpp]
        exact e1
      have := naive_ripple_step f (S.read_bit (Nat.le_of_lt hjd) hi)
        (by rw [hpp]; exact loc_ne_null _ _ _) r2 r3 r4 hw
      rw [this, hpp]
    · intro j1 i1 hj1 hi1
      rw [low2 j1 i1 (by omega) hi1, b1 j1 i1 (by omega) hi1]
      have : ¬ (j1 = j + 1 ∧ i1 = i / 2) := by omega
      rw [if_neg this]
    · intro hA
      apply and2
      intro j1 i1 h1 h2 h3 h4
      have hc1 := child_lt d (j1 - 1) i1 (by
        have : j1 - 1 + 1 = j1 := by omega
        rw [this]
        exact h3) (by omega)
      rw [b1 j1 i1 h2 h3, b1 (j1 - 1) (2 * i1) (by omega) hc1.1,
        b1 (j1 - 1) (2 * i1 + 1) (by omega) hc1.2]
      have n1 : ¬ (j1 - 1 = j + 1 ∧ 2 * i1 = i / 2) := by omega
      have n2 : ¬ (j1 - 1 = j + 1 ∧ 2 * i1 + 1 = i / 2) := by omega
      rw [if_neg n1, if_neg n2]
      by_cases c : j1 = j + 1 ∧ i1 = i / 2
      · obtain ⟨c1, c2⟩ := c
        subst c1 c2
        simp
      · rw [if_neg c]
        exact hA j1 i1 h1 h2 h3 (by omega)

theorem naive_mark_spec {P d h fuel : Nat} {H : Heap} (up : Bool) (S : Shaped P d H)
    (A : AndInv d H) (hd : d ≤ 32) (hh : h < 2 ^ 32) (hs : h &&& maskOf d = P)
    (hf : d + 1 ≤ fuel) :
    ∃ H1, naive_mark up fuel H h = some H1 ∧ Shaped P d H1 ∧ AndInv d H1 ∧
      ∀ i, i < 2 ^ d → bit H1 d 0 i = if i = h % 2 ^ d then up else bit H d 0 i := by
  obtain ⟨_, hi⟩ := host_split P d h hh hd hs
  have hi0 : h % 2 ^ d < 2 ^ (d - 0) := hi
  obtain ⟨H1, e1, u1⟩ := set_active_spec (S.read_bit (Nat.zero_le d) hi0) up
  have u1 : Upd H (loc d 0 (h % 2 ^ d)) (nodeAt P d 0 (h % 2 ^ d) up) H1 := u1
  obtain ⟨S1, b1⟩ := S.set_bit (Nat.zero_le d) hi0 u1
  obtain ⟨H2, e2, S2, low2, and2⟩ :=
    naive_ripple_spec d 0 (h % 2 ^ d) fuel H1 (by omega) hi0 hf S1
  refine ⟨H2, ?_, S2, ?_, ?_⟩
  · simp only [naive_mark, host_to_node_spec S hd hs, Option.some_bind, e1, e2]
  · apply and2
    intro j1 i1 h1 h2 h3 h4
    have hc1 := child_lt d (j1 - 1) i1 (by
      have : j1 - 1 + 1 = j1 := by omega
      rw [this]
      exact h3) (by omega)
    rw [b1 j1 i1 h2 h3, b1 (j1 - 1) (2 * i1) (by omega) hc1.1,
      b1 (j1 - 1) (2 * i1 + 1) (by omega) hc1.2]
    have n0 : ¬ (j1 = 0 ∧ i1 = h % 2 ^ d) := by omega
    have n1 : ¬ (j1 - 1 = 0 ∧ 2 * i1 = h % 2 ^ d) := by omega
    have n2 : ¬ (j1 - 1 = 0 ∧ 2 * i1 + 1 = h % 2 ^ d) := by omega
    rw [if_neg n0, if_neg n1, if_neg n2]
    exact A j1 i1 h1 h2 h3
  · intro i hi1
    rw [low2 0 i (Nat.le_refl _) hi1, b1 0 i (Nat.zero_le d) hi1]
    simp

/-- C16 (the early stop is sound): in every state of a built tree that satisfies the
AND-invariant (every state reachable by in-subnet updates) and for every in-subnet host
`h`, `mark_host_up(h)`, which stops at the first ancestor whose recomputed value is false,
and `mark_host_down(h)`, which stops at the first node that is already inactive, each end
in exactly the heap that the naive update produces, which sets the flag of leaf `h` and
recomputes `active = l.active && r.active` on every ancestor up to the root. -/
theorem C16_early_stop_sound (addr w fuel : Nat) (ops : List Op) (h : Nat)
    (ha : addr < 2 ^ 32) (hw1 : 16 ≤ w) (hw2 : w ≤ 32) (hf : 32 - w + 2 ≤ fuel)
    (hops : ∀ op ∈ ops, in_subnet addr w op.host = true)
    (hh : in_subnet addr w h = true) :
    ∃ H0 H Hu Hd, main_init fuel addr w = some H0 ∧ run_ops fuel H0 ops = some H ∧
      AndInvariant H ∧
      mark_host_up fuel H h = some Hu ∧ naive_mark true fuel H h = some Hu ∧
      mark_host_down fuel H h = some Hd ∧ naive_mark false fuel H h = some Hd := by
  obtain ⟨H0, H, e0, e, _, _, S, A, b⟩ := reach_spec addr w fuel ops ha hw1 hw2 hf hops
  obtain ⟨h1, h2⟩ := (in_subnet_iff addr w h hw1 hw2).1 hh
  obtain ⟨Hu, eu, Su, Au, bu⟩ := @mark_host_up_spec _ _ _ fuel _ S A (by omega) h1 h2 (by omega)
  obtain ⟨Hu', eu', Su', Au', bu'⟩ :=
    @naive_mark_spec _ _ _ fuel _ true S A (by omega) h1 h2 (by omega)
  obtain ⟨Hd, ed, Sd, Ad, bd⟩ := @mark_host_down_spec _ _ _ fuel _ S A (by omega) h1 h2 hf
  obtain ⟨Hd', ed', Sd', Ad', bd'⟩ :=
    @naive_mark_spec _ _ _ fuel _ false S A (by omega) h1 h2 (by omega)
  have x1 : Hu' = Hu := Su'.eq_of_leaves Su Au' Au (fun i hi => by rw [bu i hi, bu' i hi])
  have x2 : Hd' = Hd := Sd'.eq_of_leaves Sd Ad' Ad (fun i hi => by rw [bd i hi, bd' i hi])
  rw [x1] at eu'
  rw [x2] at ed'
  exact ⟨H0, H, Hu, Hd, e0, e, S.and_invariant A, eu, eu', ed, ed'⟩

theorem C16_early_stop_sound_witness :
    ((∀ op ∈ [Op.up 2163867909, Op.up 2163867908], in_subnet 2163867909 30 op.host = true) ∧
      in_subnet 2163867909 30 2163867910 = true) ∧
      ∃ H0 H Hu Hd, main_init 4 2163867909 30 = some H0 ∧
        run_ops 4 H0 [Op.up 2163867909, Op.up 2163867908] = some H ∧ AndInvariant H ∧
        mark_host_up 4 H 2163867910 = some Hu ∧ naive_mark true 4 H 2163867910 = some Hu ∧
        mark_host_down 4 H 2163867910 = some Hd ∧
        naive_mark false 4 H 2163867910 = some Hd :=
  ⟨⟨by decide, by decide⟩,
    C16_early_stop_sound 2163867909 30 4 [Op.up 2163867909, Op.up 2163867908] 2163867910
      (by decide) (by decide) (by decide) (by decide) (by decide) (by decide)⟩

/-! ## The parent chain of a leaf -/

theorem follow_loc {P d i : Nat} {H : Heap} (S : Shaped P d H) (hi : i < 2 ^ d) :
    ∀ k, k ≤ d → follow_p k H (Ptr.host i) = some (loc d k (i / 2 ^ k)) ∧
      i / 2 ^ k < 2 ^ (d - k) := by
  intro k
  induction k with
  | zero =>
    intro _
    rw [loc_zero, Nat.pow_zero, Nat.div_one]
    exact ⟨rfl, hi⟩
  | succ k ih =>
    intro hk
    obtain ⟨e, l⟩ := ih (by omega)
    have hh := half_lt d k (i / 2 ^ k) (by omega) l
    have hdiv : i / 2 ^ k / 2 = i / 2 ^ (k + 1) := by
      rw [Nat.div_div_eq_div_mul, Nat.pow_succ]
    rw [hdiv] at hh
    refine ⟨?_, hh⟩
    simp only [follow_p, e, Option.some_bind, S.read_bit (by omega) l, Option.map_some',
      nodeAt_p P d k _ _ (by omega), hdiv]

theorem land_ancestor (P d j i : Nat) (hd : d ≤ 32) (hP : 2 ^ d ∣ P) (hPb : P + 2 ^ d ≤ 2 ^ 32)
    (hj : j ≤ d) (hi : i < 2 ^ d) : (P + i) &&& maskOf j = P + i / 2 ^ j * 2 ^ j := by
  rw [land_maskOf _ _ (by omega) (by omega)]
  have hPd : 2 ^ j ∣ P := Dvd.dvd.trans (Nat.pow_dvd_pow 2 hj) hP
  obtain ⟨t, ht⟩ := hPd
  have e : P + i = i + 2 ^ j * t := by omega
  rw [e, Nat.add_mul_div_left _ _ (Nat.pow_pos (by norm_num)), ht]
  ring

/-- C17 (ancestor chain): for every root width `w` in [16,31] and every leaf `hosts[i]` of
the built tree, in every reachable state: the node reached after `j <= 32 - w` steps along
the `p` links has width `32 - j` and prefix `h & width_to_mask(32 - j)`, where `h` is the
address of the leaf; it is the root, whose `p` is NULL, exactly when `j = 32 - w`; and it
has the node of step `j - 1` as its `l` child when bit `j - 1` of `i` is 0 and as its `r`
child when it is 1.  Consequently the ripple loops terminate: `mark_host_up` needs at most
`32 - w` parent steps (`32 - w + 1` evaluations of its loop condition) and
`mark_host_down` at most one evaluation more. -/
theorem C17_ancestor_chain (addr w fuel : Nat) (ops : List Op) (i : Nat) (ha : addr < 2 ^ 32)
    (hw1 : 16 ≤ w) (hw2 : w ≤ 31) (hf : 32 - w + 2 ≤ fuel)
    (hops : ∀ op ∈ ops, in_subnet addr w op.host = true) (hi : i < 2 ^ (32 - w)) :
    ∃ H0 H, main_init fuel addr w = some H0 ∧ run_ops fuel H0 ops = some H ∧
      (∀ j, j ≤ 32 - w → ∃ q n, follow_p j H (Ptr.host i) = some q ∧ H.read q = some n ∧
        n.width = 32 - j ∧
        (∃ m, width_to_mask (32 - j) = some m ∧ n.pfx = (H.root.pfx + i) &&& m) ∧
        (j = 32 - w → q = Ptr.rootp ∧ n.p = Ptr.null) ∧
        (j < 32 - w → q ≠ Ptr.rootp ∧ n.p ≠ Ptr.null) ∧
        (∀ k, j = k + 1 → ∃ q1, follow_p k H (Ptr.host i) = some q1 ∧
          (if i.testBit k then n.r = q1 else n.l = q1))) ∧
      (∃ Hu, mark_host_up (32 - w + 1) H (H.root.pfx + i) = some Hu) ∧
      (∃ Hd, mark_host_down (32 - w + 2) H (H.root.pfx + i) = some Hd) := by
  obtain ⟨H0, H, e0, e, _, _, S, A, b⟩ :=
    reach_spec addr w fuel ops ha hw1 (by omega) hf hops
  obtain ⟨hP, hPb⟩ := aligned_block addr (32 - w) ha (by omega)
  obtain ⟨_, m2, _⟩ := S.root_mask
  have hsub := (subnet_range _ (32 - w) (H.root.pfx + i) (by omega) hP hPb).2
    ⟨by rw [m2]; omega, by rw [m2]; omega⟩
  refine ⟨H0, H, e0, e, ?_, ?_, ?_⟩
  · intro j hj
    obtain ⟨ef, lf⟩ := follow_loc S hi j hj
    refine ⟨_, _, ef, S.read_bit hj lf, rfl, ?_, ?_, ?_, ?_⟩
    · refine ⟨maskOf j, width_to_mask_eq j (by omega), ?_⟩
      rw [m2, land_ancestor _ (32 - w) j i (by omega) hP hPb hj hi]
      rfl
    · intro hjd
      subst hjd
      exact ⟨loc_top _ _ (by omega), nodeAt_p_top _ _ _ _⟩
    · intro hjd
      constructor
      · rw [← loc_top (32 - w) 0 (by omega)]
        intro c
        have := (loc_inj hj lf (Nat.le_refl _) (by simp) c).1
        omega
      · rw [nodeAt_p _ _ _ _ _ hjd]
        exact loc_ne_null _ _ _
    · intro k hk
      subst hk
      obtain ⟨ek, lk⟩ := follow_loc S hi k (by omega)
      refine ⟨_, ek, ?_⟩
      have hdiv : i / 2 ^ k / 2 = i / 2 ^ (k + 1) := by
        rw [Nat.div_div_eq_div_mul, Nat.pow_succ]
      rw [Nat.testBit_to_div_mod, nodeAt_l, nodeAt_r]
      by_cases c : i / 2 ^ k % 2 = 1
      · simp only [c, decide_True, if_true]
        congr 1
        omega
      · simp only [c, decide_False]
        congr 1
        omega
  · obtain ⟨Hu, eu, _⟩ :=
      @mark_host_up_spec _ _ _ (32 - w + 1) _ S A (by omega) hsub.1 hsub.2 (Nat.le_refl _)
    exact ⟨Hu, eu⟩
  · obtain ⟨Hd, ed, _⟩ :=
      @mark_host_down_spec _ _ _ (32 - w + 2) _ S A (by omega) hsub.1 hsub.2 (Nat.le_refl _)
    exact ⟨Hd, ed⟩

theorem C17_ancestor_chain_witness :
    ((∀ op ∈ [Op.up 2163867909], in_subnet 2163867909 30 op.host = true) ∧ 3 < 2 ^ (32 - 30)) ∧
      ∃ H0 H, main_init 4 2163867909 30 = some H0 ∧
        run_ops 4 H0 [Op.up 2163867909] = some H ∧
        (∀ j, j ≤ 32 - 30 → ∃ q n, follow_p j H (Ptr.host 3) = some q ∧ H.read q = some n ∧
          n.width = 32 - j ∧
          (∃ m, width_to_mask (32 - j) = some m ∧ n.pfx = (H.root.pfx + 3) &&& m) ∧
          (j = 32 - 30 → q = Ptr.rootp ∧ n.p = Ptr.null) ∧
          (j < 32 - 30 → q ≠ Ptr.rootp ∧ n.p ≠ Ptr.null) ∧
          (∀ k, j = k + 1 → ∃ q1, follow_p k H (Ptr.host 3) = some q1 ∧
            (if (3 : Nat).testBit k then n.r = q1 else n.l = q1))) ∧
        (∃ Hu, mark_host_up (32 - 30 + 1) H (H.root.pfx + 3) = some Hu) ∧
        (∃ Hd, mark_host_down (32 - 30 + 2) H (H.root.pfx + 3) = some Hd) :=
  ⟨⟨by decide, by decide⟩,
    C17_ancestor_chain 2163867909 30 4 [Op.up 2163867909] 3
      (by decide) (by decide) (by decide) (by decide) (by decide) (by decide)⟩

/-! ## Effect and frame of an update -/

theorem Shaped.static_eq {P d : Nat} {H H1 : Heap} (S : Shaped P d H) (S1 : Shaped P d H1) :
    ∀ q, (H1.read q).map mst_node.static = (H.read q).map mst_node.static := by
  intro q
  rcases ptr_classify d q with ⟨j, i, hj, hi, rfl⟩ | ⟨dpos, t, rfl, h1, h2⟩ | ⟨d0, rfl⟩ | h
  · rw [S.read_bit hj hi, S1.read_bit hj hi]
    rfl
  · rw [S.spare t h1 h2 dpos, S1.spare t h1 h2 dpos]
  · simp only [Heap.read]
    rw [S.root0 d0, S1.root0 d0]
  · rw [S.read_out h, S1.read_out h]

/-- Under the AND-invariant the flag of a node is determined by the leaves below it. -/
theorem bits_local {d : Nat} {H H1 : Heap} (A : AndInv d H) (A1 : AndInv d H1) :
    ∀ j i, j ≤ d → i < 2 ^ (d - j) →
      (∀ x, i * 2 ^ j ≤ x → x < i * 2 ^ j + 2 ^ j → bit H d 0 x = bit H1 d 0 x) →
      bit H d j i = bit H1 d j i := by
  intro j
  induction j with
  | zero =>
    intro i _ _ h
    exact h i (by omega) (by omega)
  | succ j ih =>
    intro i hj hi h
    have hc := child_lt d j i hi (by omega)
    obtain ⟨c1, c2, c3, c4⟩ := child_blocks i j
    rw [A (j + 1) i (by omega) hj hi, A1 (j + 1) i (by omega) hj hi]
    simp only [Nat.add_sub_cancel]
    rw [ih (2 * i) (by omega) hc.1 (fun x x1 x2 => h x (by omega) (by omega)),
      ih (2 * i + 1) (by omega) hc.2 (fun x x1 x2 => h x (by omega) (by omega))]

theorem div_of_range (x i j : Nat) (h1 : i * 2 ^ j ≤ x) (h2 : x < i * 2 ^ j + 2 ^ j) :
    x / 2 ^ j = i := by
  have hp : 0 < 2 ^ j := Nat.pow_pos (by norm_num)
  have e : x = (x - i * 2 ^ j) + 2 ^ j * i := by
    rw [Nat.mul_comm (2 ^ j) i]
    omega
  rw [e, Nat.add_mul_div_left _ _ hp, Nat.div_eq_of_lt (by omega)]
  omega

/-- An update of leaf `i0` that keeps the tree in shape and the AND-invariant valid
changes no static field and no flag off the parent chain of the leaf. -/
theorem update_frame {P d i0 : Nat} {H H1 : Heap} (S : Shaped P d H) (S1 : Shaped P d H1)
    (A : AndInv d H) (A1 : AndInv d H1) (hi0 : i0 < 2 ^ d)
    (hb : ∀ i, i < 2 ^ d → i ≠ i0 → bit H1 d 0 i = bit H d 0 i) :
    ∀ q, (∀ k, follow_p k H (Ptr.host i0) ≠ some q) →
      (H1.read q).map (fun n => n.active) = (H.read q).map (fun n => n.active) := by
  intro q hq
  rcases ptr_classify d q with ⟨j, i, hj, hi, rfl⟩ | ⟨dpos, t, rfl, h1, h2⟩ | ⟨d0, rfl⟩ | h
  · have hne : i ≠ i0 / 2 ^ j := by
      intro c
      apply hq j
      rw [(follow_loc S hi0 j hj).1, c]
    have hbb := block_bound d j i hj hi
    have : bit H1 d j i = bit H d j i := by
      apply bits_local A1 A j i hj hi
      intro x x1 x2
      apply hb x (by omega)
      intro c
      apply hne
      rw [← c]
      exact (div_of_range x i j x1 x2).symm
    rw [S.read_bit hj hi, S1.read_bit hj hi, this]
  · rw [S.spare t h1 h2 dpos, S1.spare t h1 h2 dpos]
  · simp only [Heap.read]
    rw [S.root0 d0, S1.root0 d0]
  · rw [S.read_out h, S1.read_out h]

/-- C15 (effect and frame of an update): for every built tree (root width in [16,32]), in
every reachable state and for every in-subnet host `h`, `mark_host_up(h)` leaves leaf `h`
active and `mark_host_down(h)` leaves it inactive; neither call changes the width, mask,
prefix, `l`, `r` or `p` field of any node, and neither changes the active flag of a node
that is not on the chain of `p` links starting at leaf `h`; in particular the active flag
of every other leaf is unchanged. -/
theorem C15_effect_and_frame (addr w fuel : Nat) (ops : List Op) (h : Nat)
    (ha : addr < 2 ^ 32) (hw1 : 16 ≤ w) (hw2 : w ≤ 32) (hf : 32 - w + 2 ≤ fuel)
    (hops : ∀ op ∈ ops, in_subnet addr w op.host = true)
    (hh : in_subnet addr w h = true) :
    ∃ H0 H Hu Hd leaf, main_init fuel addr w = some H0 ∧ run_ops fuel H0 ops = some H ∧
      host_to_node H h = some leaf ∧
      mark_host_up fuel H h = some Hu ∧ mark_host_down fuel H h = some Hd ∧
      (Hu.read leaf).map (fun n => n.active) = some true ∧
      (Hd.read leaf).map (fun n => n.active) = some false ∧
      (∀ q, (Hu.read q).map mst_node.static = (H.read q).map mst_node.static ∧
        (Hd.read q).map mst_node.static = (H.read q).map mst_node.static) ∧
      (∀ q, (∀ k, follow_p k H leaf ≠ some q) →
        (Hu.read q).map (fun n => n.active) = (H.read q).map (fun n => n.active) ∧
        (Hd.read q).map (fun n => n.active) = (H.read q).map (fun n => n.active)) ∧
      (∀ i, Ptr.host i ≠ leaf →
        (Hu.read (Ptr.host i)).map (fun n => n.active)
            = (H.read (Ptr.host i)).map (fun n => n.active) ∧
        (Hd.read (Ptr.host i)).map (fun n => n.active)
            = (H.read (Ptr.host i)).map (fun n => n.active)) := by
  obtain ⟨H0, H, e0, e, _, _, S, A, b⟩ := reach_spec addr w fuel ops ha hw1 hw2 hf hops
  obtain ⟨h1, h2⟩ := (in_subnet_iff addr w h hw1 hw2).1 hh
  obtain ⟨Hu, eu, Su, Au, bu⟩ := @mark_host_up_spec _ _ _ fuel _ S A (by omega) h1 h2 (by omega)
  obtain ⟨Hd, ed, Sd, Ad, bd⟩ := @mark_host_down_spec _ _ _ fuel _ S A (by omega) h1 h2 hf
  obtain ⟨_, hlt⟩ := host_split _ (32 - w) h h1 (by omega) h2
  have hn := host_to_node_spec S (by omega) h2
  have hlt0 : h % 2 ^ (32 - w) < 2 ^ (32 - w - 0) := hlt
  have fu : ∀ i, i < 2 ^ (32 - w) → i ≠ h % 2 ^ (32 - w) →
      bit Hu (32 - w) 0 i = bit H (32 - w) 0 i := by
    intro i hi hne
    rw [bu i hi, if_neg hne]
  have fd : ∀ i, i < 2 ^ (32 - w) → i ≠ h % 2 ^ (32 - w) →
      bit Hd (32 - w) 0 i = bit H (32 - w) 0 i := by
    intro i hi hne
    rw [bd i hi, if_neg hne]
  have frame_u := update_frame S Su A Au hlt fu
  have frame_d := update_frame S Sd A Ad hlt fd
  refine ⟨H0, H, Hu, Hd, _, e0, e, hn, eu, ed, ?_, ?_, ?_, ?_, ?_⟩
  · rw [Su.read_bit (Nat.zero_le _) hlt0, Option.map_some', nodeAt_active, bu _ hlt,
      if_pos rfl]
  · rw [Sd.read_bit (Nat.zero_le _) hlt0, Option.map_some', nodeAt_active, bd _ hlt,
      if_pos rfl]
  · intro q
    exact ⟨S.static_eq Su q, S.static_eq Sd q⟩
  · intro q hq
    rw [loc_zero] at hq
    exact ⟨frame_u q hq, frame_d q hq⟩
  · intro i hne
    rw [loc_zero] at hne
    have hne2 : i ≠ h % 2 ^ (32 - w) := fun c => hne (by rw [c])
    rcases Nat.lt_or_ge i (2 ^ (32 - w)) with c | c
    · have c0 : i < 2 ^ (32 - w - 0) := c
      have r0 := S.read_bit (Nat.zero_le _) c0
      have ru := Su.read_bit (Nat.zero_le _) c0
      have rd := Sd.read_bit (Nat.zero_le _) c0
      rw [loc_zero] at r0 ru rd
      rw [r0, ru, rd, fu i c hne2, fd i c hne2]
      exact ⟨rfl, rfl⟩
    · have o : Ptr.host i = Ptr.null ∨ (∃ i1, Ptr.host i = Ptr.host i1 ∧ 2 ^ (32 - w) ≤ i1) ∨
          (∃ t, Ptr.host i = Ptr.tnode t ∧ (if 32 - w = 0 then 0 else 2 ^ (32 - w)) ≤ t) :=
        Or.inr (Or.inl ⟨i, rfl, c⟩)
      rw [S.read_out o, Su.read_out o, Sd.read_out o]
      exact ⟨rfl, rfl⟩

theorem C15_effect_and_frame_witness :
    ((∀ op ∈ [Op.up 2163867909, Op.up 2163867908], in_subnet 2163867909 30 op.host = true) ∧
      in_subnet 2163867909 30 2163867910 = true) ∧
      ∃ H0 H Hu Hd leaf, main_init 4 2163867909 30 = some H0 ∧
        run_ops 4 H0 [Op.up 2163867909, Op.up 2163867908] = some H ∧
        host_to_node H 2163867910 = some leaf ∧
        mark_host_up 4 H 2163867910 = some Hu ∧ mark_host_down 4 H 2163867910 = some Hd ∧
        (Hu.read leaf).map (fun n => n.active) = some true ∧
        (Hd.read leaf).map (fun n => n.active) = some false ∧
        (∀ q, (Hu.read q).map mst_node.static = (H.read q).map mst_node.static ∧
          (Hd.read q).map mst_node.static = (H.read q).map mst_node.static) ∧
        (∀ q, (∀ k, follow_p k H leaf ≠ some q) →
          (Hu.read q).map (fun n => n.active) = (H.read q).map (fun n => n.active) ∧
          (Hd.read q).map (fun n => n.active) = (H.read q).map (fun n => n.active)) ∧
        (∀ i, Ptr.host i ≠ leaf →
          (Hu.read (Ptr.host i)).map (fun n => n.active)
              = (H.read (Ptr.host i)).map (fun n => n.active) ∧
          (Hd.read (Ptr.host i)).map (fun n => n.active)
              = (H.read (Ptr.host i)).map (fun n => n.active)) :=
  ⟨⟨by decide, by decide⟩,
    C15_effect_and_frame 2163867909 30 4 [Op.up 2163867909, Op.up 2163867908] 2163867910
      (by decide) (by decide) (by decide) (by decide) (by decide) (by decide)⟩

/-! ## Construction is total and in bounds -/

theorem populate_tree_short {P d : Nat} (hd : d ≤ 16) (hP : 2 ^ d ∣ P)
    (hPb : P + 2 ^ d ≤ 2 ^ 32) :
    ∀ n m fuel H, d = m + 1 + n → fuel ≤ n → Stage P d m 0 H →
      populate_tree fuel H (levelBase d m) (2 ^ (d - (m + 1))) (levelBase d (m + 1)) = none := by
  intro n
  induction n with
  | zero =>
    intro m fuel H _ hf _
    have : fuel = 0 := by omega
    subst this
    rfl
  | succ n ih =>
    intro m fuel H hdm hf S
    rcases Nat.eq_zero_or_pos fuel with f0 | fpos
    · subst f0
      rfl
    · obtain ⟨f, rfl⟩ : ∃ f, fuel = f + 1 := ⟨fuel - 1, by omega⟩
      have hlev := pow_level_succ d (m + 1) (by omega)
      have hpos := pow_level_pos d (m + 1 + 1)
      have hne : 2 ^ (d - (m + 1)) ≠ 1 := by omega
      obtain ⟨H1, e1, S1⟩ := stage_loop hd hP hPb (by omega) S _ (Nat.le_refl _)
      have S2 := stage_next (by omega) S1
      have hshift : 2 ^ (d - (m + 1)) >>> 1 = 2 ^ (d - (m + 1 + 1)) := by
        rw [Nat.shiftRight_eq_div_pow, hlev]
        omega
      have hbase : (levelBase d (m + 1)).idx (2 ^ (d - (m + 1))) = levelBase d (m + 1 + 1) := by
        have htop := pow_level_two_le d (m + 1) (by omega) (by omega)
        simp only [levelBase, Nat.add_one_ne_zero, if_false, Ptr.idx, Ptr.tnode.injEq]
        omega
      simp only [populate_tree, if_neg hne, e1, Option.some_bind, hshift, hbase]
      exact ih (m + 1) f H1 (by omega) (by omega) S2

theorem main_init_short (addr w fuel : Nat) (ha : addr < 2 ^ 32) (hw1 : 16 ≤ w) (hw2 : w ≤ 31)
    (hf : fuel < 32 - w) : main_init fuel addr w = none := by
  obtain ⟨hP, hPb⟩ := aligned_block addr (32 - w) ha (by omega)
  have hd : 32 - w ≤ 16 := by omega
  have dpos : 0 < 32 - w := by omega
  have hm : width_to_mask w = some (maskOf (32 - w)) := by
    have := width_to_mask_eq (32 - w) (by omega)
    have e : 32 - (32 - w) = w := by omega
    rwa [e] at this
  have hn : ¬ (w < 16 ∨ w > 32) := by omega
  have hN2 : 2 ≤ 2 ^ (32 - w) := by
    calc 2 = 2 ^ 1 := by norm_num
      _ ≤ 2 ^ (32 - w) := Nat.pow_le_pow_right (by norm_num) dpos
  have hN16 : 2 ^ (32 - w) ≤ 65536 := by
    calc 2 ^ (32 - w) ≤ 2 ^ 16 := Nat.pow_le_pow_right (by norm_num) hd
      _ = 65536 := by norm_num
  have hw : w < 32 := by omega
  have hnum : (1 <<< (32 - w)) % U32 = 2 ^ (32 - w) := by
    rw [Nat.shiftLeft_eq, Nat.one_mul, Nat.mod_eq_of_lt]
    simp only [U32]
    omega
  have hne : 2 ^ (32 - w) ≠ 1 := by omega
  have hz : ∀ i, i < 2 ^ (32 - w) →
      Heap.read { root := { mst_node.zero with
                    pfx := addr &&& maskOf (32 - w), width := w, mask := maskOf (32 - w) },
                  hosts := List.replicate (2 ^ (32 - w)) mst_node.zero,
                  tree_nodes := [] } (Ptr.host i) = some mst_node.zero := by
    intro i hi
    simp [Heap.read, List.getElem?_replicate, hi]
  obtain ⟨H1, e1, l1, _, rd⟩ := build_host_loop hPb rfl hz (2 ^ (32 - w)) (Nat.le_refl _)
  have S : Stage (addr &&& maskOf (32 - w)) (32 - w) 0 0
      { H1 with tree_nodes := List.replicate (2 ^ (32 - w)) mst_node.zero } := by
    refine ⟨?_, ?_, ?_, ?_, ?_, ?_⟩
    · rw [l1]
      simp
    · simp
    · have := rd Ptr.rootp
      simp only [Heap.read, Option.some.injEq] at this
      have e : 32 - (32 - w) = w := by omega
      simp [this, rootInit, e]
    · intro j i hj hi
      have j0 : j = 0 := by omega
      subst j0
      have hi : i < 2 ^ (32 - w) := hi
      have := rd (Ptr.host i)
      simp only [hi, if_true] at this
      simp only [loc_zero, Nat.lt_irrefl, Nat.mul_zero, Nat.not_lt_zero, or_self,
        decide_False, nodeAt_leaf]
      simpa [Heap.read] using this
    · intro i hi
      omega
    · intro t _ ht2
      simp [Heap.read, List.getElem?_replicate, ht2]
  have key := populate_tree_short hd hP hPb (32 - w - 1) 0 fuel _ (by omega) (by omega) S
  have hshift : 2 ^ (32 - w) >>> 1 = 2 ^ (32 - w - (0 + 1)) := by
    have := pow_level_succ (32 - w) 0 dpos
    rw [Nat.shiftRight_eq_div_pow]
    simp only [Nat.sub_zero] at this
    omega
  have hb0 : Ptr.host 0 = levelBase (32 - w) 0 := by simp [levelBase]
  have hb1 : Ptr.tnode 0 = levelBase (32 - w) (0 + 1) := by
    have := pow_level_succ (32 - w) 0 dpos
    simp only [Nat.sub_zero] at this
    simp only [levelBase, Nat.add_one_ne_zero, if_false, Ptr.tnode.injEq]
    omega
  simp only [main_init, if_neg hn, hm, Option.some_bind, build_mst, hw, if_true, hnum, hN16,
    build_host_list, if_neg hne, e1, hshift, hb0, hb1, key]

/-- C19 (construction is total and in bounds): for every root width `w` in [16,31], with
`N = 2^(32-w)`, the construction terminates after exactly `32 - w` calls of
`populate_tree` (`len` is halved down to exactly 1), without any out-of-bounds access and
without a failed `width_to_mask` assertion.  Level `j` (`1 <= j < 32 - w`) is written to
the slice of `tree_nodes` that starts at `N - 2 * 2^(32-w-j)` and has `2^(32-w-j)`
elements; its node `i` has the children `subs[2i]` and `subs[2i+1]` inside the level below
and a width in [16,32] whose mask is `width_to_mask` of it; the slices follow one another
without overlap inside the array; exactly the first `N - 2` elements of `tree_nodes` are
used as internal nodes and the last two stay zero. -/
theorem C19_construction_in_bounds (addr w : Nat) (ha : addr < 2 ^ 32) (hw1 : 16 ≤ w)
    (hw2 : w ≤ 31) :
    ∃ H, main_init (32 - w) addr w = some H ∧
      (∀ fuel, fuel < 32 - w → main_init fuel addr w = none) ∧
      H.hosts.length = 2 ^ (32 - w) ∧ H.tree_nodes.length = 2 ^ (32 - w) ∧
      (∀ j i, 1 ≤ j → j < 32 - w → i < 2 ^ (32 - w - j) →
        2 ^ (32 - w) - 2 * 2 ^ (32 - w - j) + i < 2 ^ (32 - w) - 2 ∧
        2 * i + 1 < 2 ^ (32 - w - (j - 1)) ∧
        ∃ n, H.read (Ptr.tnode (2 ^ (32 - w) - 2 * 2 ^ (32 - w - j) + i)) = some n ∧
          n.l = (levelBase (32 - w) (j - 1)).idx (2 * i) ∧
          n.r = (levelBase (32 - w) (j - 1)).idx (2 * i + 1) ∧
          n.width = 32 - j ∧ 16 ≤ n.width ∧ n.width ≤ 32 ∧
          width_to_mask n.width = some n.mask) ∧
      (∀ j, 1 ≤ j → j + 1 < 32 - w →
        2 ^ (32 - w) - 2 * 2 ^ (32 - w - j) + 2 ^ (32 - w - j)
          = 2 ^ (32 - w) - 2 * 2 ^ (32 - w - (j + 1))) ∧
      (∀ t, t < 2 ^ (32 - w) - 2 → ∃ n, H.read (Ptr.tnode t) = some n ∧ n.l ≠ Ptr.null) ∧
      (∀ t, 2 ^ (32 - w) - 2 ≤ t → t < 2 ^ (32 - w) →
        H.read (Ptr.tnode t) = some mst_node.zero) := by
  obtain ⟨H, e0, S, r⟩ := main_init_spec addr w (32 - w) ha hw1 (by omega) (Nat.le_refl _)
  have dpos : 0 < 32 - w := by omega
  have dne : 32 - w ≠ 0 := by omega
  have tl : H.tree_nodes.length = 2 ^ (32 - w) := by
    rw [S.tree_len, if_neg dne]
  refine ⟨H, e0, fun fuel hf => main_init_short addr w fuel ha hw1 hw2 hf, S.hosts_len, tl,
    ?_, ?_, ?_, ?_⟩
  · intro j i hj1 hj2 hi
    have hc := child_lt (32 - w) (j - 1) i (by
      have : j - 1 + 1 = j := by omega
      rw [this]
      exact hi) (by omega)
    have t1 := pow_level_two_le (32 - w) j (by omega) (by omega)
    have t2 := pow_level_le (32 - w) j (32 - w - 1) (by omega)
    have t3 : 2 ^ (32 - w - (32 - w - 1)) = 2 := by
      have : 32 - w - (32 - w - 1) = 1 := by omega
      rw [this]
      rfl
    refine ⟨by omega, hc.2, ?_⟩
    have hr := r j i (by omega) hi
    rw [loc_mid (32 - w) j i hj1 hj2] at hr
    obtain ⟨k, rfl⟩ : ∃ k, j = k + 1 := ⟨j - 1, by omega⟩
    refine ⟨_, hr, ?_, ?_, rfl, ?_, ?_, ?_⟩
    · rw [nodeAt_l, Nat.add_sub_cancel, levelBase_idx _ _ _ (by omega)]
    · rw [nodeAt_r, Nat.add_sub_cancel, levelBase_idx _ _ _ (by omega)]
    · simp only [nodeAt]
      omega
    · simp only [nodeAt]
      omega
    · exact width_to_mask_eq (k + 1) (by omega)
  · intro j hj1 hj2
    have t1 := pow_level_two_le (32 - w) j (by omega) (by omega)
    have t2 := pow_level_succ (32 - w) j (by omega)
    omega
  · intro t ht
    have e : 2 ^ (32 - w - (32 - w - 1 + 1)) = 1 := by
      have : 32 - w - (32 - w - 1 + 1) = 0 := by omega
      rw [this]
      rfl
    obtain ⟨j, i, h1, h2, h3, h4⟩ :=
      tnode_coords (32 - w) (32 - w - 1) (by omega) t (by rw [e]; omega)
    obtain ⟨k, rfl⟩ : ∃ k, j = k + 1 := ⟨j - 1, by omega⟩
    refine ⟨_, by rw [h4]; exact r (k + 1) i (by omega) h3, ?_⟩
    rw [nodeAt_l]
    exact loc_ne_null _ _ _
  · intro t h1 h2
    exact S.spare t h1 h2 dpos

theorem C19_construction_in_bounds_witness :
    ∃ H, main_init (32 - 29) 2163867909 29 = some H ∧
      (∀ fuel, fuel < 32 - 29 → main_init fuel 2163867909 29 = none) ∧
      H.hosts.length = 2 ^ (32 - 29) ∧ H.tree_nodes.length = 2 ^ (32 - 29) ∧
      (∀ j i, 1 ≤ j → j < 32 - 29 → i < 2 ^ (32 - 29 - j) →
        2 ^ (32 - 29) - 2 * 2 ^ (32 - 29 - j) + i < 2 ^ (32 - 29) - 2 ∧
        2 * i + 1 < 2 ^ (32 - 29 - (j - 1)) ∧
        ∃ n, H.read (Ptr.tnode (2 ^ (32 - 29) - 2 * 2 ^ (32 - 29 - j) + i)) = some n ∧
          n.l = (levelBase (32 - 29) (j - 1)).idx (2 * i) ∧
          n.r = (levelBase (32 - 29) (j - 1)).idx (2 * i + 1) ∧
          n.width = 32 - j ∧ 16 ≤ n.width ∧ n.width ≤ 32 ∧
          width_to_mask n.width = some n.mask) ∧
      (∀ j, 1 ≤ j → j + 1 < 32 - 29 →
        2 ^ (32 - 29) - 2 * 2 ^ (32 - 29 - j) + 2 ^ (32 - 29 - j)
          = 2 ^ (32 - 29) - 2 * 2 ^ (32 - 29 - (j + 1))) ∧
      (∀ t, t < 2 ^ (32 - 29) - 2 → ∃ n, H.read (Ptr.tnode t) = some n ∧ n.l ≠ Ptr.null) ∧
      (∀ t, 2 ^ (32 - 29) - 2 ≤ t → t < 2 ^ (32 - 29) →
        H.read (Ptr.tnode t) = some mst_node.zero) :=
  C19_construction_in_bounds 2163867909 29 (by decide) (by decide) (by decide)

/-! ## A whole block up -/

theorem most_recent_up_of_ups (ops : List Op) (hall : ∀ op ∈ ops, op.is_up = true) (a : Nat) :
    most_recent_up ops a = true ↔ ∃ op ∈ ops, op.host = a := by
  unfold most_recent_up
  cases hf : ops.reverse.find? (fun op => decide (op.host = a)) with
  | none =>
    simp only [Bool.false_eq_true, false_iff]
    rintro ⟨op, hm, hh⟩
    have := List.find?_eq_none.1 hf op (List.mem_reverse.2 hm)
    simp [hh] at this
  | some op =>
    have hm : op ∈ ops := List.mem_reverse.1 (List.mem_of_find?_eq_some hf)
    have hh := List.find?_some hf
    simp only [decide_eq_true_eq] at hh
    simp only [hall op hm, true_iff]
    exact ⟨op, hm, hh⟩

theorem all_up_conv {d : Nat} {H : Heap} (A : AndInv d H) (j i : Nat) (hj : j ≤ d)
    (hi : i < 2 ^ (d - j))
    (h : ∀ x, i * 2 ^ j ≤ x → x < i * 2 ^ j + 2 ^ j → bit H d 0 x = true) :
    bit H d j i = true := by
  cases hb : bit H d j i
  · obtain ⟨x, x1, x2, x3⟩ := some_down A j i hj hi hb
    rw [h x x1 x2] at x3
    cases x3
  · rfl

theorem emit_none {P d : Nat} {H : Heap} (A : AndInv d H) :
    ∀ j i, j ≤ d → i < 2 ^ (d - j) →
      (∀ x, i * 2 ^ j ≤ x → x < i * 2 ^ j + 2 ^ j → bit H d 0 x = false) →
      emit P (bit H d) j i = [] := by
  intro j
  induction j with
  | zero =>
    intro i _ _ h
    exact emit_leaf_down P _ i (h i (by omega) (by omega))
  | succ j ih =>
    intro i hj hi h
    have hc := child_lt d j i hi (by omega)
    obtain ⟨c1, c2, c3, c4⟩ := child_blocks i j
    have hp : 0 < 2 ^ j := Nat.pow_pos (by norm_num)
    have hb : bit H d (j + 1) i = false := by
      cases hb : bit H d (j + 1) i
      · rfl
      · have := all_up A (j + 1) i hj hi hb (i * 2 ^ (j + 1)) (Nat.le_refl _) (by omega)
        rw [h _ (Nat.le_refl _) (by omega)] at this
        cases this
    rw [emit_inactive P _ j i hb,
      ih (2 * i) (by omega) hc.1 (fun x x1 x2 => h x (by omega) (by omega)),
      ih (2 * i + 1) (by omega) hc.2 (fun x x1 x2 => h x (by omega) (by omega))]
    rfl

/-- When exactly the leaves of the block `(j0, i0)` are up, a node whose range contains that
block prints exactly that block. -/
theorem emit_block {P d j0 i0 : Nat} {H : Heap} (A : AndInv d H) :
    ∀ j i, j ≤ d → i < 2 ^ (d - j) → j0 ≤ j →
      i * 2 ^ j ≤ i0 * 2 ^ j0 → i0 * 2 ^ j0 + 2 ^ j0 ≤ i * 2 ^ j + 2 ^ j →
      (∀ x, i * 2 ^ j ≤ x → x < i * 2 ^ j + 2 ^ j →
        (bit H d 0 x = true ↔ (i0 * 2 ^ j0 ≤ x ∧ x < i0 * 2 ^ j0 + 2 ^ j0))) →
      emit P (bit H d) j i = [blk P j0 i0] := by
  have same : ∀ j i, j ≤ d → i < 2 ^ (d - j) → j0 = j →
      i * 2 ^ j ≤ i0 * 2 ^ j0 → i0 * 2 ^ j0 + 2 ^ j0 ≤ i * 2 ^ j + 2 ^ j →
      (∀ x, i * 2 ^ j ≤ x → x < i * 2 ^ j + 2 ^ j →
        (bit H d 0 x = true ↔ (i0 * 2 ^ j0 ≤ x ∧ x < i0 * 2 ^ j0 + 2 ^ j0))) →
      emit P (bit H d) j i = [blk P j0 i0] := by
    intro j i hj hi hj0 h1 h2 h
    subst hj0
    have hp : 0 < 2 ^ j0 := Nat.pow_pos (by norm_num)
    have e : i * 2 ^ j0 = i0 * 2 ^ j0 := by omega
    have ei : i = i0 := Nat.eq_of_mul_eq_mul_right hp e
    subst ei
    exact emit_active P _ j0 i (all_up_conv A j0 i hj hi
      (fun x x1 x2 => (h x x1 x2).2 ⟨x1, x2⟩))
  intro j
  induction j with
  | zero =>
    intro i hj hi hj0 h1 h2 h
    exact same 0 i hj hi (by omega) h1 h2 h
  | succ j ih =>
    intro i hj hi hj0 h1 h2 h
    rcases Nat.eq_or_lt_of_le hj0 with c | c
    · exact same (j + 1) i hj hi c h1 h2 h
    · have hc := child_lt d j i hi (by omega)
      obtain ⟨c1, c2, c3, c4⟩ := child_blocks i j
      have hp : 0 < 2 ^ j := Nat.pow_pos (by norm_num)
      have hp0 : 0 < 2 ^ j0 := Nat.pow_pos (by norm_num)
      have hle : 2 ^ j0 ≤ 2 ^ j := Nat.pow_le_pow_right (by norm_num) (by omega)
      have hdv : 2 ^ j0 ∣ 2 ^ j := Nat.pow_dvd_pow 2 (by omega)
      have hb : bit H d (j + 1) i = false := by
        cases hb : bit H d (j + 1) i
        · rfl
        · exfalso
          rcases Nat.lt_or_ge (i * 2 ^ (j + 1)) (i0 * 2 ^ j0) with c5 | c5
          · have := all_up A (j + 1) i hj hi hb (i * 2 ^ (j + 1)) (Nat.le_refl _) (by omega)
            have := (h _ (Nat.le_refl _) (by omega)).1 this
            omega
          · have := all_up A (j + 1) i hj hi hb (i * 2 ^ (j + 1) + 2 ^ (j + 1) - 1)
              (by omega) (by omega)
            have := (h _ (by omega) (by omega)).1 this
            omega
      rw [emit_inactive P _ j i hb]
      have dmid : 2 ^ j0 ∣ (2 * i + 1) * 2 ^ j := Dvd.dvd.mul_left hdv _
      have db : 2 ^ j0 ∣ i0 * 2 ^ j0 := Dvd.intro_left _ rfl
      rcases Nat.lt_or_ge (i0 * 2 ^ j0) ((2 * i + 1) * 2 ^ j) with c5 | c5
      · have hstep := multiple_step _ _ _ db dmid c5
        rw [ih (2 * i) (by omega) hc.1 (by omega) (by omega) (by omega)
            (fun x x1 x2 => h x (by omega) (by omega)),
          emit_none A j (2 * i + 1) (by omega) hc.2 (fun x x1 x2 => by
            cases hx : bit H d 0 x
            · rfl
            · have := (h x (by omega) (by omega)).1 hx
              omega)]
        rfl
      · rw [ih (2 * i + 1) (by omega) hc.2 (by omega) (by omega) (by omega)
            (fun x x1 x2 => h x (by omega) (by omega)),
          emit_none A j (2 * i) (by omega) hc.1 (fun x x1 x2 => by
            cases hx : bit H d 0 x
            · rfl
            · have := (h x (by omega) (by omega)).1 hx
              omega)]
        rfl

/-- C13 (a whole block up gives one prefix): for every root width `w` in [16,31] and every
CIDR block `(q, k)` with `w <= k <= 32` inside the root block, starting from the freshly
built tree and marking up exactly the hosts of that block, in any order and any number of
times, `print_mst(root)` prints exactly the single entry `(q, k)`. -/
theorem C13_whole_block_up (addr w fuel : Nat) (ops : List Op) (q k : Nat)
    (ha : addr < 2 ^ 32) (hw1 : 16 ≤ w) (hw2 : w ≤ 31) (hf : 32 - w + 2 ≤ fuel)
    (hk1 : w ≤ k) (hk2 : k ≤ 32) (hq : q % 2 ^ (32 - k) = 0)
    (hqs : in_subnet addr w q = true)
    (hall : ∀ op ∈ ops, op.is_up = true ∧ in_block (q, k) op.host)
    (hevery : ∀ a, in_block (q, k) a → Op.up a ∈ ops) :
    ∃ H0 H out, main_init fuel addr w = some H0 ∧ run_ops fuel H0 ops = some H ∧
      print_mst fuel H Ptr.rootp = some out ∧ blocks out = [(q, k)] := by
  obtain ⟨hP, hPb⟩ := aligned_block addr (32 - w) ha (by omega)
  have hqr := (subnet_range _ (32 - w) q (by omega) hP hPb).1
    ((in_subnet_iff addr w q hw1 (by omega)).1 hqs)
  have hqd : 2 ^ (32 - k) ∣ q := Nat.dvd_of_mod_eq_zero hq
  have hPk : 2 ^ (32 - k) ∣ addr &&& maskOf (32 - w) :=
    Dvd.dvd.trans (Nat.pow_dvd_pow 2 (by omega)) hP
  have hend : q + 2 ^ (32 - k) ≤ (addr &&& maskOf (32 - w)) + 2 ^ (32 - w) :=
    multiple_step _ _ _ hqd (Dvd.dvd.add hPk (Nat.pow_dvd_pow 2 (by omega))) hqr.2
  have hops : ∀ op ∈ ops, in_subnet addr w op.host = true := by
    intro op hop
    have := (hall op hop).2
    rw [in_subnet_iff addr w _ hw1 (by omega), subnet_range _ _ _ (by omega) hP hPb]
    unfold in_block at this
    simp only at this
    omega
  obtain ⟨H0, H, e0, e, _, _, S, A, b⟩ :=
    reach_spec addr w fuel ops ha hw1 (by omega) hf hops
  obtain ⟨out, eo, em⟩ := print_root S hPb (by omega) hf
  refine ⟨H0, H, out, e0, e, eo, ?_⟩
  obtain ⟨t, ht⟩ : 2 ^ (32 - k) ∣ q - (addr &&& maskOf (32 - w)) := Nat.dvd_sub' hqd hPk
  have hqe : q = (addr &&& maskOf (32 - w)) + t * 2 ^ (32 - k) := by
    rw [Nat.mul_comm]
    omega
  have hblk : blk (addr &&& maskOf (32 - w)) (32 - k) t = (q, k) := by
    have : 32 - (32 - k) = k := by omega
    simp only [blk, this, ← hqe]
  have hpos : 0 < 2 ^ (32 - w - (32 - w)) := Nat.pow_pos (by norm_num)
  have hle : 2 ^ (32 - k) ≤ 2 ^ (32 - w) := Nat.pow_le_pow_right (by norm_num) (by omega)
  rw [blocks, em, @emit_block (addr &&& maskOf (32 - w)) (32 - w) (32 - k) t H A (32 - w) 0
    (Nat.le_refl _) hpos (by omega) (by omega) (by omega), hblk]
  intro x x1 x2
  simp only [Nat.zero_mul, Nat.zero_add] at x2
  rw [b x x2, most_recent_up_of_ups ops (fun op hop => (hall op hop).1)]
  constructor
  · rintro ⟨op, hop, hh⟩
    have := (hall op hop).2
    rw [hh] at this
    unfold in_block at this
    simp only at this
    omega
  · rintro ⟨y1, y2⟩
    exact ⟨Op.up ((addr &&& maskOf (32 - w)) + x), hevery _ ⟨by simp only; omega,
      by simp only; omega⟩, rfl⟩

theorem C13_whole_block_up_witness :
    ∃ H0 H out, main_init 10 2163867904 24 = some H0 ∧
      run_ops 10 H0 ((List.range 128).map fun i => Op.up (2163867904 + i)) = some H ∧
      print_mst 10 H Ptr.rootp = some out ∧ blocks out = [(2163867904, 25)] :=
  C13_whole_block_up 2163867904 24 10 ((List.range 128).map fun i => Op.up (2163867904 + i))
    2163867904 25 (by decide) (by decide) (by decide) (by decide) (by decide) (by decide)
    (by decide) (by decide)
    (by
      intro op hop
      obtain ⟨i, hi, rfl⟩ := List.mem_map.1 hop
      have hi := List.mem_range.1 hi
      refine ⟨rfl, ?_⟩
      simp only [in_block, Op.host]
      omega)
    (by
      intro a hin
      have h1 : 2163867904 ≤ a := hin.1
      have h2 : a < 2163867904 + 128 := hin.2
      have h3 : a - 2163867904 < 128 := by omega
      have h4 : 2163867904 + (a - 2163867904) = a := by omega
      have h5 : Op.up (2163867904 + (a - 2163867904)) = Op.up a := by rw [h4]
      exact List.mem_map.2 ⟨a - 2163867904, List.mem_range.2 h3, h5⟩)

/-! ## One host down -/

theorem xor_flip_even (z t : Nat) : (2 ^ (t + 1) * z) ^^^ 2 ^ t = 2 ^ (t + 1) * z + 2 ^ t := by
  have hlt : 2 ^ t < 2 ^ (t + 1) := Nat.pow_lt_pow_right (by norm_num) (by omega)
  apply Nat.eq_of_testBit_eq
  intro n
  rw [Nat.testBit_xor, Nat.testBit_mul_pow_two_add z hlt n, Nat.testBit_mul_pow_two,
    Nat.testBit_two_pow]
  by_cases h : n < t + 1
  · have h1 : ¬ n ≥ t + 1 := by omega
    simp [h, h1]
  · have h1 : n ≥ t + 1 := by omega
    have h2 : ¬ t = n := by omega
    simp [h, h1, h2]

theorem xor_flip_odd (z t : Nat) : (2 ^ (t + 1) * z + 2 ^ t) ^^^ 2 ^ t = 2 ^ (t + 1) * z := by
  rw [← xor_flip_even z t, Nat.xor_assoc, Nat.xor_self, Nat.xor_zero]

theorem xor_sibling (P d t c : Nat) (hP : 2 ^ d ∣ P) (ht : t < d) :
    (P + c * 2 ^ t) ^^^ 2 ^ t = P + sibling c * 2 ^ t := by
  obtain ⟨u, hu⟩ : 2 ^ (t + 1) ∣ P := Dvd.dvd.trans (Nat.pow_dvd_pow 2 (by omega)) hP
  have hc := Nat.div_add_mod c 2
  have hpow : 2 ^ (t + 1) = 2 * 2 ^ t := by rw [Nat.pow_succ]; ring
  unfold sibling
  by_cases h : c % 2 = 0
  · rw [if_pos h]
    have e1 : P + c * 2 ^ t = 2 ^ (t + 1) * (u + c / 2) := by
      have : c = 2 * (c / 2) := by omega
      rw [hu, hpow]
      nth_rewrite 1 [this]
      ring
    rw [e1, xor_flip_even, ← e1]
    ring
  · rw [if_neg h]
    have e0 : c = 2 * (c / 2) + 1 := by omega
    have e1 : P + c * 2 ^ t = 2 ^ (t + 1) * (u + c / 2) + 2 ^ t := by
      rw [hu, hpow]
      nth_rewrite 1 [e0]
      ring
    have e2 : P + (c - 1) * 2 ^ t = 2 ^ (t + 1) * (u + c / 2) := by
      have : c - 1 = 2 * (c / 2) := by omega
      rw [this, hu, hpow]
      ring
    rw [e1, xor_flip_odd, e2]

/-- When every leaf but `i0` is up, the node above `i0` on level `j` prints, in some order,
the sibling blocks of the `j` levels below it. -/
theorem emit_one_down {P d i0 : Nat} {H : Heap} (A : AndInv d H) (hi0 : i0 < 2 ^ d)
    (hb : ∀ x, x < 2 ^ d → (bit H d 0 x = true ↔ x ≠ i0)) :
    ∀ j, j ≤ d → List.Perm (emit P (bit H d) j (i0 / 2 ^ j))
      ((List.range j).map fun t => blk P t (sibling (i0 / 2 ^ t))) := by
  have hlev : ∀ j, j ≤ d → i0 / 2 ^ j < 2 ^ (d - j) := by
    intro j hj
    rw [Nat.div_lt_iff_lt_mul (Nat.pow_pos (by norm_num)), ← Nat.pow_add]
    have : d - j + j = d := by omega
    rwa [this]
  have hin : ∀ j, i0 / 2 ^ j * 2 ^ j ≤ i0 ∧ i0 < i0 / 2 ^ j * 2 ^ j + 2 ^ j := by
    intro j
    have h1 := Nat.div_add_mod i0 (2 ^ j)
    have h2 := Nat.mod_lt i0 (Nat.pow_pos (a := 2) (n := j) (by norm_num))
    rw [Nat.mul_comm] at h1
    omega
  have hbf : bit H d 0 i0 = false := by
    cases hx : bit H d 0 i0
    · rfl
    · exact absurd rfl ((hb i0 hi0).1 hx)
  intro j
  induction j with
  | zero =>
    intro _
    rw [Nat.pow_zero, Nat.div_one, emit_leaf_down P _ i0 hbf]
    exact List.Perm.refl _
  | succ j ih =>
    intro hj
    have ihj := ih (by omega)
    have hdiv : i0 / 2 ^ (j + 1) = i0 / 2 ^ j / 2 := by
      rw [Nat.pow_succ, Nat.div_div_eq_div_mul]
    have hc1 := hlev (j + 1) hj
    have hc0 := hlev j (by omega)
    have hdown : bit H d (j + 1) (i0 / 2 ^ (j + 1)) = false := by
      cases hx : bit H d (j + 1) (i0 / 2 ^ (j + 1))
      · rfl
      · have := all_up A (j + 1) _ hj hc1 hx i0 (hin (j + 1)).1 (hin (j + 1)).2
        rw [hbf] at this
        cases this
    have hother : ∀ c, c < 2 ^ (d - j) → (i0 < c * 2 ^ j ∨ c * 2 ^ j + 2 ^ j ≤ i0) →
        emit P (bit H d) j c = [blk P j c] := by
      intro c hc hne
      refine emit_active P _ j c (all_up_conv A j c (by omega) hc ?_)
      intro x x1 x2
      have := block_bound d j c (by omega) hc
      exact (hb x (by omega)).2 (by omega)
    have hp : 0 < 2 ^ j := Nat.pow_pos (by norm_num)
    have hch := child_lt d j (i0 / 2 ^ (j + 1)) hc1 (by omega)
    have hmod := Nat.div_add_mod (i0 / 2 ^ j) 2
    have hin0 := hin j
    rw [emit_inactive P _ j _ hdown, List.range_succ, List.map_append, List.map_singleton]
    rw [hdiv] at hch ⊢
    by_cases h : (i0 / 2 ^ j) % 2 = 0
    · have e1 : 2 * (i0 / 2 ^ j / 2) = i0 / 2 ^ j := by omega
      have e2 : sibling (i0 / 2 ^ j) = 2 * (i0 / 2 ^ j / 2) + 1 := by
        unfold sibling
        rw [if_pos h]
        omega
      rw [e2, hother _ hch.2 (Or.inl (by
        have : (2 * (i0 / 2 ^ j / 2) + 1) * 2 ^ j = i0 / 2 ^ j * 2 ^ j + 2 ^ j := by
          rw [e1]
          ring
        omega)), e1]
      exact List.Perm.append_right _ ihj
    · have e1 : 2 * (i0 / 2 ^ j / 2) + 1 = i0 / 2 ^ j := by omega
      have e2 : sibling (i0 / 2 ^ j) = 2 * (i0 / 2 ^ j / 2) := by
        unfold sibling
        rw [if_neg h]
        omega
      rw [e2, hother _ hch.1 (Or.inr (by
        have : i0 / 2 ^ j * 2 ^ j = 2 * (i0 / 2 ^ j / 2) * 2 ^ j + 2 ^ j := by
          nth_rewrite 1 [← e1]
          ring
        omega)), e1]
      exact List.Perm.trans List.perm_append_comm (List.Perm.append_right _ ihj)

/-- C14 (one host down from all-up): for every root width `w` in [16,31] and every
in-subnet host `h`, from a state of the built tree in which every host is up, after
`mark_host_down(h)` the call `print_mst(root)` prints exactly `32 - w` entries: for each
width `k` in `w+1..32` the entry `((h & width_to_mask(k)) XOR 2^(32-k), k)`, every printed
entry is of that form, and the entries are listed in ascending address order. -/
theorem C14_one_host_down (addr w fuel : Nat) (ops : List Op) (h : Nat)
    (ha : addr < 2 ^ 32) (hw1 : 16 ≤ w) (hw2 : w ≤ 31) (hf : 32 - w + 2 ≤ fuel)
    (hops : ∀ op ∈ ops, in_subnet addr w op.host = true)
    (hup : ∀ a, in_subnet addr w a = true → most_recent_up ops a = true)
    (hh : in_subnet addr w h = true) :
    ∃ H0 H1 H2 out, main_init fuel addr w = some H0 ∧ run_ops fuel H0 ops = some H1 ∧
      mark_host_down fuel H1 h = some H2 ∧ print_mst fuel H2 Ptr.rootp = some out ∧
      (blocks out).length = 32 - w ∧
      (∀ k, w < k → k ≤ 32 → ∃ m, width_to_mask k = some m ∧
        ((h &&& m) ^^^ 2 ^ (32 - k), k) ∈ blocks out) ∧
      (∀ b ∈ blocks out, w < b.2 ∧ b.2 ≤ 32 ∧ ∃ m, width_to_mask b.2 = some m ∧
        b.1 = (h &&& m) ^^^ 2 ^ (32 - b.2)) ∧
      List.Pairwise (fun a b : Nat × Nat => a.1 < b.1) (blocks out) := by
  obtain ⟨hP, hPb⟩ := aligned_block addr (32 - w) ha (by omega)
  obtain ⟨hh1, hh2⟩ := (in_subnet_iff addr w h hw1 (by omega)).1 hh
  obtain ⟨H0, H1, e0, e1, _, _, S1, A1, b1⟩ :=
    reach_spec addr w fuel ops ha hw1 (by omega) hf hops
  obtain ⟨H2, e2, S2, A2, b2⟩ :=
    @mark_host_down_spec _ _ h fuel _ S1 A1 (by omega) hh1 hh2 hf
  obtain ⟨out, eo, em⟩ := print_root S2 hPb (by omega) hf
  obtain ⟨hsplit, hi0⟩ := host_split _ (32 - w) h hh1 (by omega) hh2
  have hbits : ∀ x, x < 2 ^ (32 - w) → (bit H2 (32 - w) 0 x = true ↔ x ≠ h % 2 ^ (32 - w)) := by
    intro x hx
    rw [b2 x hx]
    by_cases c : x = h % 2 ^ (32 - w)
    · simp [c]
    · rw [if_neg c, b1 x hx, hup _ ((in_subnet_iff addr w _ hw1 (by omega)).2
        ((subnet_range _ (32 - w) _ (by omega) hP hPb).2 ⟨by omega, by omega⟩))]
      simp [c]
  have pm := emit_one_down (P := addr &&& maskOf (32 - w)) A2 hi0 hbits (32 - w) (Nat.le_refl _)
  rw [Nat.div_eq_of_lt hi0, ← em] at pm
  have hentry : ∀ t, t < 32 - w →
      blk (addr &&& maskOf (32 - w)) t (sibling (h % 2 ^ (32 - w) / 2 ^ t))
        = ((h &&& maskOf t) ^^^ 2 ^ t, 32 - t) := by
    intro t ht
    have e := land_ancestor (addr &&& maskOf (32 - w)) (32 - w) t (h % 2 ^ (32 - w)) (by omega)
      hP hPb (by omega) hi0
    rw [← hsplit] at e
    rw [e, xor_sibling _ (32 - w) t _ hP ht]
    rfl
  refine ⟨H0, H1, H2, out, e0, e1, e2, eo, ?_, ?_, ?_, ?_⟩
  · have := pm.length_eq
    simp only [List.length_map, List.length_range] at this
    simp only [blocks, List.length_map]
    exact this
  · intro k hk1 hk2
    refine ⟨maskOf (32 - k), ?_, ?_⟩
    · have := width_to_mask_eq (32 - k) (by omega)
      have e : 32 - (32 - k) = k := by omega
      rwa [e] at this
    · refine pm.mem_iff.2 (List.mem_map.2 ⟨32 - k, List.mem_range.2 (by omega), ?_⟩)
      have e : 32 - (32 - k) = k := by omega
      rw [hentry (32 - k) (by omega), e]
  · intro b hb
    obtain ⟨t, ht, hbt⟩ := List.mem_map.1 (pm.mem_iff.1 hb)
    have ht := List.mem_range.1 ht
    rw [hentry t ht] at hbt
    subst hbt
    have e : 32 - (32 - t) = t := by omega
    refine ⟨by simp only; omega, by simp only; omega, maskOf t, ?_, ?_⟩
    · exact width_to_mask_eq t (by omega)
    · simp only [e]
  · rw [blocks, em]
    refine List.Pairwise.imp ?_ (emit_pairwise (32 - w) 0 (by omega))
    intro a b hab
    have : 0 < 2 ^ (32 - a.2) := Nat.pow_pos (by norm_num)
    omega

theorem C14_one_host_down_witness :
    ∃ H0 H1 H2 out, main_init 10 2163867904 24 = some H0 ∧
      run_ops 10 H0 ((List.range 256).map fun i => Op.up (2163867904 + i)) = some H1 ∧
      mark_host_down 10 H1 2163868104 = some H2 ∧ print_mst 10 H2 Ptr.rootp = some out ∧
      (blocks out).length = 32 - 24 ∧
      (∀ k, 24 < k → k ≤ 32 → ∃ m, width_to_mask k = some m ∧
        ((2163868104 &&& m) ^^^ 2 ^ (32 - k), k) ∈ blocks out) ∧
      (∀ b ∈ blocks out, 24 < b.2 ∧ b.2 ≤ 32 ∧ ∃ m, width_to_mask b.2 = some m ∧
        b.1 = (2163868104 &&& m) ^^^ 2 ^ (32 - b.2)) ∧
      List.Pairwise (fun a b : Nat × Nat => a.1 < b.1) (blocks out) :=
  have hr : ∀ a, in_subnet 2163867904 24 a = true → 2163867904 ≤ a ∧ a < 2163867904 + 256 := by
    intro a hin
    have hal := aligned_block 2163867904 (32 - 24) (by decide) (by decide)
    have h1 := (in_subnet_iff 2163867904 24 a (by decide) (by decide)).1 hin
    have h2 := (subnet_range _ (32 - 24) a (by decide) hal.1 hal.2).1 h1
    have e : 2163867904 &&& maskOf (32 - 24) = 2163867904 := by decide
    rw [e] at h2
    exact h2
  have hl : ∀ a, 2163867904 ≤ a → a < 2163867904 + 256 → in_subnet 2163867904 24 a = true := by
    intro a h1 h2
    have hal := aligned_block 2163867904 (32 - 24) (by decide) (by decide)
    have e : 2163867904 &&& maskOf (32 - 24) = 2163867904 := by decide
    refine (in_subnet_iff 2163867904 24 a (by decide) (by decide)).2
      ((subnet_range _ (32 - 24) a (by decide) hal.1 hal.2).2 ?_)
    rw [e]
    exact ⟨h1, h2⟩
  C14_one_host_down 2163867904 24 10 ((List.range 256).map fun i => Op.up (2163867904 + i))
    2163868104 (by decide) (by decide) (by decide) (by decide)
    (by
      intro op hop
      obtain ⟨i, hi, rfl⟩ := List.mem_map.1 hop
      have hi := List.mem_range.1 hi
      exact hl _ (by simp only [Op.host]; omega) (by simp only [Op.host]; omega))
    (by
      intro a hin
      obtain ⟨h1, h2⟩ := hr a hin
      refine (most_recent_up_of_ups _ ?_ a).2 ?_
      · intro op hop
        obtain ⟨i, hi, rfl⟩ := List.mem_map.1 hop
        rfl
      · have h3 : a - 2163867904 < 256 := by omega
        have h4 : 2163867904 + (a - 2163867904) = a := by omega
        have h5 : Op.up (2163867904 + (a - 2163867904)) = Op.up a := by rw [h4]
        exact ⟨Op.up a, List.mem_map.2 ⟨a - 2163867904, List.mem_range.2 h3, h5⟩, rfl⟩)
    (by decide)

end Mst
